import Mathlib

/-!
# FileServer.go: the header-decorating static file server

A shallow embedding of `FileServer.go` and of the parts of the Go standard
library it calls (`strings`, `path/filepath`, `net/textproto`, `net/http`,
`net`).

Modelling conventions.

* A Go `string` is a Lean `String`.  The routines of `strings`,
  `net/textproto`, `net/http` and `net` used here inspect only ASCII bytes
  (separators, digits, letters, `.`, `:`, `-`), which are single bytes of
  UTF-8, so working on characters agrees with Go's work on bytes for every
  well-formed UTF-8 string.  `filepath.Clean` indexes and counts bytes, so it
  works on the bytes of the path, which `filepath.bytes` lays out one to a
  cell.
* A Go `map[K]V` is a function `K → Option V` (`none`: key absent).
* A Go `byte` is a `Nat` reduced `% 256`; a byte slice is a `List Nat`, `nil`
  being `[]`.
* `path/filepath` is the Windows implementation (`Separator = '\\'`), the
  platform whose separator the program trims and splits on; `Clean`, its
  buffer `lazybuf`, `postClean` and `volumeNameLen` follow the Go sources as
  of Go 1.22.
* `net.ParseIP` follows the Go 1.x sources up to Go 1.16: no zone is accepted,
  and an octet may be written with leading zeros.
* Response headers are read under their canonical key, the key `Header.Set`
  writes to (`ETag` is stored as `Etag`, `X-FrontEnd` as `X-Frontend`).
* `ioutil.ReadFile` and `json.Unmarshal` are parameters of `getHeaderConfigs`;
  `log.Fatalln` ends a run with the outcome `fatal`.
* Loops are recursive functions; where a loop is bounded by a length it gets
  that length as fuel.
-/

namespace FileServer

/-! ## Package `strings` -/

namespace strings

/-- Byte index of the first occurrence of `sep` in `s` (`strings.Index`),
`none` standing for Go's `-1`. -/
def indexOf (s sep : List Char) : Option Nat :=
  match s with
  | [] => if sep.isEmpty then some 0 else none
  | c :: t =>
    if sep.isPrefixOf (c :: t) then some 0
    else (indexOf t sep).map (· + 1)

/-- The counting loop of `strings.Count` for a non-empty `substr`:
find the next occurrence, step over it, repeat. -/
def countLoop (substr : List Char) : Nat → List Char → Nat
  | 0, _ => 0
  | fuel + 1, s =>
    match indexOf s substr with
    | none => 0
    | some i => 1 + countLoop substr fuel (s.drop (i + substr.length))

/-- Number of non-overlapping occurrences of `substr` in `s`
(`strings.Count`); for the empty `substr` it is one more than the number of
characters. -/
def Count (s substr : List Char) : Nat :=
  if substr.isEmpty then s.length + 1 else countLoop substr s.length s

/-- The loop of `strings.genSplit` with `sepSave = 0`: at most `n` cuts, the
rest of the string being the last piece. -/
def splitLoop (sep : List Char) : Nat → List Char → List (List Char)
  | 0, s => [s]
  | n + 1, s =>
    match indexOf s sep with
    | none => [s]
    | some m => s.take m :: splitLoop sep n (s.drop (m + sep.length))

/-- Go `strings.Split(s, sep)`: all pieces of `s` separated by `sep`
(`genSplit(s, sep, 0, -1)`, so `n = Count(s, sep) + 1` pieces); with the
empty `sep` the string is exploded into its characters. -/
def Split (s sep : String) : List String :=
  if sep.data.isEmpty then s.data.map (fun c => String.mk [c])
  else (splitLoop sep.data (Count s.data sep.data) s.data).map String.mk

/-- Go `strings.Trim(s, cutset)`: `s` without its leading and trailing
characters that occur in `cutset`. -/
def Trim (s cutset : String) : String :=
  String.mk
    (((s.data.dropWhile (fun c => cutset.data.contains c)).reverse.dropWhile
      (fun c => cutset.data.contains c)).reverse)

end strings

/-! ## Package `path/filepath` (Windows) -/

namespace filepath

/-- Windows path separator. -/
def Separator : Char := '\\'

/-- Both slashes separate path elements on Windows
(`os.IsPathSeparator`, `isSlash`). -/
def isSlash (c : Char) : Bool := c == '\\' || c == '/'

/-- The cell that stands for a byte of a character after its first byte. -/
def pad : Char := Char.ofNat 0x80

/-- The bytes of a string, a cell for each: a character of `n` bytes takes `n`
cells, the character itself and `n - 1` cells `pad`.  A cell is an ASCII
character exactly when the byte is an ASCII byte, and two characters have the
same cells exactly when they have the same bytes; `Clean` compares bytes with
ASCII bytes, and the bytes it writes with those of the path at the same place,
writing whole characters. -/
def bytes (s : List Char) : List Char :=
  s.flatMap (fun c => c :: List.replicate (c.utf8Size - 1) pad)

/-- The characters of a sequence of bytes, read from the front; the number
of bytes is enough fuel. -/
def charsLoop : Nat → List Char → List Char
  | 0, _ => []
  | _ + 1, [] => []
  | fuel + 1, c :: l => c :: charsLoop fuel (l.drop (c.utf8Size - 1))

/-- The string that a sequence of bytes holds. -/
def chars (l : List Char) : List Char := charsLoop l.length l

/-- Go `toUpper` of `path_windows.go`: an ASCII lower-case letter becomes the
upper-case one. -/
def toUpper (c : Char) : Char :=
  if decide ('a' ≤ c) && decide (c ≤ 'z') then Char.ofNat (c.toNat - ('a'.toNat - 'A'.toNat))
  else c

/-- Go `pathHasPrefixFold(s, prefix)`: does `s` begin with `pfx`, ignoring
case and treating all path separators as equivalent; if `s` is longer than
`pfx`, a separator must follow the prefix. -/
def pathHasPrefixFold (s pfx : List Char) : Bool :=
  if s.length < pfx.length then false
  else if (List.zip pfx s).any
      (fun x => if isSlash x.1 then !isSlash x.2 else toUpper x.1 != toUpper x.2) then false
  else if decide (s.length > pfx.length) && !isSlash (s.getD pfx.length ' ') then false
  else true

/-- The loop of Go `uncLen`: `path` is what is left to read from index `i`,
`count` the separators seen; the result is the index of the second
separator, or `n`, the length of the whole path, if there is none. -/
def uncLenLoop (n : Nat) : List Char → Nat → Nat → Nat
  | [], _, _ => n
  | c :: path, i, count =>
    if isSlash c then
      if count + 1 == 2 then i else uncLenLoop n path (i + 1) (count + 1)
    else uncLenLoop n path (i + 1) count

/-- Go `uncLen(path, prefixLen)`: length of the volume prefix of a UNC path
whose host starts at `prefixLen`. -/
def uncLen (path : List Char) (prefixLen : Nat) : Nat :=
  uncLenLoop path.length (path.drop prefixLen) prefixLen 0

/-- Go `cutPath`: the path around its first separator, and whether there is
one. -/
def cutPath (path : List Char) : List Char × List Char × Bool :=
  match path.dropWhile (fun c => !isSlash c) with
  | [] => (path, [], false)
  | _ :: after => (path.takeWhile (fun c => !isSlash c), after, true)

/-- Go `filepath.volumeNameLen` (Windows): length of the leading volume
name. -/
def volumeNameLen (path : List Char) : Nat :=
  if decide (path.length ≥ 2) && path.getD 1 ' ' == ':' then
    -- Path starts with a drive letter.
    2
  else if path.length == 0 || !isSlash (path.getD 0 ' ') then
    -- Path does not have a volume component.
    0
  else if pathHasPrefixFold path "\\\\.\\UNC".data then
    uncLen path "\\\\.\\UNC\\".data.length
  else if pathHasPrefixFold path "\\\\.".data || pathHasPrefixFold path "\\\\?".data ||
      pathHasPrefixFold path "\\??".data then
    -- Local Device path or Root Local Device path.
    if path.length == 3 then 3
    else
      let cut := cutPath (path.drop 4)
      if !cut.2.2 then path.length
      else path.length - cut.2.1.length - 1
  else if decide (path.length ≥ 2) && isSlash (path.getD 1 ' ') then
    -- Path starts with \\, and is a UNC path.
    uncLen path 2
  else 0

/-- Go `lazybuf`: a lazily constructed path buffer; `buf` is `none` (Go's
`nil`) as long as the output is a prefix of `path`. -/
structure lazybuf where
  /-- The path being cleaned, without its volume name. -/
  path : List Char
  /-- The buffer, once allocated; it has the length of `path`. -/
  buf : Option (List Char)
  /-- The number of bytes written. -/
  w : Nat
  /-- The whole path. -/
  volAndPath : List Char
  /-- The length of the volume name. -/
  volLen : Nat

/-- Go `lazybuf.index`. -/
def lazybuf.index (b : lazybuf) (i : Nat) : Char :=
  match b.buf with
  | some buf => buf.getD i ' '
  | none => b.path.getD i ' '

/-- Go `lazybuf.append`: while no buffer is allocated, a byte equal to the
next byte of `path` only moves `w`; the first other byte allocates the buffer
(`make([]byte, len(b.path))`, zero bytes) and copies `path[:w]` into it. -/
def lazybuf.append (b : lazybuf) (c : Char) : lazybuf :=
  match b.buf with
  | none =>
    if b.w < b.path.length && b.path.getD b.w ' ' == c then { b with w := b.w + 1 }
    else
      { b with
        buf := some ((b.path.take b.w ++
          List.replicate (b.path.length - b.w) (Char.ofNat 0)).set b.w c)
        w := b.w + 1 }
  | some buf => { b with buf := some (buf.set b.w c), w := b.w + 1 }

/-- Go `lazybuf.prepend`. -/
def lazybuf.prepend (b : lazybuf) (pfx : List Char) : lazybuf :=
  { b with buf := some (pfx ++ b.buf.getD []), w := b.w + pfx.length }

/-- Go `lazybuf.string`. -/
def lazybuf.string (b : lazybuf) : List Char :=
  match b.buf with
  | none => b.volAndPath.take (b.volLen + b.w)
  | some buf => b.volAndPath.take b.volLen ++ buf.take b.w

/-- The inner loop of the `..` step of `Clean`:
`for out.w > dotdot && !isSlash(out.index(out.w)) { out.w-- }`. -/
def backtrack (dotdot : Nat) : Nat → lazybuf → lazybuf
  | 0, out => out
  | fuel + 1, out =>
    if out.w > dotdot && !isSlash (out.index out.w) then
      backtrack dotdot fuel { out with w := out.w - 1 }
    else out

/-- The main loop of `filepath.Clean`.  `path` is what is left to read
(`path[r:]`), `out` the buffer, `dotdot` the index where `..` must stop.
Every round reads at least one byte, so the number of bytes left is enough
fuel. -/
def cleanLoop (rooted : Bool) : Nat → List Char → lazybuf → Nat → lazybuf
  | 0, _, out, _ => out
  | fuel + 1, path, out, dotdot =>
    match path with
    | [] => out
    | c :: rest =>
      if isSlash c then
        -- empty path element
        cleanLoop rooted fuel rest out dotdot
      else if c == '.' && (rest.isEmpty || isSlash (rest.headD ' ')) then
        -- . element
        cleanLoop rooted fuel rest out dotdot
      else if c == '.' && rest.headD ' ' == '.' &&
          ((rest.drop 1).isEmpty || isSlash ((rest.drop 1).headD ' ')) then
        -- .. element: remove to last separator
        if out.w > dotdot then
          -- can backtrack
          cleanLoop rooted fuel (rest.drop 1)
            (backtrack dotdot out.w { out with w := out.w - 1 }) dotdot
        else if !rooted then
          -- cannot backtrack, but not rooted, so append .. element.
          let out1 := if out.w > 0 then out.append Separator else out
          let out2 := (out1.append '.').append '.'
          cleanLoop rooted fuel (rest.drop 1) out2 out2.w
        else
          cleanLoop rooted fuel (rest.drop 1) out dotdot
      else
        -- real path element: add slash if needed, copy element
        let out1 :=
          if (rooted && out.w != 1) || (!rooted && out.w != 0) then out.append Separator
          else out
        cleanLoop rooted fuel ((c :: rest).dropWhile (fun c => !isSlash c))
          (((c :: rest).takeWhile (fun c => !isSlash c)).foldl lazybuf.append out1) dotdot

/-- The first loop of Go `postClean`: is there a `:` in the buffer before
the first separator. -/
def colonInFirstElement : List Char → Bool
  | [] => false
  | c :: buf => if isSlash c then false else if c == ':' then true else colonInFirstElement buf

/-- Go `postClean` (Windows): keeps `Clean` from turning a relative path into
an absolute or rooted one. -/
def postClean (out : lazybuf) : lazybuf :=
  match out.buf with
  | none => out
  | some buf =>
    if out.volLen != 0 then out
    else if colonInFirstElement buf then
      -- a/../c: must not become c:
      out.prepend ['.', Separator]
    else if decide (buf.length ≥ 3) && isSlash (buf.getD 0 ' ') && buf.getD 1 ' ' == '?' &&
        buf.getD 2 ' ' == '?' then
      -- \a\..\??\c:\x must not become \??\c:\x
      out.prepend [Separator, '.']
    else out

/-- Go `filepath.FromSlash` on Windows: every `/` becomes `\`. -/
def FromSlash (path : List Char) : List Char :=
  path.map (fun c => if c == '/' then Separator else c)

/-- The body of Go `filepath.Clean` (Windows), on the bytes of the path. -/
def cleanBytes (originalPath : List Char) : List Char :=
  let volLen := volumeNameLen originalPath
  let path := originalPath.drop volLen
  if path.isEmpty then
    if decide (volLen > 1) && isSlash (originalPath.getD 0 ' ') &&
        isSlash (originalPath.getD 1 ' ') then
      -- should be UNC
      FromSlash originalPath
    else originalPath ++ ['.']
  else
    let rooted := isSlash (path.headD ' ')
    let out : lazybuf :=
      { path := path, buf := none, w := 0, volAndPath := originalPath, volLen := volLen }
    let out :=
      if rooted then cleanLoop rooted path.length (path.drop 1) (out.append Separator) 1
      else cleanLoop rooted path.length path out 0
    -- Turn empty string into "."
    let out := if out.w == 0 then out.append '.' else out
    FromSlash (postClean out).string

/-- Go `filepath.Clean` (Windows): the shortest equivalent path by purely
lexical processing, with `\` as separator. -/
def Clean (path : String) : String := String.mk (chars (cleanBytes (bytes path.data)))

end filepath

/-! ## Package `net/textproto` and `net/http` -/

namespace textproto

/-- The bytes allowed in a header field name (RFC 7230 token characters),
Go's `validHeaderFieldByte`. -/
def validHeaderFieldByte (c : Char) : Bool :=
  c.isAlphanum || "!#$%&'*+-.^_`|~".data.contains c

/-- The rewriting loop of `canonicalMIMEHeaderKey`: upper case for the first
letter and for each letter after a dash, lower case elsewhere. -/
def canonicalLoop : Bool → List Char → List Char
  | _, [] => []
  | upper, c :: cs =>
    let c1 :=
      if upper && decide ('a' ≤ c) && decide (c ≤ 'z') then c.toUpper
      else if !upper && decide ('A' ≤ c) && decide (c ≤ 'Z') then c.toLower
      else c
    c1 :: canonicalLoop (c1 == '-') cs

/-- Go `textproto.CanonicalMIMEHeaderKey`: a key holding a byte that is not
valid in a field name is returned unchanged, any other key is put in
canonical capitalisation. -/
def CanonicalMIMEHeaderKey (s : String) : String :=
  if s.data.all validHeaderFieldByte then String.mk (canonicalLoop true s.data) else s

end textproto

namespace http

/-- Go `http.Header`, a `map[string][]string`. -/
abbrev Header := String → Option (List String)

/-- Go `Header.Set`: the entry of the canonical key becomes the single value
`value`, replacing whatever was there. -/
def Header.Set (h : Header) (key value : String) : Header :=
  fun k => if k = textproto.CanonicalMIMEHeaderKey key then some [value] else h k

/-- Go `Header.Get`: the first value of the canonical key, `""` when there is
none. -/
def Header.Get (h : Header) (key : String) : String :=
  match h (textproto.CanonicalMIMEHeaderKey key) with
  | some (v :: _) => v
  | _ => ""

/-- The part of `url.URL` the program reads. -/
structure URL where
  Path : String

/-- The part of `http.Request` the program reads. -/
structure Request where
  URL : URL
  Header : Header

/-- A response in progress: the header map `w.Header()` and, in `conn`,
whatever else a handler writes (status line, body). -/
structure ResponseWriter (σ : Type) where
  Header : Header
  conn : σ

/-- Go `http.Handler`: `ServeHTTP(w, r)` as a function from the response
before the call to the response after it. -/
abbrev Handler (σ : Type) := ResponseWriter σ → Request → ResponseWriter σ

end http

/-! ## Package `net` -/

namespace net

/-- Go `net.IP`, a byte slice; `[]` is the `nil` address. -/
abbrev IP := List Nat

/-- Go `net.IPMask`, a byte slice. -/
abbrev IPMask := List Nat

/-- Length in bytes of an IPv4 address. -/
def IPv4len : Nat := 4

/-- Length in bytes of an IPv6 address. -/
def IPv6len : Nat := 16

/-- The twelve bytes that precede an IPv4 address held in sixteen bytes. -/
def v4InV6Prefix : List Nat := [0, 0, 0, 0, 0, 0, 0, 0, 0, 0, 0xff, 0xff]

/-- Go `net.IPv4(a, b, c, d)`: the sixteen-byte form of the IPv4 address. -/
def IPv4 (a b c d : Nat) : IP := v4InV6Prefix ++ [a, b, c, d]

/-- The loop of `CIDRMask` over the `l` bytes of the mask, `n` one-bits being
still to place: `0xff` while `n >= 8`, then `^byte(0xff >> n)`, then zeros. -/
def cidrLoop : Nat → Nat → List Nat
  | 0, _ => []
  | l + 1, n =>
    if n ≥ 8 then 0xff :: cidrLoop l (n - 8)
    else (0xff ^^^ (0xff >>> n)) % 256 :: cidrLoop l 0

/-- Go `net.CIDRMask(ones, bits)`: `ones` one-bits followed by zeros, `bits`
bits in all; `nil` for an impossible request. -/
def CIDRMask (ones bits : Nat) : IPMask :=
  if bits != 8 * IPv4len && bits != 8 * IPv6len then []
  else if ones > bits then []
  else cidrLoop (bits / 8) ones

/-- Go `IP.To4`: the four-byte form of an IPv4 address (also of one held in
sixteen bytes), `nil` for any other address. -/
def IP.To4 (ip : IP) : IP :=
  if ip.length == IPv4len then ip
  else if ip.length == IPv6len && (ip.take 10).all (· == 0) &&
      ip.getD 10 0 == 0xff && ip.getD 11 0 == 0xff then
    (ip.drop 12).take 4
  else []

/-- Go `IP.To16`: the sixteen-byte form of an address, `nil` if the length is
wrong. -/
def IP.To16 (ip : IP) : IP :=
  if ip.length == IPv4len then IPv4 (ip.getD 0 0) (ip.getD 1 0) (ip.getD 2 0) (ip.getD 3 0)
  else if ip.length == IPv6len then ip
  else []

/-- Go `IP.Mask`: the address and-ed bytewise with the mask, after bringing a
sixteen-byte IPv4 address and a four-byte mask (or the converse) to the same
length; `nil` if the lengths still differ. -/
def IP.Mask (ip : IP) (mask : IPMask) : IP :=
  let mask :=
    if mask.length == IPv6len && ip.length == IPv4len && (mask.take 12).all (· == 0xff) then
      mask.drop 12
    else mask
  let ip :=
    if mask.length == IPv4len && ip.length == IPv6len && ip.take 12 == v4InV6Prefix then
      ip.drop 12
    else ip
  if ip.length != mask.length then []
  else List.zipWith (fun a m => a &&& m) ip mask

/-- The loop of Go `uitoa`: peel decimal digits off `val` from the right into
the twenty-byte buffer. -/
def uitoaLoop : Nat → Nat → List Char → List Char
  | 0, _, buf => buf
  | fuel + 1, val, buf =>
    if val ≥ 10 then uitoaLoop fuel (val / 10) (Char.ofNat (48 + val % 10) :: buf)
    else Char.ofNat (48 + val) :: buf

/-- Go `uitoa`: an unsigned integer in decimal. -/
def uitoa (val : Nat) : List Char :=
  if val == 0 then ['0'] else uitoaLoop 20 val []

/-- The table `hexDigit` of Go's `net` package. -/
def hexDigit (v : Nat) : Char := "0123456789abcdef".data.getD v '0'

/-- Go `appendHex`: a sixteen-bit group in lower-case hexadecimal without
leading zeros. -/
def appendHex (dst : List Char) (i : Nat) : List Char :=
  if i == 0 then dst ++ ['0']
  else
    dst ++ [7, 6, 5, 4, 3, 2, 1, 0].filterMap (fun j =>
      let v := i >>> (j * 4)
      if v > 0 then some (hexDigit (v &&& 0xf)) else none)

/-- The inner loop of `IP.String`:
`for j < IPv6len && p[j] == 0 && p[j+1] == 0 { j += 2 }`. -/
def zeroRunEnd (p : IP) : Nat → Nat → Nat
  | 0, j => j
  | fuel + 1, j =>
    if j < IPv6len && p.getD j 0 == 0 && p.getD (j + 1) 0 == 0 then zeroRunEnd p fuel (j + 2)
    else j

/-- The outer loop of `IP.String` that finds the longest run of zero groups,
`[e0, e1)`; `-1` stands for no run yet. -/
def longestZeroRun (p : IP) : Nat → Nat → Int → Int → Int × Int
  | 0, _, e0, e1 => (e0, e1)
  | fuel + 1, i, e0, e1 =>
    if i < IPv6len then
      let j := zeroRunEnd p 8 i
      if j > i && ((j : Int) - (i : Int) > e1 - e0) then longestZeroRun p fuel (j + 2) i j
      else longestZeroRun p fuel (i + 2) e0 e1
    else (e0, e1)

/-- The printing loop of `IP.String`: groups in hexadecimal separated by
colons, with `::` in place of the run `[e0, e1)`. -/
def printGroups (p : IP) (e0 e1 : Int) : Nat → Nat → List Char → List Char
  | 0, _, b => b
  | fuel + 1, i, b =>
    if i < IPv6len then
      if (i : Int) == e0 then
        let b := b ++ [':', ':']
        let i := e1.toNat
        if i ≥ IPv6len then b
        else printGroups p e0 e1 fuel (i + 2) (appendHex b ((p.getD i 0 <<< 8) ||| p.getD (i + 1) 0))
      else
        let b := if i > 0 then b ++ [':'] else b
        printGroups p e0 e1 fuel (i + 2) (appendHex b ((p.getD i 0 <<< 8) ||| p.getD (i + 1) 0))
    else b

/-- Go `IP.String`: dotted decimal for an IPv4 address, for an IPv6 address
the colon-separated hexadecimal groups with the longest run of two or more
zero groups written `::`. -/
def IP.String (ip : IP) : String :=
  if ip.length == 0 then "<nil>"
  else
    let p4 := IP.To4 ip
    if p4.length == IPv4len then
      String.mk (uitoa (p4.getD 0 0) ++ ['.'] ++ uitoa (p4.getD 1 0) ++ ['.'] ++
        uitoa (p4.getD 2 0) ++ ['.'] ++ uitoa (p4.getD 3 0))
    else if ip.length != IPv6len then
      String.mk ('?' :: (ip.map (fun b => [hexDigit (b >>> 4), hexDigit (b &&& 0xf)])).flatten)
    else
      let (e0, e1) := longestZeroRun ip 8 0 (-1) (-1)
      -- The symbol "::" MUST NOT be used to shorten just one 16 bit 0 field.
      let (e0, e1) := if e1 - e0 ≤ 2 then ((-1 : Int), (-1 : Int)) else (e0, e1)
      String.mk (printGroups ip e0 e1 8 0 [])

/-- The bound `big` of Go's number parsers. -/
def big : Nat := 0xFFFFFF

/-- The loop of `dtoi` with `n` the value and `i` the count of digits read so
far. -/
def dtoiLoop : List Char → Nat → Nat → Nat × Nat × Bool
  | [], n, i => if i == 0 then (0, 0, false) else (n, i, true)
  | c :: cs, n, i =>
    if decide ('0' ≤ c) && decide (c ≤ '9') then
      let n := n * 10 + (c.toNat - 48)
      if n ≥ big then (big, i, false) else dtoiLoop cs n (i + 1)
    else if i == 0 then (0, 0, false) else (n, i, true)

/-- Go `dtoi`: decimal to integer; number, characters consumed, success. -/
def dtoi (s : List Char) : Nat × Nat × Bool := dtoiLoop s 0 0

/-- The loop of `xtoi`. -/
def xtoiLoop : List Char → Nat → Nat → Nat × Nat × Bool
  | [], n, i => if i == 0 then (0, i, false) else (n, i, true)
  | c :: cs, n, i =>
    if decide ('0' ≤ c) && decide (c ≤ '9') then
      let n := n * 16 + (c.toNat - 48)
      if n ≥ big then (0, i, false) else xtoiLoop cs n (i + 1)
    else if decide ('a' ≤ c) && decide (c ≤ 'f') then
      let n := n * 16 + (c.toNat - 97) + 10
      if n ≥ big then (0, i, false) else xtoiLoop cs n (i + 1)
    else if decide ('A' ≤ c) && decide (c ≤ 'F') then
      let n := n * 16 + (c.toNat - 65) + 10
      if n ≥ big then (0, i, false) else xtoiLoop cs n (i + 1)
    else if i == 0 then (0, i, false) else (n, i, true)

/-- Go `xtoi`: hexadecimal to integer; number, characters consumed,
success. -/
def xtoi (s : List Char) : Nat × Nat × Bool := xtoiLoop s 0 0

/-- The loop of `parseIPv4` over the octets still to read (`first` is
`i == 0`): a dot before every octet but the first, then a decimal number of
at most `0xFF`.  Gives the octets and the rest of the string. -/
def parseIPv4Octets : Nat → Bool → List Char → Option (List Nat × List Char)
  | 0, _, s => some ([], s)
  | k + 1, first, s =>
    if s.isEmpty then none  -- Missing octets.
    else if !first && s.headD ' ' != '.' then none
    else
      let s := if first then s else s.drop 1
      let (n, c, ok) := dtoi s
      if !ok || n > 0xFF then none
      else
        match parseIPv4Octets k false (s.drop c) with
        | none => none
        | some (p, s1) => some (n % 256 :: p, s1)

/-- Go `parseIPv4`: a dotted-decimal IPv4 address, `nil` if malformed. -/
def parseIPv4 (s : List Char) : IP :=
  match parseIPv4Octets 4 true s with
  | some (p, []) => IPv4 (p.getD 0 0) (p.getD 1 0) (p.getD 2 0) (p.getD 3 0)
  | _ => []

/-- The loop `for i < IPv6len` of `parseIPv6`: hexadecimal groups followed by
colons, possibly one `::` (its position kept in `ellipsis`) and a trailing
IPv4 address.  `none` is `return nil`; otherwise the rest of the string, `i`,
the bytes and the ellipsis at the end of the loop.  `i` grows by two every
round, so eight rounds are all there can be. -/
def parseIPv6Loop : Nat → List Char → Nat → IP → Option Nat →
    Option (List Char × Nat × IP × Option Nat)
  | 0, s, i, ip, ellipsis => some (s, i, ip, ellipsis)
  | fuel + 1, s, i, ip, ellipsis =>
    if i < IPv6len then
      -- Hex number.
      let (n, c, ok) := xtoi s
      if !ok || n > 0xFFFF then none
      else if decide (c < s.length) && s.getD c ' ' == '.' then
        -- If followed by dot, might be in trailing IPv4.
        if ellipsis.isNone && i != IPv6len - IPv4len then none
        else if i + IPv4len > IPv6len then none
        else
          let ip4 := parseIPv4 s
          if ip4.isEmpty then none
          else
            some ([], i + IPv4len,
              (((ip.set i (ip4.getD 12 0)).set (i + 1) (ip4.getD 13 0)).set (i + 2)
                (ip4.getD 14 0)).set (i + 3) (ip4.getD 15 0),
              ellipsis)
      else
        -- Save this 16-bit chunk.
        let ip := (ip.set i ((n >>> 8) % 256)).set (i + 1) (n % 256)
        let i := i + 2
        -- Stop at end of string.
        let s := s.drop c
        if s.isEmpty then some (s, i, ip, ellipsis)
        -- Otherwise must be followed by colon and more.
        else if s.headD ' ' != ':' || s.length == 1 then none
        else
          let s := s.drop 1
          -- Look for ellipsis.
          if s.headD ' ' == ':' then
            if ellipsis.isSome then none
            else
              let s := s.drop 1
              if s.isEmpty then some (s, i, ip, some i)
              else parseIPv6Loop fuel s i ip (some i)
          else parseIPv6Loop fuel s i ip ellipsis
    else some (s, i, ip, ellipsis)

/-- Go `parseIPv6` (no zone): a literal IPv6 address as sixteen bytes, `nil`
if malformed.  The two closing loops that expand the ellipsis move the bytes
`[ellipsis, i)` to the end and fill the gap with zeros. -/
def parseIPv6 (s : List Char) : IP :=
  let ip := List.replicate IPv6len 0
  -- Might have leading ellipsis
  let lead := decide (s.length ≥ 2) && s.getD 0 ' ' == ':' && s.getD 1 ' ' == ':'
  let s := if lead then s.drop 2 else s
  -- Might be only ellipsis
  if lead && s.isEmpty then ip
  else
    match parseIPv6Loop 8 s 0 ip (if lead then some 0 else none) with
    | none => []
    | some (s, i, ip, ellipsis) =>
      -- Must have used entire string.
      if !s.isEmpty then []
      else if i < IPv6len then
        -- If didn't parse enough, expand ellipsis.
        match ellipsis with
        | none => []
        | some e =>
          ip.take e ++ List.replicate (IPv6len - i) 0 ++ (ip.drop e).take (i - e)
      else if ellipsis.isSome then []  -- Ellipsis must represent at least one 0 group.
      else ip

/-- The scan of `ParseIP` for the first `.` or `:`, which decides between the
two address forms. -/
def parseIPScan (s : List Char) : List Char → IP
  | [] => []
  | c :: cs =>
    if c == '.' then parseIPv4 s
    else if c == ':' then parseIPv6 s
    else parseIPScan s cs

/-- Go `net.ParseIP`: the address written in `s`, in sixteen bytes, or `nil`
if `s` is not the text form of an IPv4 or IPv6 address. -/
def ParseIP (s : String) : IP := parseIPScan s.data s.data

end net

/-! ## FileServer.go -/

/-- The record `HeaderConfig` of `FileServer.go`. -/
structure HeaderConfig where
  ConfigName : String
  AccessControlAllowOrigin : String
  AccessControlExposeHeaders : String
  CacheControl : String
  ETag : String
  TimingAllowOrigin : String
  XFrontEnd : String
deriving DecidableEq, Repr

/-- The `map[string]HeaderConfig` handed to `addHeadersToHandler`. -/
abbrev HeaderConfigMap := String → Option HeaderConfig

/-- `setHeaderIfValIsNonEmpty`: set the header unless the value is empty. -/
def setHeaderIfValIsNonEmpty {σ : Type} (responseWriter : http.ResponseWriter σ)
    (key val : String) : http.ResponseWriter σ :=
  if val != "" then
    { responseWriter with Header := http.Header.Set responseWriter.Header key val }
  else responseWriter

/-- `hasCustomAPCHeaders`: true if the path contains an `apc` resource. -/
def hasCustomAPCHeaders (urlPath : String) : Bool :=
  let urlPathArr := strings.Split urlPath "\\"
  let urlPathLen := urlPathArr.length
  (decide (urlPathLen > 1) && urlPathArr.getD 0 "" == "apc") ||
    (decide (urlPathLen > 2) && urlPathArr.getD 0 "" == "edge_footprint" &&
      urlPathArr.getD 1 "" == "apc")

/-- `getEdgeNodeShortName`: the last piece of the name split on `-`, or `""`
when there is only one piece. -/
def getEdgeNodeShortName (edgeNode : String) : String :=
  let edgeNodeSplitArr := strings.Split edgeNode "-"
  if edgeNodeSplitArr.length > 1 then
    edgeNodeSplitArr.getD (edgeNodeSplitArr.length - 1) ""
  else ""

/-- The package variable `ipv4Mask = net.CIDRMask(24, 32)`. -/
def ipv4Mask : net.IPMask := net.CIDRMask 24 32

/-- The package variable `ipv6Mask = net.CIDRMask(32, 128)`. -/
def ipv6Mask : net.IPMask := net.CIDRMask 32 128

/-- `scrubIPAddressAsStr`: the address cut down to its /24 (IPv4) or /32
(IPv6) network, `""` for a string that is no address. -/
def scrubIPAddressAsStr (inputIPAddr : String) : String :=
  let ipAddress := net.ParseIP inputIPAddr
  if ipAddress.isEmpty then ""
  else if !(net.IP.To4 ipAddress).isEmpty then
    net.IP.String (net.IP.Mask ipAddress ipv4Mask)
  else if !(net.IP.To16 ipAddress).isEmpty then
    net.IP.String (net.IP.Mask ipAddress ipv6Mask)
  else ""

/-- The path normalisation of the handler, the expression
`strings.Trim(filepath.Clean(string(r.URL.Path)), "\\")` of its first line. -/
def normalize (p : String) : String := strings.Trim (filepath.Clean p) "\\"

/-- `addHeadersToHandler`: the handler that sets the configured headers of the
request's path and then calls the wrapped handler `h`. -/
def addHeadersToHandler {σ : Type} (h : http.Handler σ) (headerConfigMap : HeaderConfigMap) :
    http.Handler σ :=
  fun w r =>
    let urlPath := normalize r.URL.Path
    let w :=
      match headerConfigMap urlPath with
      | some headerConfig =>
        -- Add headers to the response, if applicable
        let w := setHeaderIfValIsNonEmpty w "Access-Control-Allow-Origin"
          headerConfig.AccessControlAllowOrigin
        let w := setHeaderIfValIsNonEmpty w "Access-Control-Expose-Headers"
          headerConfig.AccessControlExposeHeaders
        let w := setHeaderIfValIsNonEmpty w "Cache-Control" headerConfig.CacheControl
        let w := setHeaderIfValIsNonEmpty w "ETag" headerConfig.ETag
        let w := setHeaderIfValIsNonEmpty w "Timing-Allow-Origin" headerConfig.TimingAllowOrigin
        if hasCustomAPCHeaders urlPath then
          let w := setHeaderIfValIsNonEmpty w "X-FrontEnd" headerConfig.XFrontEnd
          let w := setHeaderIfValIsNonEmpty w "X-EndPoint"
            (getEdgeNodeShortName (http.Header.Get r.Header "X-FD-EdgeEnvironment"))
          setHeaderIfValIsNonEmpty w "X-UserHostAddress"
            (scrubIPAddressAsStr (http.Header.Get r.Header "X-FD-SocketIP"))
        else w
      | none => w
    h w r

/-- A wrapped handler that does nothing but note the request it was called
with, at the end of the list `conn`: it makes calls of the wrapped handler
countable. -/
def recordingHandler : http.Handler (List http.Request) :=
  fun w r => { w with conn := w.conn ++ [r] }

/-- How a call that may reach `log.Fatalln` ends: it returns a value, or the
process is aborted after the message is logged. -/
inductive Outcome (α : Type) where
  | returned (value : α)
  | fatal (message : String)

/-- `getHeaderConfigs`.  The two library calls are parameters: `ReadFile` is
`ioutil.ReadFile` (the content of the file or the error) and `Unmarshal` is
`json.Unmarshal(data, &v)` (the value of `v` after the call and the error, if
any). -/
def getHeaderConfigs (ReadFile : String → Except String String)
    (Unmarshal : String → List HeaderConfig → List HeaderConfig × Option String)
    (configFileLoc : String) : Outcome (List HeaderConfig) :=
  let headerConfigs : List HeaderConfig := []
  match ReadFile configFileLoc with
  | .ok config =>
    match Unmarshal config headerConfigs with
    | (_, some _) => .fatal "Failed to unmarshal the json header config."
    | (headerConfigs, none) => .returned headerConfigs
  | .error _ => .returned headerConfigs

/-- The loop of `main` that fills the map, starting from the empty map:
`headerConfigMap[headerConfig.ConfigName] = headerConfig` for every record in
order. -/
def mainHeaderConfigMap (headerConfigs : List HeaderConfig) : HeaderConfigMap :=
  headerConfigs.foldl
    (fun headerConfigMap headerConfig =>
      fun k => if k = headerConfig.ConfigName then some headerConfig else headerConfigMap k)
    (fun _ => none)

/-! ## Auxiliary notions for the proofs -/

/-- A well-formed sixteen-byte address: sixteen entries, each a byte. -/
def net.IP.wf (ip : net.IP) : Prop := ip.length = 16 ∧ ∀ b ∈ ip, b < 256

/-- The number a string of decimal digits stands for, continuing from `n`. -/
def net.decVal (n : Nat) (ds : List Char) : Nat :=
  ds.foldl (fun n c => n * 10 + (c.toNat - 48)) n

/-- A decimal digit, the test `'0' <= c && c <= '9'` of `dtoi`. -/
def net.isDigit (c : Char) : Bool := decide ('0' ≤ c) && decide (c ≤ '9')

/-- A hexadecimal digit, the three tests of `xtoi`. -/
def net.isHexDigit (c : Char) : Bool :=
  (decide ('0' ≤ c) && decide (c ≤ '9')) || (decide ('a' ≤ c) && decide (c ≤ 'f')) ||
    (decide ('A' ≤ c) && decide (c ≤ 'F'))

/-- The value of a hexadecimal digit. -/
def net.hexDigitVal (c : Char) : Nat :=
  if decide ('0' ≤ c) && decide (c ≤ '9') then c.toNat - 48
  else if decide ('a' ≤ c) && decide (c ≤ 'f') then c.toNat - 97 + 10
  else c.toNat - 65 + 10

/-- The number a string of hexadecimal digits stands for, continuing from
`n`. -/
def net.hexVal (n : Nat) (ds : List Char) : Nat :=
  ds.foldl (fun n c => n * 16 + net.hexDigitVal c) n

/-- A path element as `Clean` writes it: not empty and free of slashes. -/
def filepath.isElem (e : List Char) : Prop := e ≠ [] ∧ ∀ c ∈ e, filepath.isSlash c = false

/-- A path element that `Clean` keeps as a name: neither `.` nor `..`. -/
def filepath.isName (e : List Char) : Prop :=
  filepath.isElem e ∧ e ≠ ['.'] ∧ e ≠ ['.', '.']

/-- Path elements joined by the separator. -/
def filepath.joinSep : List (List Char) → List Char
  | [] => []
  | [e] => e
  | e :: e1 :: es => e ++ filepath.Separator :: filepath.joinSep (e1 :: es)

/-- The relative path of `k` elements `..` followed by the elements
`names`. -/
def filepath.cleaned (k : Nat) (names : List (List Char)) : List Char :=
  filepath.joinSep (List.replicate k ['.', '.'] ++ names)

/-- What `Clean` writes before the first element: the separator of a rooted
path, nothing otherwise; held last byte first (a palindrome). -/
def filepath.base (rooted : Bool) : List Char := if rooted then [filepath.Separator] else []

/-- A path that neither begins nor ends with a slash (and is not empty). -/
def filepath.trimmed (q : List Char) : Prop :=
  (∃ x xs, q = x :: xs ∧ filepath.isSlash x = false) ∧
    ∃ ys y, q = ys ++ [y] ∧ filepath.isSlash y = false

/-- The written part of the buffer, `buf[:w]`. -/
def filepath.lazybuf.content (b : filepath.lazybuf) : List Char :=
  match b.buf with
  | none => b.path.take b.w
  | some buf => buf.take b.w

/-- A buffer in which the next byte can be written: `w` has not passed the
end of the path, and the allocated buffer has the length of the path. -/
def filepath.lazybuf.wf (b : filepath.lazybuf) : Prop :=
  b.w ≤ b.path.length ∧ ∀ buf, b.buf = some buf → buf.length = b.path.length

/-- The buffer of a run that has only appended, and has written `content`:
not allocated while `content` is a prefix of `path`, and otherwise `content`
followed by the zero bytes of the allocation. -/
def filepath.lazybuf.holding (path content volAndPath : List Char) (volLen : Nat) :
    filepath.lazybuf :=
  { path := path
    buf :=
      if content <+: path then none
      else some (content ++ List.replicate (path.length - content.length) (Char.ofNat 0))
    w := content.length
    volAndPath := volAndPath
    volLen := volLen }

/-- The `..` step of `Clean` on the written part of the buffer alone, held
last byte first. -/
def filepath.outBacktrack (dotdot : Nat) : List Char → List Char
  | [] => []
  | c :: out =>
    if out.length > dotdot && !filepath.isSlash c then filepath.outBacktrack dotdot out else out

/-- The main loop of `Clean` on the written part of the buffer alone, held
last byte first. -/
def filepath.outLoop (rooted : Bool) : Nat → List Char → List Char → Nat → List Char
  | 0, _, out, _ => out
  | fuel + 1, path, out, dotdot =>
    match path with
    | [] => out
    | c :: rest =>
      if filepath.isSlash c then
        filepath.outLoop rooted fuel rest out dotdot
      else if c == '.' && (rest.isEmpty || filepath.isSlash (rest.headD ' ')) then
        filepath.outLoop rooted fuel rest out dotdot
      else if c == '.' && rest.headD ' ' == '.' &&
          ((rest.drop 1).isEmpty || filepath.isSlash ((rest.drop 1).headD ' ')) then
        if out.length > dotdot then
          filepath.outLoop rooted fuel (rest.drop 1) (filepath.outBacktrack dotdot out) dotdot
        else if !rooted then
          let out1 := if out.length > 0 then filepath.Separator :: out else out
          filepath.outLoop rooted fuel (rest.drop 1) ('.' :: '.' :: out1) (out1.length + 2)
        else
          filepath.outLoop rooted fuel (rest.drop 1) out dotdot
      else
        let out1 :=
          if (rooted && out.length != 1) || (!rooted && out.length != 0) then
            filepath.Separator :: out
          else out
        filepath.outLoop rooted fuel ((c :: rest).dropWhile (fun c => !filepath.isSlash c))
          (((c :: rest).takeWhile (fun c => !filepath.isSlash c)).reverse ++ out1) dotdot

/-- A relative path in the form `Clean` writes: `.`, or elements `..`
followed by names, joined by single separators. -/
def filepath.relForm (q : List Char) : Prop :=
  q = ['.'] ∨ ∃ k names, (∀ e ∈ names, filepath.isName e) ∧ q ≠ [] ∧ q = filepath.cleaned k names

/-- Bytes that begin with a drive: any byte and a colon. -/
def filepath.hasDrive (q : List Char) : Prop := ∃ c t, q = c :: ':' :: t

/-- Bytes that are the bytes of a string. -/
def filepath.valid (l : List Char) : Prop := ∃ s, l = filepath.bytes s

/-- The paths, byte by byte, that normalisation leaves as they are: a
relative path in clean form that does not begin with a drive; or a drive
whose first byte is not a slash, followed by a relative path in clean form or
by a separator and names; or `.\` followed by names of which the first
contains a colon. -/
def normalForm (q : List Char) : Prop :=
  (filepath.relForm q ∧ ¬ filepath.hasDrive q) ∨
  (∃ c body, q = c :: ':' :: body ∧ filepath.isSlash c = false ∧
    (filepath.relForm body ∨
      ∃ names, names ≠ [] ∧ (∀ e ∈ names, filepath.isName e) ∧
        body = filepath.Separator :: filepath.joinSep names)) ∨
  (∃ name names, (∀ e ∈ name :: names, filepath.isName e) ∧ ':' ∈ name ∧
    q = '.' :: filepath.Separator :: filepath.joinSep (name :: names))

/-! ## Sample data -/

/-- A response with no header set and nothing written. -/
def emptyResponse : http.ResponseWriter Unit := { Header := fun _ => none, conn := () }

/-- A response that already carries two values of `Cache-Control`. -/
def staleResponse : http.ResponseWriter Unit :=
  { Header := fun k => if k = "Cache-Control" then some ["no-store", "private"] else none,
    conn := () }

/-- A configuration record for `static\app.js` that sets `Cache-Control` and
`ETag` only. -/
def appJsConfig : HeaderConfig :=
  { ConfigName := "static\\app.js", AccessControlAllowOrigin := "",
    AccessControlExposeHeaders := "", CacheControl := "max-age=3600", ETag := "\"v1\"",
    TimingAllowOrigin := "", XFrontEnd := "fe01" }

/-- A configuration record for the APC resource `apc\logo.gif`. -/
def apcLogoConfig : HeaderConfig :=
  { ConfigName := "apc\\logo.gif", AccessControlAllowOrigin := "*",
    AccessControlExposeHeaders := "", CacheControl := "", ETag := "",
    TimingAllowOrigin := "*", XFrontEnd := "fe01" }

/-- The configuration map holding the two sample records. -/
def sampleMap : HeaderConfigMap :=
  fun k =>
    if k = "static\\app.js" then some appJsConfig
    else if k = "apc\\logo.gif" then some apcLogoConfig
    else none

/-- Request headers as an upstream proxy sends them. -/
def proxyHeaders (edge ip : String) : http.Header :=
  fun k =>
    if k = "X-Fd-Edgeenvironment" then some [edge]
    else if k = "X-Fd-Socketip" then some [ip]
    else none

/-- A request for `/static/app.js`. -/
def appJsRequest : http.Request :=
  { URL := { Path := "/static/app.js" }, Header := proxyHeaders "region-cluster-node42" "192.168.17.42" }

/-- A request for `/apc/logo.gif`. -/
def apcLogoRequest : http.Request :=
  { URL := { Path := "/apc/logo.gif" }, Header := proxyHeaders "region-cluster-node42" "192.168.17.42" }

/-- A request for `/apc/logo.gif` whose proxy headers carry nothing usable. -/
def apcBadRequest : http.Request :=
  { URL := { Path := "/apc/logo.gif" }, Header := proxyHeaders "standalone" "not-an-ip" }

/-- A request for a path that has no configuration. -/
def otherRequest : http.Request :=
  { URL := { Path := "/index.html" }, Header := proxyHeaders "region-cluster-node42" "192.168.17.42" }

/-- The configuration record of the spec's example: `static\app.js` with
`Cache-Control` only. -/
def cacheOnlyConfig : HeaderConfig :=
  { ConfigName := "static\\app.js", AccessControlAllowOrigin := "",
    AccessControlExposeHeaders := "", CacheControl := "max-age=3600", ETag := "",
    TimingAllowOrigin := "", XFrontEnd := "" }

/-- An older record for the same path. -/
def cacheOldConfig : HeaderConfig :=
  { ConfigName := "static\\app.js", AccessControlAllowOrigin := "",
    AccessControlExposeHeaders := "", CacheControl := "no-cache", ETag := "",
    TimingAllowOrigin := "", XFrontEnd := "" }

/-- The eight header names the handler may set. -/
def decoratedNames : List String :=
  ["Access-Control-Allow-Origin", "Access-Control-Expose-Headers", "Cache-Control", "ETag",
    "Timing-Allow-Origin", "X-FrontEnd", "X-EndPoint", "X-UserHostAddress"]

/-- A file system with a well-formed and a broken header configuration. -/
def sampleReadFile (name : String) : Except String String :=
  if name = "headerConfig.json" then
    .ok "[\x7b\"ConfigName\": \"static\\\\app.js\", \"CacheControl\": \"max-age=3600\"\x7d]"
  else if name = "broken.json" then .ok "[\x7b"
  else .error "open: The system cannot find the file specified."

/-- A decoder that knows the well-formed sample document and the empty array
and rejects everything else. -/
def sampleUnmarshal (data : String) (v : List HeaderConfig) : List HeaderConfig × Option String :=
  if data = "[\x7b\"ConfigName\": \"static\\\\app.js\", \"CacheControl\": \"max-age=3600\"\x7d]" then
    ([cacheOnlyConfig], none)
  else if data = "[]" then ([], none)
  else (v, some "unexpected end of JSON input")

/-! ## The decorating handler -/

theorem setHeaderIfValIsNonEmpty_Header {σ : Type} (w : http.ResponseWriter σ)
    (key val k : String) :
    (setHeaderIfValIsNonEmpty w key val).Header k =
      if val ≠ "" ∧ k = textproto.CanonicalMIMEHeaderKey key then some [val] else w.Header k := by
  unfold setHeaderIfValIsNonEmpty
  by_cases hv : val = ""
  · simp [hv]
  · simp [hv, http.Header.Set]

theorem setHeaderIfValIsNonEmpty_conn {σ : Type} (w : http.ResponseWriter σ) (key val : String) :
    (setHeaderIfValIsNonEmpty w key val).conn = w.conn := by
  unfold setHeaderIfValIsNonEmpty
  split <;> rfl

theorem canonical_allowOrigin :
    textproto.CanonicalMIMEHeaderKey "Access-Control-Allow-Origin" = "Access-Control-Allow-Origin" := by
  decide

theorem canonical_exposeHeaders :
    textproto.CanonicalMIMEHeaderKey "Access-Control-Expose-Headers" =
      "Access-Control-Expose-Headers" := by
  decide

theorem canonical_cacheControl :
    textproto.CanonicalMIMEHeaderKey "Cache-Control" = "Cache-Control" := by
  decide

theorem canonical_etag : textproto.CanonicalMIMEHeaderKey "ETag" = "Etag" := by
  decide

theorem canonical_timingAllowOrigin :
    textproto.CanonicalMIMEHeaderKey "Timing-Allow-Origin" = "Timing-Allow-Origin" := by
  decide

theorem canonical_frontEnd : textproto.CanonicalMIMEHeaderKey "X-FrontEnd" = "X-Frontend" := by
  decide

theorem canonical_endPoint : textproto.CanonicalMIMEHeaderKey "X-EndPoint" = "X-Endpoint" := by
  decide

theorem canonical_userHostAddress :
    textproto.CanonicalMIMEHeaderKey "X-UserHostAddress" = "X-Userhostaddress" := by
  decide

/-- The handler is the wrapped handler run on the decorated response: what
`h` receives is what the handler built around the identity returns. -/
theorem addHeadersToHandler_delegates {σ : Type} (h : http.Handler σ) (m : HeaderConfigMap)
    (w : http.ResponseWriter σ) (r : http.Request) :
    addHeadersToHandler h m w r = h (addHeadersToHandler (fun w _ => w) m w r) r := rfl

/-- C1: when the map has an entry for the normalized path, each of the five
direct headers whose configured value is non-empty holds exactly that one
value when the wrapped handler runs, and each whose configured value is empty
is as it was before. -/
theorem addHeadersToHandler_direct_headers {σ : Type} (m : HeaderConfigMap)
    (w : http.ResponseWriter σ) (r : http.Request) (hc : HeaderConfig)
    (hfound : m (normalize r.URL.Path) = some hc) :
    ∃ w1 : http.ResponseWriter σ,
      (∀ h : http.Handler σ, addHeadersToHandler h m w r = h w1 r) ∧
      w1.Header (textproto.CanonicalMIMEHeaderKey "Access-Control-Allow-Origin") =
        (if hc.AccessControlAllowOrigin = "" then
          w.Header (textproto.CanonicalMIMEHeaderKey "Access-Control-Allow-Origin")
        else some [hc.AccessControlAllowOrigin]) ∧
      w1.Header (textproto.CanonicalMIMEHeaderKey "Access-Control-Expose-Headers") =
        (if hc.AccessControlExposeHeaders = "" then
          w.Header (textproto.CanonicalMIMEHeaderKey "Access-Control-Expose-Headers")
        else some [hc.AccessControlExposeHeaders]) ∧
      w1.Header (textproto.CanonicalMIMEHeaderKey "Cache-Control") =
        (if hc.CacheControl = "" then w.Header (textproto.CanonicalMIMEHeaderKey "Cache-Control")
        else some [hc.CacheControl]) ∧
      w1.Header (textproto.CanonicalMIMEHeaderKey "ETag") =
        (if hc.ETag = "" then w.Header (textproto.CanonicalMIMEHeaderKey "ETag")
        else some [hc.ETag]) ∧
      w1.Header (textproto.CanonicalMIMEHeaderKey "Timing-Allow-Origin") =
        (if hc.TimingAllowOrigin = "" then
          w.Header (textproto.CanonicalMIMEHeaderKey "Timing-Allow-Origin")
        else some [hc.TimingAllowOrigin]) := by
  refine ⟨addHeadersToHandler (fun w _ => w) m w r, fun h => rfl, ?_⟩
  simp only [addHeadersToHandler, hfound]
  refine ⟨?_, ?_, ?_, ?_, ?_⟩ <;> split <;>
    simp [setHeaderIfValIsNonEmpty_Header, canonical_allowOrigin, canonical_exposeHeaders,
      canonical_cacheControl, canonical_etag, canonical_timingAllowOrigin, canonical_frontEnd,
      canonical_endPoint, canonical_userHostAddress]

/-- C1 at the request for `/static/app.js`, whose response already carries two
values of `Cache-Control`. -/
theorem addHeadersToHandler_direct_headers_witness :
    sampleMap (normalize appJsRequest.URL.Path) = some appJsConfig ∧
    ∃ w1 : http.ResponseWriter Unit,
      (∀ h : http.Handler Unit, addHeadersToHandler h sampleMap staleResponse appJsRequest =
        h w1 appJsRequest) ∧
      w1.Header (textproto.CanonicalMIMEHeaderKey "Access-Control-Allow-Origin") =
        (if appJsConfig.AccessControlAllowOrigin = "" then
          staleResponse.Header (textproto.CanonicalMIMEHeaderKey "Access-Control-Allow-Origin")
        else some [appJsConfig.AccessControlAllowOrigin]) ∧
      w1.Header (textproto.CanonicalMIMEHeaderKey "Access-Control-Expose-Headers") =
        (if appJsConfig.AccessControlExposeHeaders = "" then
          staleResponse.Header (textproto.CanonicalMIMEHeaderKey "Access-Control-Expose-Headers")
        else some [appJsConfig.AccessControlExposeHeaders]) ∧
      w1.Header (textproto.CanonicalMIMEHeaderKey "Cache-Control") =
        (if appJsConfig.CacheControl = "" then
          staleResponse.Header (textproto.CanonicalMIMEHeaderKey "Cache-Control")
        else some [appJsConfig.CacheControl]) ∧
      w1.Header (textproto.CanonicalMIMEHeaderKey "ETag") =
        (if appJsConfig.ETag = "" then staleResponse.Header (textproto.CanonicalMIMEHeaderKey "ETag")
        else some [appJsConfig.ETag]) ∧
      w1.Header (textproto.CanonicalMIMEHeaderKey "Timing-Allow-Origin") =
        (if appJsConfig.TimingAllowOrigin = "" then
          staleResponse.Header (textproto.CanonicalMIMEHeaderKey "Timing-Allow-Origin")
        else some [appJsConfig.TimingAllowOrigin]) :=
  ⟨by decide, addHeadersToHandler_direct_headers sampleMap staleResponse appJsRequest appJsConfig
    (by decide)⟩

/-- C2: for a request whose normalized path has an entry and is an APC path,
`X-FrontEnd` is set to the configured `XFrontEnd`, `X-EndPoint` to the short
name of the edge node in `X-FD-EdgeEnvironment` and `X-UserHostAddress` to the
scrubbed address in `X-FD-SocketIP`, each only when its source value is
non-empty and left as it was otherwise. -/
theorem addHeadersToHandler_apc_headers {σ : Type} (m : HeaderConfigMap)
    (w : http.ResponseWriter σ) (r : http.Request) (hc : HeaderConfig)
    (hfound : m (normalize r.URL.Path) = some hc)
    (hapc : hasCustomAPCHeaders (normalize r.URL.Path) = true) :
    ∃ w1 : http.ResponseWriter σ,
      (∀ h : http.Handler σ, addHeadersToHandler h m w r = h w1 r) ∧
      w1.Header (textproto.CanonicalMIMEHeaderKey "X-FrontEnd") =
        (if hc.XFrontEnd = "" then w.Header (textproto.CanonicalMIMEHeaderKey "X-FrontEnd")
        else some [hc.XFrontEnd]) ∧
      w1.Header (textproto.CanonicalMIMEHeaderKey "X-EndPoint") =
        (if getEdgeNodeShortName (http.Header.Get r.Header "X-FD-EdgeEnvironment") = "" then
          w.Header (textproto.CanonicalMIMEHeaderKey "X-EndPoint")
        else some [getEdgeNodeShortName (http.Header.Get r.Header "X-FD-EdgeEnvironment")]) ∧
      w1.Header (textproto.CanonicalMIMEHeaderKey "X-UserHostAddress") =
        (if scrubIPAddressAsStr (http.Header.Get r.Header "X-FD-SocketIP") = "" then
          w.Header (textproto.CanonicalMIMEHeaderKey "X-UserHostAddress")
        else some [scrubIPAddressAsStr (http.Header.Get r.Header "X-FD-SocketIP")]) := by
  refine ⟨addHeadersToHandler (fun w _ => w) m w r, fun h => rfl, ?_⟩
  simp only [addHeadersToHandler, hfound, hapc]
  refine ⟨?_, ?_, ?_⟩ <;>
    simp [setHeaderIfValIsNonEmpty_Header, canonical_allowOrigin, canonical_exposeHeaders,
      canonical_cacheControl, canonical_etag, canonical_timingAllowOrigin, canonical_frontEnd,
      canonical_endPoint, canonical_userHostAddress]

/-- C2 at the request for `/apc/logo.gif` coming through the proxy: the three
headers get `fe01`, `node42` and `192.168.17.0`. -/
theorem addHeadersToHandler_apc_headers_witness :
    (sampleMap (normalize apcLogoRequest.URL.Path) = some apcLogoConfig ∧
      hasCustomAPCHeaders (normalize apcLogoRequest.URL.Path) = true) ∧
    (getEdgeNodeShortName (http.Header.Get apcLogoRequest.Header "X-FD-EdgeEnvironment") = "node42" ∧
      scrubIPAddressAsStr (http.Header.Get apcLogoRequest.Header "X-FD-SocketIP") =
        "192.168.17.0") ∧
    ∃ w1 : http.ResponseWriter Unit,
      (∀ h : http.Handler Unit, addHeadersToHandler h sampleMap emptyResponse apcLogoRequest =
        h w1 apcLogoRequest) ∧
      w1.Header (textproto.CanonicalMIMEHeaderKey "X-FrontEnd") =
        (if apcLogoConfig.XFrontEnd = "" then
          emptyResponse.Header (textproto.CanonicalMIMEHeaderKey "X-FrontEnd")
        else some [apcLogoConfig.XFrontEnd]) ∧
      w1.Header (textproto.CanonicalMIMEHeaderKey "X-EndPoint") =
        (if getEdgeNodeShortName (http.Header.Get apcLogoRequest.Header "X-FD-EdgeEnvironment") = ""
        then emptyResponse.Header (textproto.CanonicalMIMEHeaderKey "X-EndPoint")
        else some [getEdgeNodeShortName
          (http.Header.Get apcLogoRequest.Header "X-FD-EdgeEnvironment")]) ∧
      w1.Header (textproto.CanonicalMIMEHeaderKey "X-UserHostAddress") =
        (if scrubIPAddressAsStr (http.Header.Get apcLogoRequest.Header "X-FD-SocketIP") = "" then
          emptyResponse.Header (textproto.CanonicalMIMEHeaderKey "X-UserHostAddress")
        else some [scrubIPAddressAsStr (http.Header.Get apcLogoRequest.Header "X-FD-SocketIP")]) :=
  ⟨⟨by decide, by decide⟩, ⟨by decide, by decide⟩,
    addHeadersToHandler_apc_headers sampleMap emptyResponse apcLogoRequest apcLogoConfig
      (by decide) (by decide)⟩

/-- C3: for a request whose normalized path is not an APC path, `X-FrontEnd`,
`X-EndPoint` and `X-UserHostAddress` are the same when the wrapped handler
runs as they were before, whatever the configuration map and the request
headers hold. -/
theorem addHeadersToHandler_non_apc_frame {σ : Type} (m : HeaderConfigMap)
    (w : http.ResponseWriter σ) (r : http.Request)
    (hapc : hasCustomAPCHeaders (normalize r.URL.Path) = false) :
    ∃ w1 : http.ResponseWriter σ,
      (∀ h : http.Handler σ, addHeadersToHandler h m w r = h w1 r) ∧
      w1.Header (textproto.CanonicalMIMEHeaderKey "X-FrontEnd") =
        w.Header (textproto.CanonicalMIMEHeaderKey "X-FrontEnd") ∧
      w1.Header (textproto.CanonicalMIMEHeaderKey "X-EndPoint") =
        w.Header (textproto.CanonicalMIMEHeaderKey "X-EndPoint") ∧
      w1.Header (textproto.CanonicalMIMEHeaderKey "X-UserHostAddress") =
        w.Header (textproto.CanonicalMIMEHeaderKey "X-UserHostAddress") := by
  refine ⟨addHeadersToHandler (fun w _ => w) m w r, fun h => rfl, ?_⟩
  simp only [addHeadersToHandler, hapc]
  cases hm : m (normalize r.URL.Path) with
  | none => exact ⟨rfl, rfl, rfl⟩
  | some hc =>
    refine ⟨?_, ?_, ?_⟩ <;>
      simp [setHeaderIfValIsNonEmpty_Header, canonical_allowOrigin, canonical_exposeHeaders,
        canonical_cacheControl, canonical_etag, canonical_timingAllowOrigin, canonical_frontEnd,
        canonical_endPoint, canonical_userHostAddress]

/-- C3 at the request for `/static/app.js`, whose configuration record has a
non-empty `XFrontEnd` and whose proxy headers are usable. -/
theorem addHeadersToHandler_non_apc_frame_witness :
    (hasCustomAPCHeaders (normalize appJsRequest.URL.Path) = false ∧
      sampleMap (normalize appJsRequest.URL.Path) = some appJsConfig ∧
      appJsConfig.XFrontEnd = "fe01") ∧
    ∃ w1 : http.ResponseWriter Unit,
      (∀ h : http.Handler Unit, addHeadersToHandler h sampleMap emptyResponse appJsRequest =
        h w1 appJsRequest) ∧
      w1.Header (textproto.CanonicalMIMEHeaderKey "X-FrontEnd") =
        emptyResponse.Header (textproto.CanonicalMIMEHeaderKey "X-FrontEnd") ∧
      w1.Header (textproto.CanonicalMIMEHeaderKey "X-EndPoint") =
        emptyResponse.Header (textproto.CanonicalMIMEHeaderKey "X-EndPoint") ∧
      w1.Header (textproto.CanonicalMIMEHeaderKey "X-UserHostAddress") =
        emptyResponse.Header (textproto.CanonicalMIMEHeaderKey "X-UserHostAddress") :=
  ⟨⟨by decide, by decide, by decide⟩,
    addHeadersToHandler_non_apc_frame sampleMap emptyResponse appJsRequest (by decide)⟩

/-- C4: without an entry for the normalized path the wrapped handler gets the
response exactly as it came in; and in every case the handler is one call of
the wrapped handler, on the same request and with everything but the header
map untouched, so that a recording wrapped handler notes exactly this one
request. -/
theorem addHeadersToHandler_always_delegates {σ : Type} (m : HeaderConfigMap)
    (w : http.ResponseWriter σ) (r : http.Request) :
    (m (normalize r.URL.Path) = none →
      ∀ h : http.Handler σ, addHeadersToHandler h m w r = h w r) ∧
    (∃ w1 : http.ResponseWriter σ, w1.conn = w.conn ∧
      ∀ h : http.Handler σ, addHeadersToHandler h m w r = h w1 r) ∧
    (∀ log : http.ResponseWriter (List http.Request),
      (addHeadersToHandler recordingHandler m log r).conn = log.conn ++ [r]) := by
  have hconn : ∀ {τ : Type} (v : http.ResponseWriter τ),
      (addHeadersToHandler (fun w _ => w) m v r).conn = v.conn := by
    intro τ v
    simp only [addHeadersToHandler]
    cases m (normalize r.URL.Path) with
    | none => rfl
    | some hc =>
      by_cases hapc : hasCustomAPCHeaders (normalize r.URL.Path) = true <;>
        simp [hapc, setHeaderIfValIsNonEmpty_conn]
  refine ⟨?_, ⟨addHeadersToHandler (fun w _ => w) m w r, hconn w, fun h => rfl⟩, ?_⟩
  · intro hnone h
    simp [addHeadersToHandler, hnone]
  · intro log
    rw [addHeadersToHandler_delegates]
    simp [recordingHandler, hconn log]

/-- C4 at the request for `/index.html`, which has no entry: the recording
handler receives the untouched response and notes the one request. -/
theorem addHeadersToHandler_always_delegates_witness :
    sampleMap (normalize otherRequest.URL.Path) = none ∧
    addHeadersToHandler recordingHandler sampleMap { Header := fun _ => none, conn := [] }
        otherRequest =
      recordingHandler { Header := fun _ => none, conn := [] } otherRequest ∧
    (addHeadersToHandler recordingHandler sampleMap { Header := fun _ => none, conn := [] }
        apcLogoRequest).conn = [apcLogoRequest] :=
  ⟨by decide,
    (addHeadersToHandler_always_delegates sampleMap { Header := fun _ => none, conn := [] }
      otherRequest).1 (by decide) recordingHandler,
    (addHeadersToHandler_always_delegates sampleMap emptyResponse apcLogoRequest).2.2
      { Header := fun _ => none, conn := [] }⟩

/-! ## Splitting on one character -/

namespace strings

theorem indexOf_single_none (c : Char) (s : List Char) (h : c ∉ s) : indexOf s [c] = none := by
  induction s with
  | nil => simp [indexOf]
  | cons x t ih =>
    have hx : c ≠ x := fun e => h (e ▸ List.mem_cons_self _ _)
    have ht : c ∉ t := fun e => h (List.mem_cons_of_mem _ e)
    simp [indexOf, List.isPrefixOf, hx, ih ht]

theorem indexOf_single_first (c : Char) (p rest : List Char) (h : c ∉ p) :
    indexOf (p ++ c :: rest) [c] = some p.length := by
  induction p with
  | nil => simp [indexOf, List.isPrefixOf]
  | cons x t ih =>
    have hx : c ≠ x := fun e => h (e ▸ List.mem_cons_self _ _)
    have ht : c ∉ t := fun e => h (List.mem_cons_of_mem _ e)
    simp [indexOf, List.isPrefixOf, hx, ih ht]

theorem countLoop_single (c : Char) (fuel : Nat) (s : List Char) (h : s.length ≤ fuel) :
    countLoop [c] fuel s = s.count c := by
  induction fuel generalizing s with
  | zero =>
    have : s = [] := List.length_eq_zero.mp (Nat.le_zero.mp h)
    simp [countLoop, this]
  | succ n ih =>
    by_cases hc : c ∈ s
    · obtain ⟨p, rest, rfl, hp⟩ := List.eq_append_cons_of_mem hc
      have hlen : rest.length ≤ n := by
        simp only [List.length_append, List.length_cons] at h
        omega
      simp [countLoop, indexOf_single_first c p rest hp, ih rest hlen, List.count_eq_zero_of_not_mem hp]
      omega
    · simp [countLoop, indexOf_single_none c s hc, List.count_eq_zero_of_not_mem hc]

theorem splitLoop_single (c : Char) (n : Nat) (s : List Char) (h : s.count c ≤ n) :
    splitLoop [c] n s = s.splitOn c := by
  induction n generalizing s with
  | zero =>
    have hc : c ∉ s := List.count_eq_zero.mp (Nat.le_zero.mp h)
    rw [splitLoop, List.splitOn, List.splitOnP_eq_single]
    intro x hx hxc
    exact hc ((beq_iff_eq.mp hxc) ▸ hx)
  | succ n ih =>
    by_cases hc : c ∈ s
    · obtain ⟨p, rest, rfl, hp⟩ := List.eq_append_cons_of_mem hc
      have hcount : rest.count c ≤ n := by
        simp [List.count_eq_zero_of_not_mem hp] at h
        omega
      have hfirst : (p ++ c :: rest).splitOn c = p :: rest.splitOn c := by
        apply List.splitOnP_first
        · intro x hx hxc
          exact hp ((beq_iff_eq.mp hxc) ▸ hx)
        · simp
      simp [splitLoop, indexOf_single_first c p rest hp, ih rest hcount, hfirst]
    · rw [splitLoop, indexOf_single_none c s hc, List.splitOn, List.splitOnP_eq_single]
      intro x hx hxc
      exact hc ((beq_iff_eq.mp hxc) ▸ hx)

/-- Splitting on a one-character separator is the library's `List.splitOn`. -/
theorem Split_single (c : Char) (s : String) :
    Split s (String.mk [c]) = (s.data.splitOn c).map String.mk := by
  simp [Split, Count, countLoop_single, splitLoop_single]

example (s : String) : Split s "\\" = (s.data.splitOn '\\').map String.mk := Split_single '\\' s

end strings

theorem splitOn_last (c : Char) (n : Nat) (l : List Char) (hn : l.length ≤ n) (hc : c ∈ l) :
    ∃ pre last, l = pre ++ c :: last ∧ c ∉ last ∧ (l.splitOn c).getLast? = some last ∧
      2 ≤ (l.splitOn c).length := by
  induction n generalizing l with
  | zero =>
    have : l = [] := List.length_eq_zero.mp (Nat.le_zero.mp hn)
    simp [this] at hc
  | succ n ih =>
    obtain ⟨p, rest, rfl, hp⟩ := List.eq_append_cons_of_mem hc
    have hfirst : (p ++ c :: rest).splitOn c = p :: rest.splitOn c := by
      apply List.splitOnP_first
      · intro x hx hxc
        exact hp ((beq_iff_eq.mp hxc) ▸ hx)
      · simp
    by_cases hr : c ∈ rest
    · have hlen : rest.length ≤ n := by
        simp only [List.length_append, List.length_cons] at hn
        omega
      obtain ⟨pre, last, hrest, hlast, hget, hcount⟩ := ih rest hlen hr
      refine ⟨p ++ c :: pre, last, by simp [hrest], hlast, ?_, ?_⟩
      · rw [hfirst]
        cases hsp : rest.splitOn c with
        | nil => rw [hsp] at hcount; simp at hcount
        | cons x xs => rw [hsp] at hget; simpa [List.getLast?_cons_cons] using hget
      · rw [hfirst, List.length_cons]; omega
    · have hsingle : rest.splitOn c = [rest] := by
        apply List.splitOnP_eq_single
        intro x hx hxc
        exact hr ((beq_iff_eq.mp hxc) ▸ hx)
      exact ⟨p, rest, rfl, hr, by simp [hfirst, hsingle], by simp [hfirst, hsingle]⟩

/-- C8: `hasCustomAPCHeaders` holds exactly when, of the segments of the path
split on backslash, the first is `apc` and there are at least two, or the
first is `edge_footprint`, the second `apc` and there are at least three. -/
theorem hasCustomAPCHeaders_iff_segments (urlPath : String) :
    (hasCustomAPCHeaders urlPath = true ↔
      ((urlPath.data.splitOn '\\').head? = some "apc".data ∧
        2 ≤ (urlPath.data.splitOn '\\').length) ∨
      ((urlPath.data.splitOn '\\').head? = some "edge_footprint".data ∧
        (urlPath.data.splitOn '\\').get? 1 = some "apc".data ∧
        3 ≤ (urlPath.data.splitOn '\\').length)) ∧
    hasCustomAPCHeaders "apc\\logo.gif" = true ∧
    hasCustomAPCHeaders "edge_footprint\\apc\\logo.gif" = true ∧
    hasCustomAPCHeaders "apc" = false ∧
    hasCustomAPCHeaders "images\\apc\\x.gif" = false := by
  refine ⟨?_, by decide, by decide, by decide, by decide⟩
  have hsplit : strings.Split urlPath "\\" = (urlPath.data.splitOn '\\').map String.mk :=
    strings.Split_single '\\' urlPath
  simp only [hasCustomAPCHeaders, hsplit]
  generalize urlPath.data.splitOn '\\' = segs
  rcases segs with _ | ⟨a, _ | ⟨b, _ | ⟨c, t⟩⟩⟩ <;> simp [String.ext_iff]

/-- C9: `getEdgeNodeShortName` gives `""` for a name without `-`, and
otherwise the hyphen-free rest of the name after its last `-`. -/
theorem getEdgeNodeShortName_last_segment (s : String) :
    ('-' ∉ s.data → getEdgeNodeShortName s = "") ∧
    ('-' ∈ s.data → '-' ∉ (getEdgeNodeShortName s).data ∧
      ∃ pre : List Char, s.data = pre ++ '-' :: (getEdgeNodeShortName s).data) ∧
    getEdgeNodeShortName "region-cluster-node42" = "node42" ∧
    getEdgeNodeShortName "standalone" = "" := by
  have hsplit : strings.Split s "-" = (s.data.splitOn '-').map String.mk :=
    strings.Split_single '-' s
  refine ⟨?_, ?_, by decide, by decide⟩
  · intro hc
    have hsingle : s.data.splitOn '-' = [s.data] := by
      apply List.splitOnP_eq_single
      intro x hx hxc
      exact hc ((beq_iff_eq.mp hxc) ▸ hx)
    simp [getEdgeNodeShortName, hsplit, hsingle]
  · intro hc
    obtain ⟨pre, last, hs, hlast, hget, hlen⟩ := splitOn_last '-' s.data.length s.data le_rfl hc
    have hres : getEdgeNodeShortName s = String.mk last := by
      simp only [getEdgeNodeShortName, hsplit, List.length_map]
      rw [if_pos (by omega), List.getD_eq_getElem?_getD, List.getElem?_map,
        ← List.getLast?_eq_getElem?, hget]
      rfl
    rw [hres]
    exact ⟨hlast, pre, hs⟩

/-! ## Addresses -/

namespace net

theorem IP.wf_set {ip : IP} (h : IP.wf ip) (i b : Nat) (hb : b < 256) : IP.wf (ip.set i b) := by
  refine ⟨by simp [h.1], fun x hx => ?_⟩
  rcases List.mem_or_eq_of_mem_set hx with hx | hx
  · exact h.2 x hx
  · exact hx ▸ hb

theorem parseIPv4Octets_bytes (k : Nat) (first : Bool) (s : List Char) (p : List Nat)
    (s1 : List Char) (h : parseIPv4Octets k first s = some (p, s1)) : ∀ b ∈ p, b < 256 := by
  induction k generalizing first s p s1 with
  | zero =>
    simp only [parseIPv4Octets, Option.some.injEq, Prod.mk.injEq] at h
    intro b hb
    rw [← h.1] at hb
    simp at hb
  | succ k ih =>
    simp only [parseIPv4Octets] at h
    split_ifs at h
    all_goals
      split at h
      · simp at h
      · rename_i q s2 hq
        simp only [Option.some.injEq, Prod.mk.injEq] at h
        intro b hb
        rw [← h.1] at hb
        rcases List.mem_cons.mp hb with hb | hb
        · rw [hb]; exact Nat.mod_lt _ (by norm_num)
        · exact ih _ _ _ _ hq b hb

theorem IPv4_wf (a b c d : Nat) (ha : a < 256) (hb : b < 256) (hc : c < 256) (hd : d < 256) :
    IP.wf (IPv4 a b c d) := by
  refine ⟨rfl, fun x hx => ?_⟩
  simp only [IPv4, v4InV6Prefix, List.cons_append, List.nil_append, List.mem_cons,
    List.mem_singleton, List.not_mem_nil, or_false] at hx
  omega

theorem getD_lt_of_all {p : List Nat} (h : ∀ b ∈ p, b < 256) (i : Nat) : p.getD i 0 < 256 := by
  rw [List.getD_eq_getElem?_getD]
  cases hi : p[i]? with
  | none => simp
  | some x => exact h x (List.getElem?_mem hi)

theorem IP.wf_getD {ip : IP} (h : IP.wf ip) (i : Nat) : ip.getD i 0 < 256 :=
  getD_lt_of_all h.2 i

theorem parseIPv4_wf (s : List Char) : parseIPv4 s = [] ∨ IP.wf (parseIPv4 s) := by
  unfold parseIPv4
  split
  · rename_i p hp
    right
    have hb := parseIPv4Octets_bytes _ _ _ _ _ hp
    exact IPv4_wf _ _ _ _ (getD_lt_of_all hb 0) (getD_lt_of_all hb 1) (getD_lt_of_all hb 2)
      (getD_lt_of_all hb 3)
  · left; rfl


theorem parseIPv6Loop_wf (fuel : Nat) (s : List Char) (i : Nat) (ip : IP) (ellipsis : Option Nat)
    (s1 : List Char) (i1 : Nat) (ip1 : IP) (ellipsis1 : Option Nat)
    (hwf : IP.wf ip) (heven : i % 2 = 0) (hi : i ≤ 16) (hell : ∀ e, ellipsis = some e → e ≤ i)
    (h : parseIPv6Loop fuel s i ip ellipsis = some (s1, i1, ip1, ellipsis1)) :
    IP.wf ip1 ∧ i1 % 2 = 0 ∧ i1 ≤ 16 ∧ ∀ e, ellipsis1 = some e → e ≤ i1 := by
  induction fuel generalizing s i ip ellipsis with
  | zero =>
    simp only [parseIPv6Loop, Option.some.injEq, Prod.mk.injEq] at h
    obtain ⟨-, rfl, rfl, rfl⟩ := h
    exact ⟨hwf, heven, hi, hell⟩
  | succ fuel ih =>
    have hset : ∀ n : Nat, IP.wf ((ip.set i ((n >>> 8) % 256)).set (i + 1) (n % 256)) :=
      fun n => IP.wf_set (IP.wf_set hwf _ _ (Nat.mod_lt _ (by norm_num))) _ _
        (Nat.mod_lt _ (by norm_num))
    simp only [parseIPv6Loop, IPv6len, IPv4len] at h
    split_ifs at h with h1 h2 h3 h4 h5 h6 h7 h8 h9 h10 h11
    · -- trailing IPv4
      simp only [Option.some.injEq, Prod.mk.injEq] at h
      obtain ⟨-, rfl, rfl, rfl⟩ := h
      have h4wf : IP.wf (parseIPv4 s) := by
        rcases parseIPv4_wf s with hnil | hw
        · simp [hnil] at h6
        · exact hw
      refine ⟨?_, by omega, by omega, fun e he => ?_⟩
      · exact IP.wf_set (IP.wf_set (IP.wf_set (IP.wf_set hwf _ _ (IP.wf_getD h4wf 12)) _ _
          (IP.wf_getD h4wf 13)) _ _ (IP.wf_getD h4wf 14)) _ _ (IP.wf_getD h4wf 15)
      · have := hell e he
        omega
    · -- end of string after a group
      simp only [Option.some.injEq, Prod.mk.injEq] at h
      obtain ⟨-, rfl, rfl, rfl⟩ := h
      exact ⟨hset _, by omega, by omega, fun e he => by have := hell e he; omega⟩
    · -- ellipsis at the end
      simp only [Option.some.injEq, Prod.mk.injEq] at h
      obtain ⟨-, rfl, rfl, rfl⟩ := h
      refine ⟨hset _, by omega, by omega, fun e he => ?_⟩
      simp only [Option.some.injEq] at he
      omega
    · -- ellipsis, more to read
      refine ih _ _ _ _ (hset _) (by omega) (by omega) (fun e he => ?_) h
      simp only [Option.some.injEq] at he
      omega
    · -- plain colon
      exact ih _ _ _ _ (hset _) (by omega) (by omega)
        (fun e he => by have := hell e he; omega) h
    · simp only [Option.some.injEq, Prod.mk.injEq] at h
      obtain ⟨-, rfl, rfl, rfl⟩ := h
      exact ⟨hwf, heven, hi, hell⟩

theorem replicate_wf : IP.wf (List.replicate 16 0) :=
  ⟨by simp, fun b hb => by simp [List.mem_replicate] at hb; omega⟩

theorem parseIPv6_wf (s : List Char) : parseIPv6 s = [] ∨ IP.wf (parseIPv6 s) := by
  unfold parseIPv6
  simp only [IPv6len]
  split_ifs
  all_goals first
    | (right; exact replicate_wf)
    | (split
       · left; rfl
       · rename_i s1 i1 ip1 ell1 hloop
         have hinv := parseIPv6Loop_wf _ _ _ _ _ _ _ _ _ replicate_wf (by norm_num) (by norm_num)
           (fun e he => by cases he <;> exact le_rfl) hloop
         obtain ⟨hwf, -, hi, hell⟩ := hinv
         split_ifs with h2 h3 h4
         · left; rfl
         · cases ell1 with
           | none => left; rfl
           | some e =>
             right
             have he := hell e rfl
             refine ⟨?_, fun b hb => ?_⟩
             · simp [hwf.1]; omega
             · simp only [List.mem_append, List.mem_replicate] at hb
               rcases hb with (hb | hb) | hb
               · exact hwf.2 b (List.mem_of_mem_take hb)
               · omega
               · exact hwf.2 b (List.mem_of_mem_drop (List.mem_of_mem_take hb))
         · left; rfl
         · right; exact hwf)

theorem parseIPScan_wf (s cs : List Char) : parseIPScan s cs = [] ∨ IP.wf (parseIPScan s cs) := by
  induction cs with
  | nil => left; rfl
  | cons c cs ih =>
    simp only [parseIPScan]
    split_ifs
    · exact parseIPv4_wf s
    · exact parseIPv6_wf s
    · exact ih

/-- Whatever `ParseIP` returns other than `nil` is sixteen bytes. -/
theorem ParseIP_wf (s : String) : ParseIP s = [] ∨ IP.wf (ParseIP s) := parseIPScan_wf _ _

end net

namespace net

set_option maxRecDepth 100000 in
theorem uitoa_eq_repr : ∀ n, n < 256 → uitoa n = (Nat.repr n).data := by
  decide

set_option maxRecDepth 100000 in
theorem repr_digits : ∀ n, n < 256 →
    ((Nat.repr n).data.all isDigit = true ∧ (Nat.repr n).data ≠ [] ∧
      decVal 0 (Nat.repr n).data = n) := by
  decide

end net

namespace net

theorem le_decVal (ds : List Char) (n : Nat) : n ≤ decVal n ds := by
  induction ds generalizing n with
  | nil => exact le_rfl
  | cons c cs ih =>
    have := ih (n * 10 + (c.toNat - 48))
    simp only [decVal, List.foldl_cons] at this ⊢
    omega

theorem dtoiLoop_digits (ds rest : List Char) (n i : Nat) (hd : ds.all isDigit = true)
    (hbig : decVal n ds < big) :
    dtoiLoop (ds ++ rest) n i = dtoiLoop rest (decVal n ds) (i + ds.length) := by
  induction ds generalizing n i with
  | nil => simp [decVal]
  | cons c cs ih =>
    simp only [List.all_cons, Bool.and_eq_true] at hd
    have hc : (decide ('0' ≤ c) && decide (c ≤ '9')) = true := hd.1
    have hstep : decVal n (c :: cs) = decVal (n * 10 + (c.toNat - 48)) cs := rfl
    have hlt : n * 10 + (c.toNat - 48) < big := by
      have := le_decVal cs (n * 10 + (c.toNat - 48))
      rw [hstep] at hbig
      omega
    rw [hstep] at hbig
    rw [List.cons_append]
    simp only [dtoiLoop, hc, if_true, if_neg (not_le.mpr hlt)]
    rw [ih _ _ hd.2 hbig, hstep, List.length_cons]
    congr 1
    omega

theorem dtoiLoop_stop (rest : List Char) (n i : Nat) (hi : i ≠ 0)
    (hrest : rest = [] ∨ ∃ c t, rest = c :: t ∧ isDigit c = false) :
    dtoiLoop rest n i = (n, i, true) := by
  rcases hrest with rfl | ⟨c, t, rfl, hc⟩
  · simp [dtoiLoop, hi]
  · have hc1 : (decide ('0' ≤ c) && decide (c ≤ '9')) = false := hc
    simp [dtoiLoop, hc1, hi]

/-- Reading back an octet written in decimal. -/
theorem dtoi_repr (n : Nat) (hn : n < 256) (rest : List Char)
    (hrest : rest = [] ∨ ∃ c t, rest = c :: t ∧ isDigit c = false) :
    dtoi ((Nat.repr n).data ++ rest) = (n, (Nat.repr n).data.length, true) := by
  obtain ⟨hd, hne, hval⟩ := repr_digits n hn
  have hbig : decVal 0 (Nat.repr n).data < big := by
    rw [hval]; simp only [big]; omega
  rw [dtoi, dtoiLoop_digits _ _ _ _ hd hbig, hval, Nat.zero_add]
  apply dtoiLoop_stop _ _ _ _ hrest
  intro h0
  exact hne (List.length_eq_zero.mp h0)

theorem parseIPv4Octets_first (k n : Nat) (hn : n < 256) (rest : List Char)
    (hrest : rest = [] ∨ ∃ c t, rest = c :: t ∧ isDigit c = false) :
    parseIPv4Octets (k + 1) true ((Nat.repr n).data ++ rest) =
      (parseIPv4Octets k false rest).map (fun q => (n :: q.1, q.2)) := by
  obtain ⟨-, hne, -⟩ := repr_digits n hn
  have hemp : ((Nat.repr n).data ++ rest).isEmpty = false := by
    cases h : (Nat.repr n).data with
    | nil => exact absurd h hne
    | cons c t => rfl
  have h255 : n ≤ 255 := by omega
  simp only [parseIPv4Octets, hemp, if_true, Bool.not_true, Bool.false_and, Bool.false_eq_true,
    if_false, dtoi_repr n hn rest hrest, Bool.not_true, Bool.false_or, gt_iff_lt,
    decide_eq_true_eq, not_lt.mpr h255, Nat.mod_eq_of_lt hn, List.drop_left]
  cases parseIPv4Octets k false rest with
  | none => rfl
  | some q => rfl

theorem parseIPv4Octets_next (k n : Nat) (hn : n < 256) (rest : List Char)
    (hrest : rest = [] ∨ ∃ c t, rest = c :: t ∧ isDigit c = false) :
    parseIPv4Octets (k + 1) false ('.' :: ((Nat.repr n).data ++ rest)) =
      (parseIPv4Octets k false rest).map (fun q => (n :: q.1, q.2)) := by
  have h255 : n ≤ 255 := by omega
  have hhead : (('.' :: ((Nat.repr n).data ++ rest)).headD ' ' != '.') = false := by
    simp
  simp only [parseIPv4Octets, List.isEmpty_cons, hhead, Bool.not_false, Bool.true_and,
    Bool.false_eq_true, if_false, List.drop_succ_cons, List.drop_zero,
    dtoi_repr n hn rest hrest, Bool.not_true, Bool.false_or, gt_iff_lt,
    decide_eq_true_eq, not_lt.mpr h255, Nat.mod_eq_of_lt hn, List.drop_left]
  cases parseIPv4Octets k false rest with
  | none => rfl
  | some q => rfl

theorem parseIPScan_digits (s ds rest : List Char) (hd : ds.all isDigit = true) :
    parseIPScan s (ds ++ '.' :: rest) = parseIPv4 s := by
  induction ds with
  | nil => simp [parseIPScan]
  | cons c cs ih =>
    simp only [List.all_cons, Bool.and_eq_true] at hd
    have hdot : (c == '.') = false := by
      rw [beq_eq_false_iff_ne]
      rintro rfl
      exact absurd hd.1 (by decide)
    have hcolon : (c == ':') = false := by
      rw [beq_eq_false_iff_ne]
      rintro rfl
      exact absurd hd.1 (by decide)
    simp [parseIPScan, hdot, hcolon, ih hd.2]

/-- The dotted-decimal text of four octets parses to the sixteen-byte form of
that IPv4 address. -/
theorem parseIPScan_dotted (a b c d : Nat) (ha : a < 256) (hb : b < 256) (hc : c < 256)
    (hd : d < 256) :
    parseIPScan
        ((Nat.repr a).data ++ '.' :: ((Nat.repr b).data ++ '.' :: ((Nat.repr c).data ++
          '.' :: ((Nat.repr d).data ++ []))))
        ((Nat.repr a).data ++ '.' :: ((Nat.repr b).data ++ '.' :: ((Nat.repr c).data ++
          '.' :: ((Nat.repr d).data ++ [])))) = IPv4 a b c d := by
  have hdot : ∀ t : List Char, ('.' :: t = [] ∨ ∃ c1 t1, '.' :: t = c1 :: t1 ∧ isDigit c1 = false) :=
    fun t => Or.inr ⟨'.', t, rfl, by decide⟩
  rw [parseIPScan_digits _ _ _ (repr_digits a ha).1, parseIPv4,
    parseIPv4Octets_first 3 a ha _ (hdot _), parseIPv4Octets_next 2 b hb _ (hdot _),
    parseIPv4Octets_next 1 c hc _ (hdot _), parseIPv4Octets_next 0 d hd _ (Or.inl rfl)]
  simp [parseIPv4Octets]

set_option maxRecDepth 100000 in
theorem land_255 : ∀ b, b < 256 → b &&& 255 = b := by
  decide

end net

/-- C5: for octets `a`, `b`, `c`, `d`, the address written `a.b.c.d` in decimal
is scrubbed to `a.b.c.0`. -/
theorem scrubIPAddressAsStr_ipv4 (a b c d : Nat) (ha : a < 256) (hb : b < 256) (hc : c < 256)
    (hd : d < 256) :
    scrubIPAddressAsStr
        (Nat.repr a ++ "." ++ Nat.repr b ++ "." ++ Nat.repr c ++ "." ++ Nat.repr d) =
      Nat.repr a ++ "." ++ Nat.repr b ++ "." ++ Nat.repr c ++ ".0" := by
  have hparse : net.ParseIP
      (Nat.repr a ++ "." ++ Nat.repr b ++ "." ++ Nat.repr c ++ "." ++ Nat.repr d) =
      net.IPv4 a b c d := by
    have := net.parseIPScan_dotted a b c d ha hb hc hd
    simp only [List.append_nil] at this
    simpa [net.ParseIP, String.data_append] using this
  have hmask : net.IP.Mask (net.IPv4 a b c d) ipv4Mask = [a, b, c, 0] := by
    simp [net.IP.Mask, net.IPv4, net.v4InV6Prefix, ipv4Mask, net.CIDRMask, net.cidrLoop,
      net.IPv4len, net.IPv6len, net.land_255 a ha, net.land_255 b hb, net.land_255 c hc]
  have h4 : net.IP.To4 (net.IPv4 a b c d) = [a, b, c, d] := by
    simp [net.IP.To4, net.IPv4, net.v4InV6Prefix, net.IPv4len, net.IPv6len]
  simp only [scrubIPAddressAsStr, hparse, h4, hmask]
  simp [net.IPv4, net.v4InV6Prefix, net.IP.String, net.IP.To4, net.IPv4len,
    net.uitoa_eq_repr a ha, net.uitoa_eq_repr b hb, net.uitoa_eq_repr c hc,
    show net.uitoa 0 = ['0'] from rfl, String.ext_iff, String.data_append]

/-- C5 at the address `192.168.17.42`. -/
theorem scrubIPAddressAsStr_ipv4_witness :
    scrubIPAddressAsStr "192.168.17.42" = "192.168.17.0" :=
  scrubIPAddressAsStr_ipv4 192 168 17 42 (by decide) (by decide) (by decide) (by decide)


namespace net

/-- Masking a sixteen-byte address with the /32 mask keeps its first four
bytes and clears the other twelve. -/
theorem IP.Mask_ipv6Mask (ip : IP) (h : IP.wf ip) :
    IP.Mask ip ipv6Mask = ip.take 4 ++ List.replicate 12 0 := by
  obtain ⟨hlen, hb⟩ := h
  rcases ip with _ | ⟨b0, _ | ⟨b1, _ | ⟨b2, _ | ⟨b3, _ | ⟨b4, _ | ⟨b5, _ | ⟨b6, _ | ⟨b7,
    _ | ⟨b8, _ | ⟨b9, _ | ⟨b10, _ | ⟨b11, _ | ⟨b12, _ | ⟨b13, _ | ⟨b14, _ | ⟨b15,
    _ | ⟨b16, t⟩⟩⟩⟩⟩⟩⟩⟩⟩⟩⟩⟩⟩⟩⟩⟩⟩
  all_goals try (simp at hlen; done)
  have h0 := land_255 b0 (hb b0 (by simp))
  have h1 := land_255 b1 (hb b1 (by simp))
  have h2 := land_255 b2 (hb b2 (by simp))
  have h3 := land_255 b3 (hb b3 (by simp))
  simp [IP.Mask, ipv6Mask, CIDRMask, cidrLoop, IPv4len, IPv6len, h0, h1, h2, h3,
    List.replicate]

end net

/-- C6, amended: a string that parses to an address that is not an IPv4
address (also not one written as an IPv6 address) is scrubbed to the text form
of the sixteen-byte address that keeps its first four bytes and has zeros in
the other twelve. -/
theorem scrubIPAddressAsStr_ipv6 (s : String) (hparse : net.ParseIP s ≠ [])
    (h4 : net.IP.To4 (net.ParseIP s) = []) :
    (net.ParseIP s).length = 16 ∧
    scrubIPAddressAsStr s =
      net.IP.String ((net.ParseIP s).take 4 ++ List.replicate 12 0) := by
  have hwf : net.IP.wf (net.ParseIP s) := by
    rcases net.ParseIP_wf s with h | h
    · exact absurd h hparse
    · exact h
  have hemp : (net.ParseIP s).isEmpty = false := by
    cases hp : net.ParseIP s with
    | nil => exact absurd hp hparse
    | cons x t => rfl
  have h16 : net.IP.To16 (net.ParseIP s) = net.ParseIP s := by
    simp [net.IP.To16, hwf.1, net.IPv4len, net.IPv6len]
  refine ⟨hwf.1, ?_⟩
  simp [scrubIPAddressAsStr, hemp, h4, h16, net.IP.Mask_ipv6Mask _ hwf]

/-- C6, amended, at the address `2001:db8:1:2::5`, scrubbed to `2001:db8::`. -/
theorem scrubIPAddressAsStr_ipv6_witness :
    (net.ParseIP "2001:db8:1:2::5" ≠ [] ∧ net.IP.To4 (net.ParseIP "2001:db8:1:2::5") = []) ∧
    (net.ParseIP "2001:db8:1:2::5").length = 16 ∧
    scrubIPAddressAsStr "2001:db8:1:2::5" = "2001:db8::" :=
  ⟨⟨by decide, by decide⟩,
    (scrubIPAddressAsStr_ipv6 "2001:db8:1:2::5" (by decide) (by decide)).1,
    (scrubIPAddressAsStr_ipv6 "2001:db8:1:2::5" (by decide) (by decide)).2.trans (by decide)⟩

/-- C6 as stated fails: `0:0:0:0:0:ffff:102:304` parses as a 128-bit IPv6
address whose first 32 bits are zero, the text form of the address with these
32 bits and zeros elsewhere is `::`, yet the scrubbed string is `1.2.3.0`. -/
theorem scrubIPAddressAsStr_ipv6_counterexample :
    net.ParseIP "0:0:0:0:0:ffff:102:304" = [0, 0, 0, 0, 0, 0, 0, 0, 0, 0, 255, 255, 1, 2, 3, 4] ∧
    net.IP.String ((net.ParseIP "0:0:0:0:0:ffff:102:304").take 4 ++ List.replicate 12 0) = "::" ∧
    scrubIPAddressAsStr "0:0:0:0:0:ffff:102:304" = "1.2.3.0" ∧
    scrubIPAddressAsStr "0:0:0:0:0:ffff:102:304" ≠
      net.IP.String ((net.ParseIP "0:0:0:0:0:ffff:102:304").take 4 ++ List.replicate 12 0) := by
  decide

/-- C7: a string that does not parse as an address is scrubbed to `""`, and a
request that carries it in `X-FD-SocketIP` leaves `X-UserHostAddress` as it
was. -/
theorem scrubIPAddressAsStr_unparseable (s : String) (hparse : net.ParseIP s = []) :
    scrubIPAddressAsStr s = "" ∧
    ∀ (σ : Type) (m : HeaderConfigMap) (w : http.ResponseWriter σ) (r : http.Request),
      http.Header.Get r.Header "X-FD-SocketIP" = s →
      ∃ w1 : http.ResponseWriter σ,
        (∀ h : http.Handler σ, addHeadersToHandler h m w r = h w1 r) ∧
        w1.Header (textproto.CanonicalMIMEHeaderKey "X-UserHostAddress") =
          w.Header (textproto.CanonicalMIMEHeaderKey "X-UserHostAddress") := by
  have hscrub : scrubIPAddressAsStr s = "" := by
    simp [scrubIPAddressAsStr, hparse]
  refine ⟨hscrub, fun σ m w r hr => ⟨addHeadersToHandler (fun w _ => w) m w r, fun h => rfl, ?_⟩⟩
  simp only [addHeadersToHandler, hr, hscrub]
  cases m (normalize r.URL.Path) with
  | none => rfl
  | some hc =>
    by_cases hapc : hasCustomAPCHeaders (normalize r.URL.Path) = true <;>
      simp [hapc, setHeaderIfValIsNonEmpty_Header, canonical_allowOrigin, canonical_exposeHeaders,
        canonical_cacheControl, canonical_etag, canonical_timingAllowOrigin, canonical_frontEnd,
        canonical_endPoint, canonical_userHostAddress]

/-- C7 at `not-an-ip` and at the empty string, and at the APC request whose
`X-FD-SocketIP` is `not-an-ip`. -/
theorem scrubIPAddressAsStr_unparseable_witness :
    (net.ParseIP "not-an-ip" = [] ∧ net.ParseIP "" = []) ∧
    scrubIPAddressAsStr "not-an-ip" = "" ∧ scrubIPAddressAsStr "" = "" ∧
    ∃ w1 : http.ResponseWriter Unit,
      (∀ h : http.Handler Unit, addHeadersToHandler h sampleMap emptyResponse apcBadRequest =
        h w1 apcBadRequest) ∧
      w1.Header (textproto.CanonicalMIMEHeaderKey "X-UserHostAddress") =
        emptyResponse.Header (textproto.CanonicalMIMEHeaderKey "X-UserHostAddress") :=
  ⟨⟨by decide, by decide⟩, (scrubIPAddressAsStr_unparseable "not-an-ip" (by decide)).1,
    (scrubIPAddressAsStr_unparseable "" (by decide)).1,
    (scrubIPAddressAsStr_unparseable "not-an-ip" (by decide)).2 Unit sampleMap emptyResponse
      apcBadRequest (by decide)⟩

/-! ## Path normalisation -/

namespace filepath

theorem bytes_nil : bytes [] = [] := rfl

theorem bytes_cons (c : Char) (s : List Char) :
    bytes (c :: s) = c :: (List.replicate (c.utf8Size - 1) pad ++ bytes s) := by
  simp [bytes, List.flatMap_cons]

theorem bytes_append (s t : List Char) : bytes (s ++ t) = bytes s ++ bytes t := by
  simp [bytes, List.flatMap_append]

/-- A character of one byte is its own byte. -/
theorem bytes_single (c : Char) (h : c.utf8Size - 1 = 0) (s : List Char) :
    bytes (c :: s) = c :: bytes s := by
  rw [bytes_cons, h]
  rfl

theorem valid_nil : valid [] := ⟨[], rfl⟩

theorem valid_append (a b : List Char) (ha : valid a) (hb : valid b) : valid (a ++ b) := by
  obtain ⟨s, rfl⟩ := ha
  obtain ⟨t, rfl⟩ := hb
  exact ⟨s ++ t, (bytes_append s t).symm⟩

theorem valid_single (c : Char) (h : c.utf8Size - 1 = 0) : valid [c] :=
  ⟨[c], by rw [bytes_single c h, bytes_nil]⟩

theorem valid_cons (c : Char) (l : List Char) (h : c.utf8Size - 1 = 0) (hl : valid l) :
    valid (c :: l) :=
  valid_append [c] l (valid_single c h) hl

/-- Behind a character of one byte the bytes of a string go on with the bytes
of a string. -/
theorem valid_tail (c : Char) (l : List Char) (h : c.utf8Size - 1 = 0) (hv : valid (c :: l)) :
    valid l := by
  obtain ⟨s, hs⟩ := hv
  cases s with
  | nil => simp [bytes] at hs
  | cons x s1 =>
    rw [bytes_cons] at hs
    simp only [List.cons.injEq] at hs
    obtain ⟨rfl, hl⟩ := hs
    rw [h] at hl
    exact ⟨s1, hl⟩

theorem slash_single (c : Char) (h : isSlash c = true) : c.utf8Size - 1 = 0 := by
  simp only [isSlash, Bool.or_eq_true, beq_iff_eq] at h
  rcases h with rfl | rfl <;> rfl

theorem pad_not_slash : ∀ c ∈ List.replicate n pad, (fun c => !isSlash c) c = true := by
  intro c hc
  rw [(List.mem_replicate.mp hc).2]
  rfl

/-- The bytes of a string up to the first slash, and from it on, are the
bytes of strings. -/
theorem valid_takeWhile_dropWhile (s : List Char) :
    valid ((bytes s).takeWhile (fun c => !isSlash c)) ∧
      valid ((bytes s).dropWhile (fun c => !isSlash c)) := by
  induction s with
  | nil => exact ⟨valid_nil, valid_nil⟩
  | cons x s1 ih =>
    by_cases hx : isSlash x = true
    · have h1 := slash_single x hx
      rw [bytes_single x h1]
      have ht : (x :: bytes s1).takeWhile (fun c => !isSlash c) = [] := by
        simp [List.takeWhile, hx]
      have hd : (x :: bytes s1).dropWhile (fun c => !isSlash c) = x :: bytes s1 := by
        simp [List.dropWhile, hx]
      rw [ht, hd]
      exact ⟨valid_nil, ⟨x :: s1, (bytes_single x h1 s1).symm⟩⟩
    · have hx1 : isSlash x = false := by simpa using hx
      have hsplit : bytes (x :: s1) = (x :: List.replicate (x.utf8Size - 1) pad) ++ bytes s1 := by
        rw [bytes_cons]; rfl
      have hall : ∀ c ∈ x :: List.replicate (x.utf8Size - 1) pad,
          (fun c => !isSlash c) c = true := by
        intro c hc
        rcases List.mem_cons.mp hc with rfl | hc
        · simp [hx1]
        · exact pad_not_slash c hc
      have hone : valid (x :: List.replicate (x.utf8Size - 1) pad) :=
        ⟨[x], by rw [bytes_cons, bytes_nil, List.append_nil]⟩
      rw [hsplit, List.takeWhile_append_of_pos hall, List.dropWhile_append_of_pos hall]
      exact ⟨valid_append _ _ hone ih.1, ih.2⟩

theorem valid_takeWhile (l : List Char) (h : valid l) :
    valid (l.takeWhile (fun c => !isSlash c)) := by
  obtain ⟨s, rfl⟩ := h
  exact (valid_takeWhile_dropWhile s).1

theorem valid_dropWhile (l : List Char) (h : valid l) :
    valid (l.dropWhile (fun c => !isSlash c)) := by
  obtain ⟨s, rfl⟩ := h
  exact (valid_takeWhile_dropWhile s).2

theorem charsLoop_bytes (s : List Char) :
    ∀ fuel, (bytes s).length ≤ fuel → charsLoop fuel (bytes s) = s := by
  induction s with
  | nil =>
    intro fuel _
    cases fuel <;> rfl
  | cons x s1 ih =>
    intro fuel hfuel
    rw [bytes_cons] at hfuel ⊢
    simp only [List.length_cons, List.length_append, List.length_replicate] at hfuel
    obtain ⟨f, rfl⟩ : ∃ f, fuel = f + 1 := ⟨fuel - 1, by omega⟩
    simp only [charsLoop]
    have hdrop : (List.replicate (x.utf8Size - 1) pad ++ bytes s1).drop (x.utf8Size - 1) =
        bytes s1 := by
      apply List.drop_left'
      simp
    rw [hdrop, ih f (by omega)]

/-- Reading the bytes of a string gives the string back. -/
theorem chars_bytes (s : List Char) : chars (bytes s) = s :=
  charsLoop_bytes s _ le_rfl

theorem bytes_injective (s t : List Char) (h : bytes s = bytes t) : s = t := by
  rw [← chars_bytes s, ← chars_bytes t, h]

theorem charsLoop_subset (fuel : Nat) : ∀ (l : List Char) (c : Char),
    c ∈ charsLoop fuel l → c ∈ l := by
  induction fuel with
  | zero => intro l c h; simp [charsLoop] at h
  | succ fuel ih =>
    intro l c h
    cases l with
    | nil => simp [charsLoop] at h
    | cons x xs =>
      simp only [charsLoop, List.mem_cons] at h
      rcases h with rfl | h
      · simp
      · exact List.mem_cons_of_mem _ (List.mem_of_mem_drop (ih _ _ h))

/-- Reading bytes finds no character that is not among them. -/
theorem chars_subset (l : List Char) (c : Char) (h : c ∈ chars l) : c ∈ l :=
  charsLoop_subset _ l c h

end filepath

namespace filepath

theorem joinSep_cons (e : List Char) (es : List (List Char)) (h : es ≠ []) :
    joinSep (e :: es) = e ++ Separator :: joinSep es := by
  cases es with
  | nil => exact absurd rfl h
  | cons e1 es => rfl

theorem joinSep_snoc (es : List (List Char)) (e : List Char) (h : es ≠ []) :
    joinSep (es ++ [e]) = joinSep es ++ Separator :: e := by
  induction es with
  | nil => exact absurd rfl h
  | cons a as ih =>
    cases as with
    | nil => simp [joinSep]
    | cons b bs =>
      have := ih (by simp)
      simp only [List.cons_append] at this ⊢
      rw [joinSep, this, joinSep]
      simp

theorem joinSep_append_length (es fs : List (List Char)) :
    (joinSep es).length ≤ (joinSep (es ++ fs)).length := by
  induction fs using List.reverseRecOn with
  | nil => simp
  | append_singleton fs f ih =>
    rw [← List.append_assoc]
    by_cases h : es ++ fs = []
    · have hes : es = [] := (List.append_eq_nil.mp h).1
      simp [hes, joinSep]
    · rw [joinSep_snoc _ _ h]
      simp only [List.length_append, List.length_cons]
      omega

theorem joinSep_append_length_lt (es fs : List (List Char)) (hfs : fs ≠ [])
    (hne : ∀ f ∈ fs, f ≠ []) : (joinSep es).length < (joinSep (es ++ fs)).length := by
  induction fs using List.reverseRecOn with
  | nil => exact absurd rfl hfs
  | append_singleton fs f _ =>
    have hf : f ≠ [] := hne f (by simp)
    have hflen : 0 < f.length := List.length_pos.mpr hf
    rw [← List.append_assoc]
    by_cases h : es ++ fs = []
    · have hes : es = [] := (List.append_eq_nil.mp h).1
      have hfs0 : fs = [] := (List.append_eq_nil.mp h).2
      simp [hes, hfs0, joinSep, hflen]
    · rw [joinSep_snoc _ _ h]
      have := joinSep_append_length es fs
      simp only [List.length_append, List.length_cons]
      omega

theorem joinSep_eq_nil (es : List (List Char)) (hne : ∀ e ∈ es, e ≠ []) :
    joinSep es = [] ↔ es = [] := by
  constructor
  · intro h
    by_contra hes
    have := joinSep_append_length_lt [] es hes hne
    simp [h, joinSep] at this
  · rintro rfl; rfl

theorem outBacktrack_sep (dotdot : Nat) (e rest : List Char) (he : ∀ c ∈ e, isSlash c = false)
    (hlen : dotdot ≤ rest.length) : outBacktrack dotdot (e ++ Separator :: rest) = rest := by
  induction e with
  | nil => simp [outBacktrack, Separator, isSlash]
  | cons c cs ih =>
    have hc : isSlash c = false := he c (by simp)
    have hgt : dotdot < (cs ++ Separator :: rest).length := by
      simp only [List.length_append, List.length_cons]; omega
    rw [List.cons_append, outBacktrack]
    simp only [hc, gt_iff_lt, decide_eq_true hgt, Bool.not_false, Bool.and_self, if_true]
    exact ih (fun c hc => he c (List.mem_cons_of_mem _ hc))

theorem outBacktrack_bottom (dotdot : Nat) (e rest : List Char) (hne : e ≠ [])
    (he : ∀ c ∈ e, isSlash c = false) (hlen : rest.length = dotdot) :
    outBacktrack dotdot (e ++ rest) = rest := by
  induction e with
  | nil => exact absurd rfl hne
  | cons c cs ih =>
    have hc : isSlash c = false := he c (by simp)
    cases cs with
    | nil => simp [outBacktrack, hlen]
    | cons c1 cs1 =>
      have hgt : dotdot < (c1 :: cs1 ++ rest).length := by
        simp only [List.cons_append, List.length_append, List.length_cons]; omega
      rw [List.cons_append, outBacktrack]
      simp only [hc, gt_iff_lt, decide_eq_true hgt, Bool.not_false, Bool.and_self, if_true]
      exact ih (by simp) (fun c hc => he c (List.mem_cons_of_mem _ hc))

end filepath

namespace filepath

theorem dd_isElem : isElem ['.', '.'] :=
  ⟨by simp, fun c hc => by
    simp only [List.mem_cons, List.mem_singleton, List.not_mem_nil, or_false, or_self] at hc
    subst hc; decide⟩

theorem elems_ne_nil (k : Nat) (names : List (List Char)) (hn : ∀ e ∈ names, isName e) :
    ∀ e ∈ List.replicate k ['.', '.'] ++ names, e ≠ [] := by
  intro e he
  rcases List.mem_append.mp he with h | h
  · rw [(List.mem_replicate.mp h).2]; simp
  · exact (hn e h).1.1

theorem cleaned_eq_nil (k : Nat) (names : List (List Char)) (hn : ∀ e ∈ names, isName e) :
    cleaned k names = [] ↔ k = 0 ∧ names = [] := by
  rw [cleaned, joinSep_eq_nil _ (elems_ne_nil k names hn)]
  simp [List.replicate_eq_nil_iff]

theorem cleaned_snoc (k : Nat) (names : List (List Char)) (e : List Char)
    (h : ¬ (k = 0 ∧ names = [])) :
    cleaned k (names ++ [e]) = cleaned k names ++ Separator :: e := by
  rw [cleaned, ← List.append_assoc, joinSep_snoc, cleaned]
  intro h0
  apply h
  simpa [List.replicate_eq_nil_iff] using h0

theorem cleaned_zero_single (e : List Char) : cleaned 0 [e] = e := rfl

theorem cleaned_succ (k : Nat) (h : k ≠ 0) :
    cleaned (k + 1) [] = cleaned k [] ++ Separator :: ['.', '.'] := by
  rw [cleaned, List.append_nil, List.replicate_succ', joinSep_snoc, cleaned, List.append_nil]
  simpa [List.replicate_eq_nil_iff] using h

theorem cleaned_length_le (k : Nat) (names : List (List Char)) :
    (cleaned k []).length ≤ (cleaned k names).length := by
  rw [cleaned, cleaned, List.append_nil]
  exact joinSep_append_length _ _

theorem cleaned_length_lt (k : Nat) (names : List (List Char)) (hn : ∀ e ∈ names, isName e)
    (hne : names ≠ []) : (cleaned k []).length < (cleaned k names).length := by
  rw [cleaned, cleaned, List.append_nil]
  exact joinSep_append_length_lt _ _ hne (fun f hf => (hn f hf).1.1)

theorem base_length (rooted : Bool) : (base rooted).length = if rooted then 1 else 0 := by
  cases rooted <;> rfl

theorem exists_imp4 {α β : Type} {P1 P2 P3 Q Q1 : α → β → Prop}
    (h : ∃ a b, P1 a b ∧ P2 a b ∧ P3 a b ∧ Q1 a b) (hq : ∀ a b, Q1 a b → Q a b) :
    ∃ a b, P1 a b ∧ P2 a b ∧ P3 a b ∧ Q a b := by
  obtain ⟨a, b, h1, h2, h3, h4⟩ := h
  exact ⟨a, b, h1, h2, h3, hq a b h4⟩

/-- The loop of `Clean` keeps the written part of its buffer in the shape of a
cleaned path; its names are bytes of strings if the path is. -/
theorem outLoop_inv (rooted : Bool) (fuel : Nat) :
    ∀ (path out : List Char) (dotdot k : Nat) (names : List (List Char)),
      path.length ≤ fuel → (rooted = true → k = 0) → (∀ e ∈ names, isName e) →
      out = (cleaned k names).reverse ++ base rooted →
      dotdot = (cleaned k []).length + (base rooted).length →
      ∃ k1 names1, (rooted = true → k1 = 0) ∧ (∀ e ∈ names1, isName e) ∧
        outLoop rooted fuel path out dotdot = (cleaned k1 names1).reverse ++ base rooted ∧
        (valid path → (∀ e ∈ names, valid e) → ∀ e ∈ names1, valid e) := by
  induction fuel with
  | zero =>
    intro path out dotdot k names _ hk hn hout _
    exact ⟨k, names, hk, hn, by simp [outLoop, hout], fun _ h => h⟩
  | succ fuel ih =>
    intro path out dotdot k names hfuel hk hn hout hdd
    cases path with
    | nil => exact ⟨k, names, hk, hn, by simp [outLoop, hout], fun _ h => h⟩
    | cons c rest =>
      have hrest : rest.length ≤ fuel := by simpa using hfuel
      have hrest1 : (rest.drop 1).length ≤ fuel := by
        rw [List.length_drop]; omega
      have hlen : out.length = (cleaned k names).length + (base rooted).length := by
        rw [hout]; simp
      simp only [outLoop]
      by_cases h1 : isSlash c = true
      · rw [if_pos h1]
        exact exists_imp4 (ih rest out dotdot k names hrest hk hn hout hdd)
          (fun _ _ g4 hv hnv => g4 (valid_tail c rest (slash_single c h1) hv) hnv)
      rw [if_neg h1]
      by_cases h2 : (c == '.' && (rest.isEmpty || isSlash (rest.headD ' '))) = true
      · rw [if_pos h2]
        have hcdot : c = '.' := by
          simp only [Bool.and_eq_true, beq_iff_eq] at h2
          exact h2.1
        exact exists_imp4 (ih rest out dotdot k names hrest hk hn hout hdd)
          (fun _ _ g4 hv hnv => g4 (valid_tail c rest (by rw [hcdot]; rfl) hv) hnv)
      rw [if_neg h2]
      by_cases h3 : (c == '.' && rest.headD ' ' == '.' &&
          ((rest.drop 1).isEmpty || isSlash ((rest.drop 1).headD ' '))) = true
      · rw [if_pos h3]
        have hvdrop : valid (c :: rest) → valid (rest.drop 1) := by
          intro hv
          cases rest with
          | nil => exact valid_nil
          | cons r rs =>
            have h3a := h3
            simp only [Bool.and_eq_true, beq_iff_eq, List.headD_cons] at h3a
            obtain ⟨⟨hc0, hr0⟩, -⟩ := h3a
            rw [hc0, hr0] at hv
            exact valid_tail '.' rs rfl (valid_tail '.' ('.' :: rs) rfl hv)
        by_cases h4 : out.length > dotdot
        · -- something to drop
          rw [if_pos h4]
          have hne : names ≠ [] := by
            rintro rfl
            omega
          rcases List.eq_nil_or_concat names with h0 | ⟨init, e, hcat⟩
          · exact absurd h0 hne
          rw [List.concat_eq_append] at hcat
          subst hcat
          have he : isName e := hn e (by simp)
          have hinit : ∀ f ∈ init, isName f := fun f hf => hn f (by simp [hf])
          have hrev : ∀ c ∈ e.reverse, isSlash c = false :=
            fun c hc => he.1.2 c (List.mem_reverse.mp hc)
          refine exists_imp4 (ih (rest.drop 1) _ dotdot k init hrest1 hk hinit ?_ hdd)
            (fun _ _ g4 hv hnv => g4 (hvdrop hv) (fun f hf => hnv f (by simp [hf])))
          by_cases hz : k = 0 ∧ init = []
          · obtain ⟨rfl, rfl⟩ := hz
            rw [hout, List.nil_append, cleaned_zero_single]
            have : (cleaned 0 []) = [] := rfl
            rw [this, List.reverse_nil, List.nil_append]
            apply outBacktrack_bottom _ _ _ _ hrev
            · rw [hdd, this]; simp
            · simpa using he.1.1
          · rw [hout, cleaned_snoc k init e hz, List.reverse_append, List.reverse_cons,
              List.append_assoc, List.append_assoc, List.singleton_append]
            apply outBacktrack_sep _ _ _ hrev
            rw [hdd, List.length_append, List.length_reverse]
            have := cleaned_length_le k init
            omega
        rw [if_neg h4]
        by_cases h5 : (!rooted) = true
        · -- kept at the start of a relative path
          rw [if_pos h5]
          have hnil : names = [] := by
            by_contra hne
            have := cleaned_length_lt k names hn hne
            omega
          subst hnil
          have hr : rooted = false := by simpa using h5
          subst hr
          have hbase : base false = [] := rfl
          rw [hbase, List.append_nil] at hout
          rw [hbase] at hlen
          by_cases hk0 : k = 0
          · subst hk0
            have h00 : (cleaned 0 []) = [] := rfl
            have hout0 : out = [] := by rw [hout, h00]; rfl
            subst hout0
            refine exists_imp4 (ih (rest.drop 1) _ _ 1 [] hrest1 (by simp) (by simp) ?_ ?_)
              (fun _ _ g4 hv _ => g4 (hvdrop hv) (by simp))
            · simp [base, cleaned, joinSep]
            · simp [base, cleaned, joinSep]
          · have hpos : out.length > 0 := by
              rw [hlen]
              have : cleaned k [] ≠ [] := by
                rw [Ne, cleaned_eq_nil k [] (by simp)]
                simp [hk0]
              have := List.length_pos.mpr this
              simp only [List.length_nil, Nat.add_zero]
              omega
            rw [if_pos hpos]
            refine exists_imp4 (ih (rest.drop 1) _ _ (k + 1) [] hrest1 (by simp) (by simp) ?_ ?_)
              (fun _ _ g4 hv _ => g4 (hvdrop hv) (by simp))
            · simp [hout, cleaned_succ k hk0, base]
            · simp [hout, cleaned_succ k hk0, base]
        · -- at the root
          rw [if_neg h5]
          exact exists_imp4 (ih (rest.drop 1) out dotdot k names hrest1 hk hn hout hdd)
            (fun _ _ g4 hv hnv => g4 (hvdrop hv) hnv)
      rw [if_neg h3]
      -- a name
      have hc : isSlash c = false := by simpa using h1
      have htake : (c :: rest).takeWhile (fun c => !isSlash c) =
          c :: rest.takeWhile (fun c => !isSlash c) := by
        simp [List.takeWhile, hc]
      have hdrop : (c :: rest).dropWhile (fun c => !isSlash c) =
          rest.dropWhile (fun c => !isSlash c) := by
        simp [List.dropWhile, hc]
      have hdroplen : (rest.dropWhile (fun c => !isSlash c)).length ≤ fuel :=
        le_trans (List.dropWhile_sublist _).length_le hrest
      have he : isName (c :: rest.takeWhile (fun c => !isSlash c)) := by
        refine ⟨⟨by simp, ?_⟩, ?_, ?_⟩
        · intro x hx
          rcases List.mem_cons.mp hx with rfl | hx
          · exact hc
          · simpa using List.mem_takeWhile_imp hx
        · intro heq
          simp only [List.cons.injEq] at heq
          obtain ⟨rfl, htw⟩ := heq
          apply h2
          cases rest with
          | nil => simp
          | cons r rs =>
            simp only [List.takeWhile] at htw
            split at htw
            · simp at htw
            · rename_i hr
              simp at hr
              simp [hr]
        · intro heq
          simp only [List.cons.injEq] at heq
          obtain ⟨rfl, htw⟩ := heq
          apply h3
          cases rest with
          | nil => simp at htw
          | cons r rs =>
            simp only [List.takeWhile] at htw
            split at htw
            · simp only [List.cons.injEq] at htw
              obtain ⟨rfl, htw2⟩ := htw
              cases rs with
              | nil => simp
              | cons r2 rs2 =>
                simp only [List.takeWhile] at htw2
                split at htw2
                · simp at htw2
                · rename_i hr
                  simp at hr
                  simp [hr]
            · simp at htw
      have hvt : valid (c :: rest) → valid (c :: rest.takeWhile (fun c => !isSlash c)) := by
        intro hv
        rw [← htake]
        exact valid_takeWhile _ hv
      have hvd : valid (c :: rest) → valid (rest.dropWhile (fun c => !isSlash c)) := by
        intro hv
        rw [← hdrop]
        exact valid_dropWhile _ hv
      rw [htake, hdrop]
      refine exists_imp4
        (ih _ _ dotdot k (names ++ [c :: rest.takeWhile (fun c => !isSlash c)]) hdroplen hk
          ?_ ?_ hdd)
        (fun _ _ g4 hv hnv => g4 (hvd hv) (fun f hf => by
          rcases List.mem_append.mp hf with hf | hf
          · exact hnv f hf
          · rw [List.mem_singleton.mp hf]; exact hvt hv))
      · intro f hf
        rcases List.mem_append.mp hf with hf | hf
        · exact hn f hf
        · rw [List.mem_singleton.mp hf]; exact he
      · by_cases hz : k = 0 ∧ names = []
        · obtain ⟨rfl, rfl⟩ := hz
          have : (cleaned 0 []) = [] := rfl
          cases rooted <;> simp [hout, this, base, cleaned_zero_single]
        · rw [cleaned_snoc k names _ hz]
          have hpos : 0 < (cleaned k names).length := by
            apply List.length_pos.mpr
            rw [Ne, cleaned_eq_nil k names hn]
            exact hz
          have hb := base_length rooted
          have hcond : ((rooted && out.length != 1) || (!rooted && out.length != 0)) = true := by
            cases rooted
            · have h0 : out.length ≠ 0 := by rw [hlen]; omega
              simp [h0]
            · have h0 : out.length ≠ 1 := by rw [hlen]; simp at hb; omega
              simp [h0]
          rw [if_pos hcond, hout]
          simp

end filepath

namespace filepath

theorem mem_joinSep (es : List (List Char)) (c : Char) (hc : c ∈ joinSep es) :
    c = Separator ∨ ∃ e ∈ es, c ∈ e := by
  induction es with
  | nil => simp [joinSep] at hc
  | cons a as ih =>
    cases as with
    | nil => exact Or.inr ⟨a, by simp, by simpa [joinSep] using hc⟩
    | cons b bs =>
      simp only [joinSep, List.mem_append, List.mem_cons] at hc
      rcases hc with h | h | h
      · exact Or.inr ⟨a, by simp, h⟩
      · exact Or.inl h
      · rcases ih h with h1 | ⟨e, he, hce⟩
        · exact Or.inl h1
        · exact Or.inr ⟨e, List.mem_cons_of_mem _ he, hce⟩

theorem elems_isElem (k : Nat) (names : List (List Char)) (hn : ∀ e ∈ names, isName e) :
    ∀ e ∈ List.replicate k ['.', '.'] ++ names, isElem e := by
  intro e he
  rcases List.mem_append.mp he with h | h
  · rw [(List.mem_replicate.mp h).2]; exact dd_isElem
  · exact (hn e h).1

theorem FromSlash_id (l : List Char) (h : ∀ c ∈ l, c ≠ '/') : FromSlash l = l := by
  induction l with
  | nil => rfl
  | cons c cs ih =>
    have hc : (c == '/') = false := by simpa using h c (by simp)
    have := ih (fun x hx => h x (List.mem_cons_of_mem _ hx))
    simp only [FromSlash] at this ⊢
    rw [List.map_cons, this, hc]
    rfl

theorem cleaned_no_slash (k : Nat) (names : List (List Char)) (hn : ∀ e ∈ names, isName e) :
    ∀ c ∈ cleaned k names, c ≠ '/' := by
  intro c hc
  rcases mem_joinSep _ c hc with h | ⟨e, he, hce⟩
  · rw [h]; decide
  · have := (elems_isElem k names hn e he).2 c hce
    rintro rfl
    exact absurd this (by decide)

theorem FromSlash_cleaned (k : Nat) (names : List (List Char)) (hn : ∀ e ∈ names, isName e) :
    FromSlash (cleaned k names) = cleaned k names :=
  FromSlash_id _ (cleaned_no_slash k names hn)

theorem joinSep_trimmed (es : List (List Char)) (hes : es ≠ []) (h : ∀ e ∈ es, isElem e) :
    trimmed (joinSep es) := by
  constructor
  · cases es with
    | nil => exact absurd rfl hes
    | cons e es1 =>
      obtain ⟨hne, hns⟩ := h e (by simp)
      cases e with
      | nil => exact absurd rfl hne
      | cons x xs =>
        cases es1 with
        | nil => exact ⟨x, xs, rfl, hns x (by simp)⟩
        | cons e1 es2 => exact ⟨x, _, rfl, hns x (by simp)⟩
  · rcases List.eq_nil_or_concat es with h0 | ⟨init, e, hcat⟩
    · exact absurd h0 hes
    rw [List.concat_eq_append] at hcat
    subst hcat
    obtain ⟨hne, hns⟩ := h e (by simp)
    rcases List.eq_nil_or_concat e with h0 | ⟨ys, y, hcat⟩
    · exact absurd h0 hne
    rw [List.concat_eq_append] at hcat
    subst hcat
    by_cases hinit : init = []
    · subst hinit
      exact ⟨ys, y, rfl, hns y (by simp)⟩
    · rw [joinSep_snoc _ _ hinit]
      exact ⟨joinSep init ++ Separator :: ys, y, by simp, hns y (by simp)⟩

theorem cleaned_trimmed (k : Nat) (names : List (List Char)) (hn : ∀ e ∈ names, isName e)
    (hne : cleaned k names ≠ []) : trimmed (cleaned k names) := by
  apply joinSep_trimmed _ _ (elems_isElem k names hn)
  rintro h0
  apply hne
  rw [cleaned, h0]
  rfl

end filepath

namespace strings

theorem dropWhile_replicate_append (P : Char → Bool) (a : Nat) (s : Char) (hs : P s = true)
    (l : List Char) : (List.replicate a s ++ l).dropWhile P = l.dropWhile P := by
  induction a with
  | zero => rfl
  | succ a ih => simp [List.replicate_succ, List.dropWhile, hs, ih]

/-- Trimming backslashes from a path wrapped in backslashes leaves the path,
if that is empty or neither begins nor ends with a slash. -/
theorem Trim_wrapped (a b : Nat) (q : List Char) (hq : q = [] ∨ filepath.trimmed q) :
    Trim (String.mk (List.replicate a '\\' ++ q ++ List.replicate b '\\')) "\\" = String.mk q := by
  have hcut : ∀ c : Char, ("\\" : String).data.contains c = (c == '\\') := by
    intro c
    show (['\\'] : List Char).contains c = _
    cases h : c == '\\' <;> simp [List.contains, List.elem, h]
  simp only [Trim, hcut]
  congr 1
  rw [List.append_assoc, dropWhile_replicate_append _ _ _ (by simp)]
  rcases hq with rfl | ⟨⟨x, xs, hx, hxs⟩, ⟨ys, y, hy, hys⟩⟩
  · have : ([] ++ List.replicate b '\\').dropWhile (fun c => c == '\\') = [] := by
      simp
    rw [this]
    rfl
  · have hxne : (x == '\\') = false := by
      rw [beq_eq_false_iff_ne]
      rintro rfl
      exact absurd hxs (by decide)
    have hyne : (y == '\\') = false := by
      rw [beq_eq_false_iff_ne]
      rintro rfl
      exact absurd hys (by decide)
    have h1 : (q ++ List.replicate b '\\').dropWhile (fun c => c == '\\') =
        q ++ List.replicate b '\\' := by
      rw [hx]
      simp [List.dropWhile, hxne]
    rw [h1, List.reverse_append, List.reverse_replicate,
      dropWhile_replicate_append _ _ _ (by simp)]
    have h2 : q.reverse.dropWhile (fun c => c == '\\') = q.reverse := by
      rw [hy]
      simp [List.dropWhile, hyne]
    rw [h2, List.reverse_reverse]

theorem Trim_trimmed (q : List Char) (hq : q = [] ∨ filepath.trimmed q) :
    Trim (String.mk q) "\\" = String.mk q := by
  have := Trim_wrapped 0 0 q hq
  simpa using this

end strings

namespace filepath

theorem FromSlash_append (a b : List Char) : FromSlash (a ++ b) = FromSlash a ++ FromSlash b := by
  simp [FromSlash]


end filepath

namespace filepath

theorem dropWhile_nil_or_slash (l : List Char) :
    l.dropWhile (fun c => !isSlash c) = [] ∨
      ∃ s t, l.dropWhile (fun c => !isSlash c) = s :: t ∧ isSlash s = true := by
  induction l with
  | nil => left; rfl
  | cons c cs ih =>
    by_cases hc : isSlash c = true
    · right
      exact ⟨c, cs, by simp [List.dropWhile, hc], hc⟩
    · have : (c :: cs).dropWhile (fun c => !isSlash c) = cs.dropWhile (fun c => !isSlash c) := by
        simp [List.dropWhile, hc]
      rw [this]
      exact ih

end filepath

namespace filepath

theorem take_succ_set {α : Type} (l : List α) (i : Nat) (a : α) (h : i < l.length) :
    (l.set i a).take (i + 1) = l.take i ++ [a] := by
  induction l generalizing i with
  | nil => simp at h
  | cons x xs ih =>
    cases i with
    | zero => simp
    | succ i =>
      simp only [List.length_cons, Nat.add_lt_add_iff_right] at h
      simp only [List.set_cons_succ, List.take_succ_cons, List.cons_append, ih i h]

theorem take_succ_getD (l : List Char) (i : Nat) (h : i < l.length) :
    l.take (i + 1) = l.take i ++ [l.getD i ' '] := by
  induction l generalizing i with
  | nil => simp at h
  | cons x xs ih =>
    cases i with
    | zero => simp
    | succ i =>
      simp only [List.length_cons, Nat.add_lt_add_iff_right] at h
      simp only [List.take_succ_cons, List.cons_append, List.getD_cons_succ, ih i h]

theorem set_length_append {α : Type} (l : List α) (z : α) (zs : List α) (a : α) :
    (l ++ z :: zs).set l.length a = l ++ a :: zs := by
  induction l with
  | nil => rfl
  | cons x xs ih => simp only [List.cons_append, List.length_cons, List.set_cons_succ, ih]

theorem lazybuf.content_length (b : lazybuf) (h : b.wf) : b.content.length = b.w := by
  obtain ⟨hw, hb⟩ := h
  cases hbuf : b.buf with
  | none =>
    simp only [lazybuf.content, hbuf, List.length_take]
    omega
  | some buf =>
    have := hb buf hbuf
    simp only [lazybuf.content, hbuf, List.length_take]
    omega

/-- Appending a byte inside the buffer writes it behind the written part. -/
theorem lazybuf.append_spec (b : lazybuf) (c : Char) (h : b.wf) (hw : b.w < b.path.length) :
    (b.append c).content = b.content ++ [c] ∧ (b.append c).wf ∧ (b.append c).w = b.w + 1 ∧
      (b.append c).path = b.path ∧ (b.append c).volAndPath = b.volAndPath ∧
      (b.append c).volLen = b.volLen := by
  obtain ⟨hwle, hb⟩ := h
  cases hbuf : b.buf with
  | none =>
    by_cases hm : (decide (b.w < b.path.length) && b.path.getD b.w ' ' == c) = true
    · have hc : b.path.getD b.w ' ' = c := by
        simp only [Bool.and_eq_true, beq_iff_eq] at hm
        exact hm.2
      have happ : b.append c = { b with w := b.w + 1 } := by
        simp only [lazybuf.append, hbuf, hm, if_true]
      rw [happ]
      refine ⟨?_, ⟨hw, ?_⟩, rfl, rfl, rfl, rfl⟩
      · simp only [lazybuf.content, hbuf]
        rw [take_succ_getD _ _ hw, hc]
      · intro buf hb0
        simp only [hbuf] at hb0
        exact absurd hb0 (by simp)
    · have happ : b.append c = { b with
          buf := some ((b.path.take b.w ++
            List.replicate (b.path.length - b.w) (Char.ofNat 0)).set b.w c)
          w := b.w + 1 } := by
        simp only [lazybuf.append, hbuf, hm, Bool.false_eq_true, if_false]
      rw [happ]
      have hlen : (b.path.take b.w).length = b.w := by
        rw [List.length_take]; omega
      have hrep : List.replicate (b.path.length - b.w) (Char.ofNat 0) =
          Char.ofNat 0 :: List.replicate (b.path.length - b.w - 1) (Char.ofNat 0) := by
        rw [← List.replicate_succ]
        congr 1
        omega
      have hset : (b.path.take b.w ++ List.replicate (b.path.length - b.w) (Char.ofNat 0)).set
          b.w c = b.path.take b.w ++ c :: List.replicate (b.path.length - b.w - 1) (Char.ofNat 0) := by
        rw [hrep]
        have := set_length_append (b.path.take b.w) (Char.ofNat 0)
          (List.replicate (b.path.length - b.w - 1) (Char.ofNat 0)) c
        rw [hlen] at this
        exact this
      refine ⟨?_, ⟨hw, ?_⟩, rfl, rfl, rfl, rfl⟩
      · simp only [lazybuf.content, hbuf]
        rw [hset]
        have := @List.take_append Char (b.path.take b.w)
          (c :: List.replicate (b.path.length - b.w - 1) (Char.ofNat 0)) 1
        rw [hlen] at this
        rw [this]
        rfl
      · intro buf hb0
        simp only [Option.some.injEq] at hb0
        rw [← hb0, hset]
        simp only [List.length_append, hlen, List.length_cons, List.length_replicate]
        omega
  | some buf =>
    have hl := hb buf hbuf
    have happ : b.append c = { b with buf := some (buf.set b.w c), w := b.w + 1 } := by
      simp only [lazybuf.append, hbuf]
    rw [happ]
    refine ⟨?_, ⟨hw, ?_⟩, rfl, rfl, rfl, rfl⟩
    · simp only [lazybuf.content, hbuf]
      exact take_succ_set buf b.w c (by omega)
    · intro buf1 hb0
      simp only [Option.some.injEq] at hb0
      rw [← hb0, List.length_set, hl]

/-- Copying an element that fits into the buffer. -/
theorem lazybuf.foldl_append_spec (l : List Char) :
    ∀ (b : lazybuf), b.wf → b.w + l.length ≤ b.path.length →
      (l.foldl lazybuf.append b).content = b.content ++ l ∧ (l.foldl lazybuf.append b).wf ∧
        (l.foldl lazybuf.append b).w = b.w + l.length ∧
        (l.foldl lazybuf.append b).path = b.path ∧
        (l.foldl lazybuf.append b).volAndPath = b.volAndPath ∧
        (l.foldl lazybuf.append b).volLen = b.volLen := by
  induction l with
  | nil =>
    intro b h _
    exact ⟨by simp, h, rfl, rfl, rfl, rfl⟩
  | cons c cs ih =>
    intro b h hlen
    simp only [List.length_cons] at hlen
    obtain ⟨h1, h2, h3, h4, h5, h6⟩ := lazybuf.append_spec b c h (by omega)
    obtain ⟨g1, g2, g3, g4, g5, g6⟩ := ih (b.append c) h2 (by rw [h3, h4]; omega)
    simp only [List.foldl_cons]
    refine ⟨?_, g2, ?_, ?_, ?_, ?_⟩
    · rw [g1, h1]; simp
    · rw [g3, h3, List.length_cons]; omega
    · rw [g4, h4]
    · rw [g5, h5]
    · rw [g6, h6]

end filepath

namespace filepath

theorem lazybuf.content_pred (b : lazybuf) (h : b.wf) (hw : 1 ≤ b.w) :
    b.content = ({ b with w := b.w - 1 } : lazybuf).content ++ [b.index (b.w - 1)] := by
  obtain ⟨hwle, hb⟩ := h
  cases hbuf : b.buf with
  | none =>
    simp only [lazybuf.content, lazybuf.index, hbuf]
    have := take_succ_getD b.path (b.w - 1) (by omega)
    rw [← this]
    congr 1
    omega
  | some buf =>
    have hl := hb buf hbuf
    simp only [lazybuf.content, lazybuf.index, hbuf]
    have := take_succ_getD buf (b.w - 1) (by omega)
    rw [← this]
    congr 1
    omega

theorem lazybuf.wf_pred (b : lazybuf) (h : b.wf) : ({ b with w := b.w - 1 } : lazybuf).wf :=
  ⟨by have := h.1; show b.w - 1 ≤ b.path.length; omega, h.2⟩

/-- The backward scan of the `..` step, on the written part of the buffer. -/
theorem backtrack_spec (dotdot : Nat) :
    ∀ (fuel : Nat) (b : lazybuf), b.wf → 1 ≤ b.w → b.w - 1 ≤ fuel →
      (backtrack dotdot fuel { b with w := b.w - 1 }).content =
          (outBacktrack dotdot b.content.reverse).reverse ∧
        (backtrack dotdot fuel { b with w := b.w - 1 }).wf ∧
        (backtrack dotdot fuel { b with w := b.w - 1 }).w ≤ b.w - 1 ∧
        (backtrack dotdot fuel { b with w := b.w - 1 }).path = b.path ∧
        (backtrack dotdot fuel { b with w := b.w - 1 }).volAndPath = b.volAndPath ∧
        (backtrack dotdot fuel { b with w := b.w - 1 }).volLen = b.volLen := by
  intro fuel
  induction fuel with
  | zero =>
    intro b h hw hfuel
    have hw1 : b.w = 1 := by omega
    have hpred := lazybuf.content_pred b h hw
    have hlen := lazybuf.content_length _ (lazybuf.wf_pred b h)
    have hnil : ({ b with w := b.w - 1 } : lazybuf).content = [] := by
      apply List.length_eq_zero.mp
      rw [hlen]
      show b.w - 1 = 0
      omega
    refine ⟨?_, lazybuf.wf_pred b h, le_refl _, rfl, rfl, rfl⟩
    simp only [backtrack]
    rw [hpred, hnil]
    simp [outBacktrack]
  | succ fuel ih =>
    intro b h hw hfuel
    have hpred := lazybuf.content_pred b h hw
    have hwf1 := lazybuf.wf_pred b h
    have hlen := lazybuf.content_length _ hwf1
    have hidx : ({ b with w := b.w - 1 } : lazybuf).index (b.w - 1) = b.index (b.w - 1) := rfl
    simp only [backtrack]
    by_cases hc : (decide (b.w - 1 > dotdot) && !isSlash (b.index (b.w - 1))) = true
    · have hc1 : (decide (({ b with w := b.w - 1 } : lazybuf).w > dotdot) &&
          !isSlash (({ b with w := b.w - 1 } : lazybuf).index
            ({ b with w := b.w - 1 } : lazybuf).w)) = true := hc
      rw [if_pos hc1]
      have hgt : b.w - 1 > dotdot := by
        simp only [Bool.and_eq_true, decide_eq_true_eq] at hc
        exact hc.1
      obtain ⟨g1, g2, g3, g4, g5, g6⟩ := ih { b with w := b.w - 1 } hwf1
        (by show 1 ≤ b.w - 1; omega) (by show b.w - 1 - 1 ≤ fuel; omega)
      refine ⟨?_, g2, ?_, g4, g5, g6⟩
      · rw [g1, hpred]
        simp only [List.reverse_append, List.reverse_cons, List.reverse_nil, List.nil_append,
          List.singleton_append]
        rw [outBacktrack]
        have : (decide (({ b with w := b.w - 1 } : lazybuf).content.reverse.length > dotdot) &&
            !isSlash (b.index (b.w - 1))) = true := by
          rw [List.length_reverse, hlen]
          exact hc
        rw [if_pos this]
      · exact le_trans g3 (Nat.sub_le (b.w - 1) 1)
    · have hc1 : ¬ (decide (({ b with w := b.w - 1 } : lazybuf).w > dotdot) &&
          !isSlash (({ b with w := b.w - 1 } : lazybuf).index
            ({ b with w := b.w - 1 } : lazybuf).w)) = true := hc
      rw [if_neg hc1]
      refine ⟨?_, hwf1, le_refl _, rfl, rfl, rfl⟩
      rw [hpred]
      simp only [List.reverse_append, List.reverse_cons, List.reverse_nil, List.nil_append,
        List.singleton_append]
      rw [outBacktrack]
      have : ¬ (decide (({ b with w := b.w - 1 } : lazybuf).content.reverse.length > dotdot) &&
          !isSlash (b.index (b.w - 1))) = true := by
        rw [List.length_reverse, hlen]
        exact hc
      rw [if_neg this, List.reverse_reverse]

end filepath

namespace filepath

/-- Writing the separator before an element, if one is due. -/
theorem lazybuf.sep_spec (b : lazybuf) (p : Prop) [Decidable p] (h : b.wf)
    (hw : p → b.w < b.path.length) :
    (if p then b.append Separator else b).content =
        b.content ++ (if p then [Separator] else []) ∧
      (if p then b.append Separator else b).wf ∧
      (if p then b.append Separator else b).w = b.w + (if p then 1 else 0) ∧
      (if p then b.append Separator else b).path = b.path ∧
      (if p then b.append Separator else b).volAndPath = b.volAndPath ∧
      (if p then b.append Separator else b).volLen = b.volLen := by
  by_cases hp : p
  · simp only [if_pos hp]
    exact lazybuf.append_spec b Separator h (hw hp)
  · rw [if_neg hp, if_neg hp, if_neg hp]
    exact ⟨by simp, h, rfl, rfl, rfl, rfl⟩

/-- The loop of `Clean` writes what the loop on the written part alone
writes: the buffer is never left, whether it is allocated or not. -/
theorem cleanLoop_content (rooted : Bool) :
    ∀ (fuel : Nat) (path : List Char) (b : lazybuf) (dotdot : Nat), b.wf →
      b.w + path.length ≤ b.path.length →
      (b.w + path.length < b.path.length ∨ path = [] ∨ isSlash (path.headD ' ') = true ∨
        ((rooted && b.w != 1) || (!rooted && b.w != 0)) = false) →
      (cleanLoop rooted fuel path b dotdot).content =
          (outLoop rooted fuel path b.content.reverse dotdot).reverse ∧
        (cleanLoop rooted fuel path b dotdot).wf ∧
        (cleanLoop rooted fuel path b dotdot).path = b.path ∧
        (cleanLoop rooted fuel path b dotdot).volAndPath = b.volAndPath ∧
        (cleanLoop rooted fuel path b dotdot).volLen = b.volLen := by
  intro fuel
  induction fuel with
  | zero =>
    intro path b dotdot h _ _
    exact ⟨by simp [cleanLoop, outLoop], h, rfl, rfl, rfl⟩
  | succ fuel ih =>
    intro path b dotdot h hbound hsep
    cases path with
    | nil => exact ⟨by simp [cleanLoop, outLoop], h, rfl, rfl, rfl⟩
    | cons c rest =>
      have hlen : b.content.reverse.length = b.w := by
        rw [List.length_reverse, lazybuf.content_length b h]
      simp only [List.length_cons] at hbound
      simp only [cleanLoop, outLoop]
      by_cases h1 : isSlash c = true
      · simp only [if_pos h1]
        exact ih rest b dotdot h (by omega) (Or.inl (by omega))
      simp only [if_neg h1]
      by_cases h2 : (c == '.' && (rest.isEmpty || isSlash (rest.headD ' '))) = true
      · simp only [if_pos h2]
        refine ih rest b dotdot h (by omega) ?_
        simp only [Bool.and_eq_true, Bool.or_eq_true, List.isEmpty_iff] at h2
        rcases h2.2 with h0 | h0
        · exact Or.inr (Or.inl h0)
        · exact Or.inr (Or.inr (Or.inl h0))
      simp only [if_neg h2]
      have hsep1 : b.w + (rest.length + 1) < b.path.length ∨
          ((rooted && b.w != 1) || (!rooted && b.w != 0)) = false := by
        rcases hsep with h0 | h0 | h0 | h0
        · exact Or.inl (by simpa using h0)
        · exact absurd h0 (by simp)
        · exact absurd h0 (by simpa using h1)
        · exact Or.inr h0
      by_cases h3 : (c == '.' && rest.headD ' ' == '.' &&
          ((rest.drop 1).isEmpty || isSlash ((rest.drop 1).headD ' '))) = true
      · simp only [if_pos h3]
        have h3' := h3
        simp only [Bool.and_eq_true, Bool.or_eq_true, List.isEmpty_iff, beq_iff_eq] at h3'
        have htail : rest.drop 1 = [] ∨ isSlash ((rest.drop 1).headD ' ') = true := h3'.2
        have hrest : 1 ≤ rest.length := by
          cases rest with
          | nil => exact absurd h3'.1.2 (by decide)
          | cons r rs => simp
        have hdroplen : (rest.drop 1).length = rest.length - 1 := List.length_drop 1 rest
        rw [hlen]
        by_cases h4 : b.w > dotdot
        · simp only [if_pos h4]
          obtain ⟨g1, g2, g3, g4, g5, g6⟩ := backtrack_spec dotdot b.w b h (by omega) (by omega)
          have := ih (rest.drop 1) _ dotdot g2 (by rw [g4, hdroplen]; omega)
            (Or.inr (by
              rcases htail with h0 | h0
              · exact Or.inl h0
              · exact Or.inr (Or.inl h0)))
          rw [g1, List.reverse_reverse, g4, g5, g6] at this
          exact this
        simp only [if_neg h4]
        by_cases h5 : (!rooted) = true
        · simp only [if_pos h5]
          have hr : rooted = false := by simpa using h5
          have hw3 : b.w > 0 → b.w + (rest.length + 1) < b.path.length := by
            intro hpos
            rcases hsep1 with h0 | h0
            · omega
            · rw [hr] at h0
              simp only [Bool.false_and, Bool.not_false, Bool.true_and, Bool.false_or,
                bne_eq_false_iff_eq] at h0
              omega
          obtain ⟨s1, s2, s3, s4, s5, s6⟩ := lazybuf.sep_spec b (b.w > 0) h (by
            intro hpos
            have := hw3 hpos
            omega)
          have hw1 : (if b.w > 0 then b.append Separator else b).w + (rest.length + 1) ≤
              b.path.length := by
            rw [s3]
            by_cases hpos : b.w > 0
            · have := hw3 hpos
              rw [if_pos hpos]; omega
            · rw [if_neg hpos]; omega
          obtain ⟨a1, a2, a3, a4, a5, a6⟩ := lazybuf.append_spec
            (if b.w > 0 then b.append Separator else b) '.' s2 (by rw [s4]; omega)
          obtain ⟨c1, c2, c3, c4, c5, c6⟩ := lazybuf.append_spec _ '.' a2 (by
            rw [a4, a3, s4]; omega)
          have := ih (rest.drop 1) _
            (((if b.w > 0 then b.append Separator else b).append '.').append '.').w c2
            (by rw [c4, a4, s4, c3, a3, hdroplen]; omega)
            (Or.inr (by
              rcases htail with h0 | h0
              · exact Or.inl h0
              · exact Or.inr (Or.inl h0)))
          rw [c1, a1, s1, c4, a4, s4, c5, a5, s5, c6, a6, s6] at this
          have hdd : (((if b.w > 0 then b.append Separator else b).append '.').append '.').w =
              (if b.content.reverse.length > 0 then Separator :: b.content.reverse
                else b.content.reverse).length + 2 := by
            rw [c3, a3, s3, hlen]
            by_cases hpos : b.w > 0
            · simp only [if_pos hpos, List.length_cons, hlen]
            · simp only [if_neg hpos, hlen]
          have hout : (b.content ++ (if b.w > 0 then [Separator] else []) ++ ['.'] ++ ['.']).reverse =
              '.' :: '.' :: (if b.content.reverse.length > 0 then Separator :: b.content.reverse
                else b.content.reverse) := by
            rw [hlen]
            by_cases hpos : b.w > 0
            · simp [if_pos hpos]
            · simp [if_neg hpos]
          rw [hout, hdd] at this
          rw [hdd]
          simp only [hlen] at this ⊢
          exact this
        · simp only [if_neg h5]
          exact ih (rest.drop 1) b dotdot h (by rw [hdroplen]; omega)
            (Or.inr (by
              rcases htail with h0 | h0
              · exact Or.inl h0
              · exact Or.inr (Or.inl h0)))
      simp only [if_neg h3]
      rw [hlen]
      -- a name
      have hcond : ((rooted && b.w != 1) || (!rooted && b.w != 0)) = true →
          b.w + 1 + (rest.length + 1) ≤ b.path.length := by
        intro hc
        rcases hsep1 with h0 | h0
        · omega
        · rw [hc] at h0
          exact absurd h0 (by simp)
      have htd : ((c :: rest).takeWhile (fun c => !isSlash c)).length +
          ((c :: rest).dropWhile (fun c => !isSlash c)).length = rest.length + 1 := by
        have := congrArg List.length
          (List.takeWhile_append_dropWhile (fun c => !isSlash c) (c :: rest))
        rw [List.length_append, List.length_cons] at this
        exact this
      obtain ⟨s1, s2, s3, s4, s5, s6⟩ := lazybuf.sep_spec b
        (((rooted && b.w != 1) || (!rooted && b.w != 0)) = true) h (by
          intro hc
          have := hcond hc
          omega)
      have hfit : (if ((rooted && b.w != 1) || (!rooted && b.w != 0)) = true then
          b.append Separator else b).w +
          ((c :: rest).takeWhile (fun c => !isSlash c)).length +
          ((c :: rest).dropWhile (fun c => !isSlash c)).length ≤ b.path.length := by
        rw [s3]
        by_cases hc : ((rooted && b.w != 1) || (!rooted && b.w != 0)) = true
        · have := hcond hc
          rw [if_pos hc]; omega
        · rw [if_neg hc]; omega
      obtain ⟨f1, f2, f3, f4, f5, f6⟩ := lazybuf.foldl_append_spec
        ((c :: rest).takeWhile (fun c => !isSlash c)) _ s2 (by rw [s4]; omega)
      have := ih ((c :: rest).dropWhile (fun c => !isSlash c)) _ dotdot f2
        (by rw [f3, f4, s4]; omega)
        (Or.inr (by
          rcases dropWhile_nil_or_slash (c :: rest) with h0 | ⟨s, t, h0, hs⟩
          · exact Or.inl h0
          · exact Or.inr (Or.inl (by rw [h0]; exact hs))))
      rw [f1, s1, f4, s4, f5, s5, f6, s6] at this
      have hout : (b.content ++
          (if ((rooted && b.w != 1) || (!rooted && b.w != 0)) = true then [Separator] else []) ++
          (c :: rest).takeWhile (fun c => !isSlash c)).reverse =
          ((c :: rest).takeWhile (fun c => !isSlash c)).reverse ++
            (if ((rooted && b.w != 1) || (!rooted && b.w != 0)) = true then
              Separator :: b.content.reverse else b.content.reverse) := by
        by_cases hc : ((rooted && b.w != 1) || (!rooted && b.w != 0)) = true
        · rw [if_pos hc, if_pos hc]
          simp
        · rw [if_neg hc, if_neg hc]
          simp
      rw [hout] at this
      exact this

end filepath

namespace filepath

theorem headD_take (l : List Char) (n : Nat) (h : 1 ≤ n) : (l.take n).headD ' ' = l.getD 0 ' ' := by
  cases l with
  | nil => simp
  | cons x xs =>
    obtain ⟨m, rfl⟩ : ∃ m, n = m + 1 := ⟨n - 1, by omega⟩
    simp

/-- What `postClean` and `string` make of the buffer: the volume name, then
possibly `.\` or `\.`, then the written part. -/
theorem postClean_string (b : lazybuf) (hpath : b.path = b.volAndPath.drop b.volLen)
    (hw : 1 ≤ b.w) :
    ∃ pfx, (postClean b).string = b.volAndPath.take b.volLen ++ (pfx ++ b.content) ∧
      (pfx = [] ∨ (b.volLen = 0 ∧ pfx = ['.', Separator]) ∨
        (b.volLen = 0 ∧ pfx = [Separator, '.'] ∧ isSlash (b.content.headD ' ') = true)) := by
  cases hbuf : b.buf with
  | none =>
    refine ⟨[], ?_, Or.inl rfl⟩
    simp only [postClean, hbuf, lazybuf.string, lazybuf.content, List.nil_append]
    rw [List.take_add, hpath]
  | some buf =>
    by_cases hv : (b.volLen != 0) = true
    · refine ⟨[], ?_, Or.inl rfl⟩
      simp only [postClean, hbuf, if_pos hv, lazybuf.string, lazybuf.content, List.nil_append]
    · have hv0 : b.volLen = 0 := by simpa using hv
      by_cases hcolon : colonInFirstElement buf = true
      · refine ⟨['.', Separator], ?_, Or.inr (Or.inl ⟨hv0, rfl⟩)⟩
        simp only [postClean, hbuf, if_neg hv, if_pos hcolon, lazybuf.prepend, lazybuf.string,
          lazybuf.content, Option.getD_some, List.length_cons, List.length_nil]
        simp
      · by_cases hq : (decide (buf.length ≥ 3) && isSlash (buf.getD 0 ' ') &&
            buf.getD 1 ' ' == '?' && buf.getD 2 ' ' == '?') = true
        · refine ⟨[Separator, '.'], ?_, Or.inr (Or.inr ⟨hv0, rfl, ?_⟩)⟩
          · simp only [postClean, hbuf, if_neg hv, if_neg hcolon, if_pos hq, lazybuf.prepend,
              lazybuf.string, lazybuf.content, Option.getD_some, List.length_cons,
              List.length_nil]
            simp
          · simp only [lazybuf.content, hbuf]
            rw [headD_take _ _ hw]
            simp only [Bool.and_eq_true] at hq
            exact hq.1.1.2
        · refine ⟨[], ?_, Or.inl rfl⟩
          simp only [postClean, hbuf, if_neg hv, if_neg hcolon, if_neg hq, lazybuf.string,
            lazybuf.content, List.nil_append]

theorem FromSlash_nil_of (l : List Char) (h : FromSlash l = []) : l = [] := by
  cases l with
  | nil => rfl
  | cons c cs => simp [FromSlash] at h

/-- The shape of what `Clean` returns when something follows the volume
name: the volume name with its slashes turned, possibly `.\` or `\.`, then a
separator and names for a rooted path, and a cleaned relative path or `.`
otherwise. -/
theorem Clean_shape (p : List Char) (hpath : p.drop (volumeNameLen p) ≠ []) :
    ∃ k names pfx, (∀ e ∈ names, isName e) ∧
      cleanBytes p = FromSlash (p.take (volumeNameLen p)) ++ (pfx ++
        (if isSlash ((p.drop (volumeNameLen p)).headD ' ') = true then
          Separator :: cleaned 0 names
        else if cleaned k names = [] then ['.'] else cleaned k names)) ∧
      (pfx = [] ∨ (volumeNameLen p = 0 ∧ pfx = ['.', Separator]) ∨
        (volumeNameLen p = 0 ∧ isSlash ((p.drop (volumeNameLen p)).headD ' ') = true ∧
          pfx = [Separator, '.'])) ∧
      (valid (p.drop (volumeNameLen p)) → ∀ e ∈ names, valid e) := by
  have hemp : (p.drop (volumeNameLen p)).isEmpty = false := by
    cases h : p.drop (volumeNameLen p) with
    | nil => exact absurd h hpath
    | cons c cs => rfl
  have hn : 1 ≤ (p.drop (volumeNameLen p)).length := by
    cases h : p.drop (volumeNameLen p) with
    | nil => exact absurd h hpath
    | cons c cs => simp
  have hwf0 : (⟨p.drop (volumeNameLen p), none, 0, p, volumeNameLen p⟩ : lazybuf).wf := ⟨Nat.zero_le _, fun buf hb => by simp at hb⟩
  -- the buffer after the loop: its written part has the shape of a cleaned path
  have key : ∃ (k : Nat) (names : List (List Char)) (b : lazybuf), (∀ e ∈ names, isName e) ∧
      (valid (p.drop (volumeNameLen p)) → ∀ e ∈ names, valid e) ∧
      cleanBytes p = FromSlash (postClean b).string ∧ b.wf ∧
      b.path = p.drop (volumeNameLen p) ∧ b.volAndPath = p ∧ b.volLen = volumeNameLen p ∧
      b.content = (if isSlash ((p.drop (volumeNameLen p)).headD ' ') = true then
          Separator :: cleaned 0 names
        else if cleaned k names = [] then ['.'] else cleaned k names) := by
    simp only [cleanBytes, hemp, Bool.false_eq_true, if_false]
    by_cases hroot : isSlash ((p.drop (volumeNameLen p)).headD ' ') = true
    · obtain ⟨k1, names1, hk1, hn1, hout, hval⟩ := outLoop_inv true (p.drop (volumeNameLen p)).length
        ((p.drop (volumeNameLen p)).drop 1) [Separator] 1 0 []
        (by rw [List.length_drop]; omega) (fun _ => rfl)
        (by simp) rfl rfl
      have hk0 : k1 = 0 := hk1 rfl
      subst hk0
      obtain ⟨a1, a2, a3, a4, a5, a6⟩ := lazybuf.append_spec _ Separator hwf0 (by
        show 0 < (p.drop (volumeNameLen p)).length
        omega)
      obtain ⟨c1, c2, c3, c4, c5⟩ := cleanLoop_content true (p.drop (volumeNameLen p)).length
        ((p.drop (volumeNameLen p)).drop 1) _ 1 a2
        (by rw [a3, a4, List.length_drop]; show 0 + 1 + _ ≤ (p.drop (volumeNameLen p)).length; omega)
        (Or.inr (Or.inr (Or.inr (by rw [a3]; rfl))))
      have hcont : (lazybuf.append ⟨p.drop (volumeNameLen p), none, 0, p, volumeNameLen p⟩ Separator).content.reverse =
          [Separator] := by
        rw [a1]; rfl
      rw [hcont, hout] at c1
      have hc1 : (cleanLoop true (p.drop (volumeNameLen p)).length
          ((p.drop (volumeNameLen p)).drop 1)
          (lazybuf.append ⟨p.drop (volumeNameLen p), none, 0, p, volumeNameLen p⟩ Separator) 1).content =
          Separator :: cleaned 0 names1 := by
        rw [c1]; simp [base]
      have hw : ((cleanLoop true (p.drop (volumeNameLen p)).length
          ((p.drop (volumeNameLen p)).drop 1)
          (lazybuf.append ⟨p.drop (volumeNameLen p), none, 0, p, volumeNameLen p⟩ Separator) 1).w == 0) = false := by
        rw [← lazybuf.content_length _ c2, hc1]
        rfl
      have hval1 : valid (p.drop (volumeNameLen p)) → ∀ e ∈ names1, valid e := by
        intro hv
        apply hval _ (by simp)
        cases hp : p.drop (volumeNameLen p) with
        | nil => exact valid_nil
        | cons s t =>
          rw [hp] at hv hroot
          exact valid_tail s t (slash_single s hroot) hv
      refine ⟨0, names1, _, hn1, hval1, ?_, c2, ?_, ?_, ?_, ?_⟩
      · simp only [hroot, if_true, hw, Bool.false_eq_true, if_false]
      · rw [c3, a4]
      · rw [c4, a5]
      · rw [c5, a6]
      · rw [if_pos hroot, hc1]
    · obtain ⟨k1, names1, -, hn1, hout, hval⟩ := outLoop_inv false (p.drop (volumeNameLen p)).length
        (p.drop (volumeNameLen p)) [] 0 0 [] le_rfl (by simp) (by simp) rfl rfl
      obtain ⟨c1, c2, c3, c4, c5⟩ := cleanLoop_content false (p.drop (volumeNameLen p)).length
        (p.drop (volumeNameLen p)) _ 0 hwf0
        (by show 0 + _ ≤ (p.drop (volumeNameLen p)).length; omega)
        (Or.inr (Or.inr (Or.inr rfl)))
      have hcont : (⟨p.drop (volumeNameLen p), none, 0, p, volumeNameLen p⟩ : lazybuf).content.reverse = [] := rfl
      rw [hcont, hout] at c1
      have hc1 : (cleanLoop false (p.drop (volumeNameLen p)).length (p.drop (volumeNameLen p))
          ⟨p.drop (volumeNameLen p), none, 0, p, volumeNameLen p⟩ 0).content = cleaned k1 names1 := by
        rw [c1]; simp [base]
      by_cases hnil : cleaned k1 names1 = []
      · have hw : ((cleanLoop false (p.drop (volumeNameLen p)).length (p.drop (volumeNameLen p))
            ⟨p.drop (volumeNameLen p), none, 0, p, volumeNameLen p⟩ 0).w == 0) = true := by
          rw [← lazybuf.content_length _ c2, hc1, hnil]
          rfl
        obtain ⟨a1, a2, a3, a4, a5, a6⟩ := lazybuf.append_spec _ '.' c2 (by
          rw [c3]
          have := lazybuf.content_length _ c2
          rw [hc1, hnil] at this
          simp only [List.length_nil] at this
          rw [← this]
          show 0 < (p.drop (volumeNameLen p)).length
          omega)
        refine ⟨k1, names1, _, hn1, fun hv => hval hv (by simp), ?_, a2, ?_, ?_, ?_, ?_⟩
        · simp only [hroot, Bool.false_eq_true, if_false, hw, if_true]
        · rw [a4, c3]
        · rw [a5, c4]
        · rw [a6, c5]
        · rw [if_neg hroot, if_pos hnil, a1, hc1, hnil]
          rfl
      · have hw : ((cleanLoop false (p.drop (volumeNameLen p)).length (p.drop (volumeNameLen p))
            ⟨p.drop (volumeNameLen p), none, 0, p, volumeNameLen p⟩ 0).w == 0) = false := by
          rw [← lazybuf.content_length _ c2, hc1, beq_eq_false_iff_ne]
          exact fun h => hnil (List.length_eq_zero.mp h)
        refine ⟨k1, names1, _, hn1, fun hv => hval hv (by simp), ?_, c2, c3, c4, c5, ?_⟩
        · simp only [hroot, Bool.false_eq_true, if_false, hw]
        · rw [if_neg hroot, if_neg hnil, hc1]
  obtain ⟨k, names, b, hnames, hvalid, hclean, hwf, hbpath, hbvap, hbvol, hcont⟩ := key
  have hbody : ∀ c ∈ (if isSlash ((p.drop (volumeNameLen p)).headD ' ') = true then
        Separator :: cleaned 0 names
      else if cleaned k names = [] then ['.'] else cleaned k names), c ≠ '/' := by
    intro c hc
    split_ifs at hc with h1 h2
    · rcases List.mem_cons.mp hc with rfl | hc
      · decide
      · exact cleaned_no_slash 0 names hnames c hc
    · rw [List.mem_singleton.mp hc]; decide
    · exact cleaned_no_slash k names hnames c hc
  have hw1 : 1 ≤ b.w := by
    rw [← lazybuf.content_length b hwf, hcont]
    split_ifs with h1 h2
    · simp
    · simp
    · exact List.length_pos.mpr h2
  obtain ⟨pfx, hstr, hpfx⟩ := postClean_string b (by rw [hbpath, hbvap, hbvol]) hw1
  rw [hbvap, hbvol, hcont] at hstr
  rw [hbvol, hcont] at hpfx
  refine ⟨k, names, pfx, hnames, ?_, ?_, hvalid⟩
  · rw [hclean, hstr, FromSlash_append]
    congr 1
    apply FromSlash_id
    intro c hc
    rcases List.mem_append.mp hc with hc | hc
    · rcases hpfx with rfl | ⟨-, rfl⟩ | ⟨-, rfl, -⟩
      · simp at hc
      · simp only [List.mem_cons, List.mem_singleton, List.not_mem_nil, or_false] at hc
        rcases hc with rfl | rfl <;> decide
      · simp only [List.mem_cons, List.mem_singleton, List.not_mem_nil, or_false] at hc
        rcases hc with rfl | rfl <;> decide
    · exact hbody c hc
  · rcases hpfx with h0 | ⟨hv, h0⟩ | ⟨hv, h0, hs⟩
    · exact Or.inl h0
    · exact Or.inr (Or.inl ⟨hv, h0⟩)
    · refine Or.inr (Or.inr ⟨hv, ?_, h0⟩)
      by_contra hroot
      rw [if_neg hroot] at hs
      by_cases hnil : cleaned k names = []
      · rw [if_pos hnil] at hs
        exact absurd hs (by decide)
      · rw [if_neg hnil] at hs
        obtain ⟨⟨x, xs, hx, hxs⟩, -⟩ := cleaned_trimmed k names hnames hnil
        rw [hx] at hs
        simp only [List.headD_cons] at hs
        rw [hxs] at hs
        exact absurd hs (by decide)

end filepath

namespace filepath

theorem takeWhile_elem (e tail : List Char) (he : ∀ c ∈ e, isSlash c = false)
    (htail : tail = [] ∨ ∃ s t, tail = s :: t ∧ isSlash s = true) :
    (e ++ tail).takeWhile (fun c => !isSlash c) = e ∧
      (e ++ tail).dropWhile (fun c => !isSlash c) = tail := by
  induction e with
  | nil =>
    rcases htail with rfl | ⟨s, t, rfl, hs⟩
    · simp
    · simp [List.takeWhile, List.dropWhile, hs]
  | cons c cs ih =>
    have hc : isSlash c = false := he c (by simp)
    have := ih (fun x hx => he x (List.mem_cons_of_mem _ hx))
    simp [List.takeWhile, List.dropWhile, hc, this.1, this.2]

theorem joinSep_append (es fs : List (List Char)) (hes : es ≠ []) (hfs : fs ≠ []) :
    joinSep (es ++ fs) = joinSep es ++ Separator :: joinSep fs := by
  induction es with
  | nil => exact absurd rfl hes
  | cons a as ih =>
    cases as with
    | nil =>
      cases fs with
      | nil => exact absurd rfl hfs
      | cons f fs1 => simp [joinSep]
    | cons b bs =>
      have := ih (by simp)
      simp only [List.cons_append] at this ⊢
      rw [joinSep, this, joinSep]
      simp

/-- Appending to the buffer of an append-only run. -/
theorem lazybuf.holding_append (P C V : List Char) (L : Nat) (c : Char)
    (h : C.length < P.length) :
    (lazybuf.holding P C V L).append c = lazybuf.holding P (C ++ [c]) V L := by
  by_cases hp : C <+: P
  · have htake : P.take C.length = C := (List.prefix_iff_eq_take.mp hp).symm
    by_cases hc : P.getD C.length ' ' = c
    · have hp1 : C ++ [c] <+: P := by
        rw [List.prefix_iff_eq_take, List.length_append, List.length_singleton,
          take_succ_getD _ _ h, htake, hc]
      have hm : (decide (C.length < P.length) && P.getD C.length ' ' == c) = true := by
        simp only [Bool.and_eq_true, decide_eq_true_eq, beq_iff_eq]
        exact ⟨h, hc⟩
      simp only [lazybuf.holding, lazybuf.append, if_pos hp, if_pos hp1, hm, if_true,
        List.length_append, List.length_singleton]
    · have hp1 : ¬ C ++ [c] <+: P := by
        intro hpre
        apply hc
        rw [List.prefix_iff_eq_take, List.length_append, List.length_singleton,
          take_succ_getD _ _ h, htake] at hpre
        have := List.append_cancel_left hpre
        simp only [List.cons.injEq, and_true] at this
        exact this.symm
      have hm : ¬ (decide (C.length < P.length) && P.getD C.length ' ' == c) = true := by
        intro hm
        simp only [Bool.and_eq_true, decide_eq_true_eq, beq_iff_eq] at hm
        exact hc hm.2
      have hrep : List.replicate (P.length - C.length) (Char.ofNat 0) =
          Char.ofNat 0 :: List.replicate (P.length - (C.length + 1)) (Char.ofNat 0) := by
        rw [← List.replicate_succ]
        congr 1
        omega
      simp only [lazybuf.holding, lazybuf.append, if_pos hp, if_neg hp1, if_neg hm,
        List.length_append, List.length_singleton, htake]
      rw [hrep, set_length_append]
      simp
  · have hp1 : ¬ C ++ [c] <+: P :=
      fun hpre => hp (List.IsPrefix.trans (List.prefix_append C [c]) hpre)
    have hrep : List.replicate (P.length - C.length) (Char.ofNat 0) =
        Char.ofNat 0 :: List.replicate (P.length - (C.length + 1)) (Char.ofNat 0) := by
      rw [← List.replicate_succ]
      congr 1
      omega
    simp only [lazybuf.holding, lazybuf.append, if_neg hp, if_neg hp1,
      List.length_append, List.length_singleton]
    rw [hrep, set_length_append]
    simp

theorem lazybuf.holding_foldl (P V : List Char) (L : Nat) (l : List Char) :
    ∀ (C : List Char), C.length + l.length ≤ P.length →
      l.foldl lazybuf.append (lazybuf.holding P C V L) = lazybuf.holding P (C ++ l) V L := by
  induction l with
  | nil => intro C _; simp
  | cons c cs ih =>
    intro C h
    simp only [List.length_cons] at h
    rw [List.foldl_cons, lazybuf.holding_append P C V L c (by omega),
      ih (C ++ [c]) (by simp only [List.length_append, List.length_singleton]; omega)]
    simp

theorem lazybuf.holding_sep (P C V : List Char) (L : Nat) (p : Prop) [Decidable p]
    (h : p → C.length < P.length) :
    (if p then (lazybuf.holding P C V L).append Separator else lazybuf.holding P C V L) =
      lazybuf.holding P (C ++ if p then [Separator] else []) V L := by
  by_cases hp : p
  · rw [if_pos hp, if_pos hp, lazybuf.holding_append P C V L Separator (h hp)]
  · rw [if_neg hp, if_neg hp, List.append_nil]

theorem lazybuf.holding_w (P C V : List Char) (L : Nat) : (lazybuf.holding P C V L).w = C.length :=
  rfl

theorem cleanLoop_nil (rooted : Bool) (fuel : Nat) (out : lazybuf) (dotdot : Nat) :
    cleanLoop rooted fuel [] out dotdot = out := by
  cases fuel <;> simp [cleanLoop]

theorem cleanLoop_sep (rooted : Bool) (fuel : Nat) (s : Char) (hs : isSlash s = true)
    (rest : List Char) (out : lazybuf) (dotdot : Nat) :
    cleanLoop rooted (fuel + 1) (s :: rest) out dotdot = cleanLoop rooted fuel rest out dotdot := by
  simp only [cleanLoop]
  rw [if_pos hs]

theorem cleanLoop_dot (rooted : Bool) (fuel : Nat) (tail : List Char) (out : lazybuf)
    (dotdot : Nat) (htail : tail = [] ∨ ∃ s t, tail = s :: t ∧ isSlash s = true) :
    cleanLoop rooted (fuel + 1) ('.' :: tail) out dotdot = cleanLoop rooted fuel tail out dotdot := by
  have h2 : (('.' : Char) == '.' && (tail.isEmpty || isSlash (tail.headD ' '))) = true := by
    rcases htail with rfl | ⟨s, t, rfl, hs⟩
    · rfl
    · simp [hs]
  simp only [cleanLoop]
  rw [if_neg (by decide), if_pos h2]

theorem cleanLoop_name (rooted : Bool) (fuel : Nat) (e tail : List Char) (out : lazybuf)
    (dotdot : Nat) (he : isName e)
    (htail : tail = [] ∨ ∃ s t, tail = s :: t ∧ isSlash s = true) :
    cleanLoop rooted (fuel + 1) (e ++ tail) out dotdot =
      cleanLoop rooted fuel tail
        (e.foldl lazybuf.append
          (if ((rooted && out.w != 1) || (!rooted && out.w != 0)) = true then
            out.append Separator else out)) dotdot := by
  obtain ⟨⟨hne, hns⟩, hdot, hdd⟩ := he
  have htd := takeWhile_elem e tail hns htail
  cases e with
  | nil => exact absurd rfl hne
  | cons c cs =>
    have hc : isSlash c = false := hns c (by simp)
    have h2 : ¬ (c == '.' && ((cs ++ tail).isEmpty || isSlash ((cs ++ tail).headD ' '))) = true := by
      intro h
      simp only [Bool.and_eq_true, beq_iff_eq, Bool.or_eq_true] at h
      obtain ⟨rfl, h⟩ := h
      cases cs with
      | nil => exact hdot rfl
      | cons c1 cs1 =>
        have hc1 : isSlash c1 = false := hns c1 (by simp)
        simp [hc1] at h
    have h3 : ¬ (c == '.' && (cs ++ tail).headD ' ' == '.' &&
        (((cs ++ tail).drop 1).isEmpty || isSlash (((cs ++ tail).drop 1).headD ' '))) = true := by
      intro h
      simp only [Bool.and_eq_true, beq_iff_eq, Bool.or_eq_true] at h
      obtain ⟨⟨rfl, h1⟩, h⟩ := h
      cases cs with
      | nil =>
        rcases htail with rfl | ⟨s, t, rfl, hs⟩
        · simp at h1
        · simp only [List.nil_append, List.headD_cons] at h1
          subst h1
          exact absurd hs (by decide)
      | cons c1 cs1 =>
        simp only [List.cons_append, List.headD_cons] at h1
        subst h1
        cases cs1 with
        | nil => exact hdd rfl
        | cons c2 cs2 =>
          have hc2 : isSlash c2 = false := hns c2 (by simp)
          simp [hc2] at h
    rw [List.cons_append]
    simp only [cleanLoop]
    rw [if_neg (by simp [hc]), if_neg h2, if_neg h3]
    rw [← List.cons_append, htd.1, htd.2]

theorem cleanLoop_dotdot (fuel : Nat) (tail : List Char) (out : lazybuf) (dotdot : Nat)
    (hout : out.w ≤ dotdot)
    (htail : tail = [] ∨ ∃ s t, tail = s :: t ∧ isSlash s = true) :
    cleanLoop false (fuel + 1) ('.' :: '.' :: tail) out dotdot =
      cleanLoop false fuel tail
        (((if out.w > 0 then out.append Separator else out).append '.').append '.')
        (((if out.w > 0 then out.append Separator else out).append '.').append '.').w := by
  have h3 : (('.' : Char) == '.' && ('.' :: tail).headD ' ' == '.' &&
      ((('.' :: tail).drop 1).isEmpty || isSlash ((('.' :: tail).drop 1).headD ' '))) = true := by
    rcases htail with rfl | ⟨s, t, rfl, hs⟩
    · rfl
    · simp [hs]
  simp only [cleanLoop]
  rw [if_neg (by decide), if_neg (by simp [isSlash]), if_pos h3, if_neg (by omega),
    if_pos (by rfl)]
  simp

end filepath

namespace filepath

/-- On names joined by separators the loop of `Clean` appends them to the
buffer. -/
theorem cleanLoop_names (rooted : Bool) (P V : List Char) (L : Nat) (names : List (List Char))
    (hn : ∀ e ∈ names, isName e) (hne : names ≠ []) :
    ∀ (fuel : Nat) (C : List Char) (dotdot : Nat), (joinSep names).length ≤ fuel →
      C.length + (if ((rooted && C.length != 1) || (!rooted && C.length != 0)) = true
        then 1 else 0) + (joinSep names).length ≤ P.length →
      cleanLoop rooted fuel (joinSep names) (lazybuf.holding P C V L) dotdot =
        lazybuf.holding P
          (C ++ (if ((rooted && C.length != 1) || (!rooted && C.length != 0)) = true
            then [Separator] else []) ++ joinSep names) V L := by
  induction names with
  | nil => exact absurd rfl hne
  | cons e es ih =>
    intro fuel C dotdot hfuel hfit
    have he : isName e := hn e (by simp)
    have hepos : 0 < e.length := List.length_pos.mpr he.1.1
    have hsepfit : ((rooted && C.length != 1) || (!rooted && C.length != 0)) = true →
        C.length < P.length := by
      intro hc
      rw [if_pos hc] at hfit
      omega
    have hseplen : (C ++ (if ((rooted && C.length != 1) || (!rooted && C.length != 0)) = true
        then [Separator] else [])).length = C.length +
        (if ((rooted && C.length != 1) || (!rooted && C.length != 0)) = true then 1 else 0) := by
      by_cases hc : ((rooted && C.length != 1) || (!rooted && C.length != 0)) = true
      · rw [if_pos hc, if_pos hc]; simp
      · rw [if_neg hc, if_neg hc]; simp
    cases es with
    | nil =>
      simp only [joinSep] at hfuel hfit ⊢
      obtain ⟨f, rfl⟩ : ∃ f, fuel = f + 1 := ⟨fuel - 1, by omega⟩
      have := cleanLoop_name rooted f e [] (lazybuf.holding P C V L) dotdot he (Or.inl rfl)
      rw [List.append_nil] at this
      rw [this, cleanLoop_nil]
      simp only [lazybuf.holding_w]
      rw [lazybuf.holding_sep P C V L _ hsepfit, lazybuf.holding_foldl P V L e _ (by
        rw [hseplen]; omega)]
    | cons e1 es1 =>
      have hrec := ih (fun x hx => hn x (List.mem_cons_of_mem _ hx)) (by simp)
      simp only [joinSep] at hfuel hfit ⊢
      simp only [List.length_append, List.length_cons] at hfuel hfit
      obtain ⟨f, rfl⟩ : ∃ f, fuel = f + 2 := ⟨fuel - 2, by omega⟩
      rw [cleanLoop_name rooted (f + 1) e _ (lazybuf.holding P C V L) dotdot he
          (Or.inr ⟨Separator, _, rfl, by decide⟩),
        cleanLoop_sep rooted f Separator (by decide)]
      simp only [lazybuf.holding_w]
      rw [lazybuf.holding_sep P C V L _ hsepfit, lazybuf.holding_foldl P V L e _ (by
        rw [hseplen]; omega)]
      have hlen2 : (C ++ (if ((rooted && C.length != 1) || (!rooted && C.length != 0)) = true
          then [Separator] else []) ++ e).length = C.length +
          (if ((rooted && C.length != 1) || (!rooted && C.length != 0)) = true then 1 else 0) +
          e.length := by
        rw [List.length_append, hseplen]
      have hcond2 : ((rooted && (C ++ (if ((rooted && C.length != 1) ||
          (!rooted && C.length != 0)) = true then [Separator] else []) ++ e).length != 1) ||
          (!rooted && (C ++ (if ((rooted && C.length != 1) ||
          (!rooted && C.length != 0)) = true then [Separator] else []) ++ e).length != 0)) =
          true := by
        rw [hlen2]
        by_cases hc : ((rooted && C.length != 1) || (!rooted && C.length != 0)) = true
        · rw [if_pos hc]
          cases rooted
          · simp only [Bool.false_and, Bool.not_false, Bool.true_and, Bool.false_or, bne_iff_ne,
              ne_eq]
            omega
          · simp only [Bool.true_and, Bool.not_true, Bool.false_and, Bool.or_false, bne_iff_ne,
              ne_eq]
            omega
        · rw [if_neg hc]
          cases rooted
          · simp only [Bool.false_and, Bool.not_false, Bool.true_and, Bool.false_or, bne_iff_ne,
              ne_eq]
            omega
          · simp only [Bool.true_and, Bool.not_true, Bool.false_and, Bool.or_false, bne_iff_ne,
              ne_eq, not_not] at hc
            simp only [Bool.true_and, Bool.not_true, Bool.false_and, Bool.or_false, bne_iff_ne,
              ne_eq]
            omega
      rw [hrec f _ dotdot (by omega) (by rw [if_pos hcond2, hlen2]; omega), if_pos hcond2]
      simp

theorem cleaned_dotdot_fwd (j : Nat) :
    cleaned j [] ++ (if (cleaned j []).length > 0 then [Separator] else []) ++ ['.'] ++ ['.'] =
      cleaned (j + 1) [] := by
  by_cases hj : j = 0
  · subst hj
    simp [cleaned, joinSep]
  · have hpos : (cleaned j []).length > 0 := by
      apply List.length_pos.mpr
      rw [Ne, cleaned_eq_nil j [] (by simp)]
      simp [hj]
    rw [if_pos hpos, cleaned_succ j hj]
    simp

theorem cleaned_length_mono (j k : Nat) (names : List (List Char)) :
    (cleaned j []).length ≤ (cleaned (j + k) names).length := by
  rw [cleaned, cleaned, List.append_nil, List.replicate_add, List.append_assoc]
  exact joinSep_append_length _ _

/-- On a cleaned relative path the loop of `Clean` writes the path back. -/
theorem cleanLoop_cleaned (P V : List Char) (L : Nat) (names : List (List Char))
    (hn : ∀ e ∈ names, isName e) (k : Nat) :
    ∀ (j fuel : Nat), (cleaned k names).length ≤ fuel →
      (cleaned (j + k) names).length ≤ P.length →
      cleanLoop false fuel (cleaned k names) (lazybuf.holding P (cleaned j []) V L)
          (cleaned j []).length =
        lazybuf.holding P (cleaned (j + k) names) V L := by
  induction k with
  | zero =>
    intro j fuel hfuel hfit
    by_cases hne : names = []
    · subst hne
      have : cleaned 0 [] = [] := rfl
      rw [this, cleanLoop_nil, Nat.add_zero]
    · have h0 : cleaned 0 names = joinSep names := rfl
      rw [h0] at hfuel ⊢
      rw [Nat.add_zero] at hfit ⊢
      by_cases hj : j = 0
      · subst hj
        have hnil : cleaned 0 [] = [] := rfl
        rw [hnil]
        rw [h0] at hfit
        rw [cleanLoop_names false P V L names hn hne fuel [] _ hfuel (by simpa using hfit), h0]
        simp
      · have hrep : List.replicate j ['.', '.'] ≠ [] := by
          simpa [List.replicate_eq_nil_iff] using hj
        have hpos : 0 < (cleaned j []).length := by
          apply List.length_pos.mpr
          rw [Ne, cleaned_eq_nil j [] (by simp)]
          simp [hj]
        have hcond : ((false && (cleaned j []).length != 1) ||
            (!false && (cleaned j []).length != 0)) = true := by
          simp only [Bool.false_and, Bool.not_false, Bool.true_and, Bool.false_or, bne_iff_ne]
          omega
        have hcl : cleaned j names = cleaned j [] ++ Separator :: joinSep names := by
          rw [cleaned, joinSep_append _ _ hrep hne, cleaned, List.append_nil]
        rw [cleanLoop_names false P V L names hn hne fuel _ _ hfuel (by
          rw [if_pos hcond]
          rw [hcl] at hfit
          simp only [List.length_append, List.length_cons] at hfit
          omega), if_pos hcond, hcl]
        simp
  | succ k ih =>
    intro j fuel hfuel hfit
    have hsplit : List.replicate (k + 1) ['.', '.'] ++ names =
        ['.', '.'] :: (List.replicate k ['.', '.'] ++ names) := by
      rw [List.replicate_succ, List.cons_append]
    have hjk : j + (k + 1) = j + 1 + k := by omega
    have hfit1 : (cleaned (j + 1) []).length ≤ P.length := by
      have := cleaned_length_mono (j + 1) k names
      rw [hjk] at hfit
      omega
    have hstate := cleaned_dotdot_fwd j
    have hsepfit : (lazybuf.holding P (cleaned j []) V L).w > 0 →
        (cleaned j []).length < P.length := by
      intro hw
      have hpos : (cleaned j []).length > 0 := hw
      rw [← hstate, if_pos hpos] at hfit1
      simp only [List.length_append, List.length_singleton] at hfit1
      omega
    have hout2 : ((if (lazybuf.holding P (cleaned j []) V L).w > 0 then
        (lazybuf.holding P (cleaned j []) V L).append Separator
        else lazybuf.holding P (cleaned j []) V L).append '.').append '.' =
        lazybuf.holding P (cleaned (j + 1) []) V L := by
      rw [lazybuf.holding_sep P (cleaned j []) V L _ hsepfit]
      simp only [lazybuf.holding_w]
      rw [← hstate] at hfit1
      simp only [List.length_append, List.length_singleton] at hfit1
      rw [lazybuf.holding_append _ _ _ _ _ (by rw [List.length_append]; omega),
        lazybuf.holding_append _ _ _ _ _ (by
          simp only [List.length_append, List.length_singleton]; omega), hstate]
    by_cases hz : k = 0 ∧ names = []
    · obtain ⟨rfl, rfl⟩ := hz
      have h1 : cleaned (0 + 1) [] = '.' :: '.' :: [] := rfl
      rw [h1] at hfuel ⊢
      obtain ⟨f, rfl⟩ : ∃ f, fuel = f + 1 := ⟨fuel - 1, by simp at hfuel; omega⟩
      rw [cleanLoop_dotdot f [] (lazybuf.holding P (cleaned j []) V L) (cleaned j []).length
        (Nat.le_of_eq rfl) (Or.inl rfl), cleanLoop_nil, hout2]
    · have hrest : List.replicate k ['.', '.'] ++ names ≠ [] := by
        intro h0
        apply hz
        simpa [List.replicate_eq_nil_iff] using h0
      have hcl : cleaned (k + 1) names = '.' :: '.' :: Separator :: cleaned k names := by
        rw [cleaned, hsplit, joinSep_cons _ _ hrest, cleaned]
        rfl
      rw [hcl] at hfuel ⊢
      simp only [List.length_cons] at hfuel
      obtain ⟨f, rfl⟩ : ∃ f, fuel = f + 2 := ⟨fuel - 2, by omega⟩
      rw [cleanLoop_dotdot (f + 1) _ (lazybuf.holding P (cleaned j []) V L) (cleaned j []).length
          (Nat.le_of_eq rfl) (Or.inr ⟨Separator, _, rfl, by decide⟩),
        cleanLoop_sep false f Separator (by decide), hout2]
      have := ih (j + 1) f (by omega) (by rw [← hjk]; exact hfit)
      rw [lazybuf.holding_w]
      rw [this, hjk]

end filepath

namespace filepath

theorem lazybuf.start_holding (P V : List Char) (L : Nat) :
    (⟨P, none, 0, V, L⟩ : lazybuf) = lazybuf.holding P [] V L := by
  simp [lazybuf.holding]

/-- The result of `Clean` from the buffer its loop leaves, for a path that is
not rooted. -/
theorem Clean_unrooted (p : List Char) (b : lazybuf) (hpath : p.drop (volumeNameLen p) ≠ [])
    (hroot : isSlash ((p.drop (volumeNameLen p)).headD ' ') = false)
    (hloop : cleanLoop false (p.drop (volumeNameLen p)).length (p.drop (volumeNameLen p))
      (lazybuf.holding (p.drop (volumeNameLen p)) [] p (volumeNameLen p)) 0 = b) :
    cleanBytes p = FromSlash (postClean (if b.w == 0 then b.append '.' else b)).string := by
  have hemp : (p.drop (volumeNameLen p)).isEmpty = false := by
    cases h : p.drop (volumeNameLen p) with
    | nil => exact absurd h hpath
    | cons c cs => rfl
  simp only [cleanBytes, hemp, hroot, Bool.false_eq_true, if_false, lazybuf.start_holding, hloop]

/-- The result of `Clean` from the buffer its loop leaves, for a rooted
path. -/
theorem Clean_rooted (p : List Char) (b : lazybuf) (hpath : p.drop (volumeNameLen p) ≠ [])
    (hroot : isSlash ((p.drop (volumeNameLen p)).headD ' ') = true)
    (hloop : cleanLoop true (p.drop (volumeNameLen p)).length ((p.drop (volumeNameLen p)).drop 1)
      ((lazybuf.holding (p.drop (volumeNameLen p)) [] p (volumeNameLen p)).append Separator) 1 =
        b) :
    cleanBytes p = FromSlash (postClean (if b.w == 0 then b.append '.' else b)).string := by
  have hemp : (p.drop (volumeNameLen p)).isEmpty = false := by
    cases h : p.drop (volumeNameLen p) with
    | nil => exact absurd h hpath
    | cons c cs => rfl
  simp only [cleanBytes, hemp, hroot, Bool.false_eq_true, if_false, if_true, lazybuf.start_holding,
    hloop]

/-- A buffer that holds the whole path is not allocated, and yields the
volume name and the path. -/
theorem lazybuf.holding_self_string (P V : List Char) (L : Nat) (hP : P ≠ []) :
    (postClean (if (lazybuf.holding P P V L).w == 0 then (lazybuf.holding P P V L).append '.'
      else lazybuf.holding P P V L)).string = V.take (L + P.length) := by
  have hw : ((lazybuf.holding P P V L).w == 0) = false := by
    rw [lazybuf.holding_w, beq_eq_false_iff_ne]
    exact fun h => hP (List.length_eq_zero.mp h)
  rw [hw]
  simp only [Bool.false_eq_true, if_false, lazybuf.holding, if_pos (List.prefix_refl P),
    postClean, lazybuf.string]

theorem volumeNameLen_drive (c : Char) (t : List Char) :
    volumeNameLen (c :: ':' :: t) = 2 := by
  have : (decide ((c :: ':' :: t).length ≥ 2) && (c :: ':' :: t).getD 1 ' ' == ':') = true := by
    simp
  rw [volumeNameLen, if_pos this]

theorem volumeNameLen_none (c : Char) (t : List Char) (hs : isSlash c = false)
    (hnd : ¬ hasDrive (c :: t)) : volumeNameLen (c :: t) = 0 := by
  have h1 : ¬ (decide ((c :: t).length ≥ 2) && (c :: t).getD 1 ' ' == ':') = true := by
    intro h
    apply hnd
    simp only [Bool.and_eq_true, decide_eq_true_eq, beq_iff_eq, List.getD_cons_succ] at h
    obtain ⟨hl, h1⟩ := h
    cases t with
    | nil => simp at hl
    | cons d t1 =>
      simp only [List.getD_cons_zero] at h1
      exact ⟨c, t1, by rw [h1]⟩
  have h2 : ((c :: t).length == 0 || !isSlash ((c :: t).getD 0 ' ')) = true := by
    simp [hs]
  rw [volumeNameLen, if_neg h1, if_pos h2]

/-- The first element of a path of elements. -/
theorem joinSep_first (e : List Char) (es : List (List Char)) (he : isElem e) (Z : List Char)
    (hZ : es = [] → ∀ c ∈ Z, isSlash c = false) :
    (joinSep (e :: es) ++ Z).takeWhile (fun c => !isSlash c) = e ++ (if es = [] then Z else []) := by
  cases es with
  | nil =>
    have hall : ∀ c ∈ e ++ Z, isSlash c = false := by
      intro c hc
      rcases List.mem_append.mp hc with h | h
      · exact he.2 c h
      · exact hZ rfl c h
    have := (takeWhile_elem (e ++ Z) [] hall (Or.inl rfl)).1
    rw [List.append_nil] at this
    simp only [joinSep, if_true]
    exact this
  | cons e1 es1 =>
    have := (takeWhile_elem e (Separator :: (joinSep (e1 :: es1) ++ Z)) he.2
      (Or.inr ⟨Separator, _, rfl, by decide⟩)).1
    simp only [joinSep, List.append_assoc, List.cons_append]
    rw [this]
    simp

theorem colonInFirstElement_takeWhile (l : List Char) :
    colonInFirstElement l = decide (':' ∈ l.takeWhile (fun c => !isSlash c)) := by
  induction l with
  | nil => simp [colonInFirstElement]
  | cons c cs ih =>
    by_cases hs : isSlash c = true
    · simp [colonInFirstElement, List.takeWhile, hs]
    · have hs1 : isSlash c = false := by simpa using hs
      by_cases hc : c = ':'
      · subst hc
        simp [colonInFirstElement, List.takeWhile, hs1]
      · have hc1 : (c == ':') = false := by simpa using hc
        have hc2 : ¬ ':' = c := fun h => hc h.symm
        simp only [colonInFirstElement, hs1, Bool.false_eq_true, if_false, hc1, ih,
          List.takeWhile, Bool.not_false, List.mem_cons, hc2, false_or]

theorem zero_not_slash : ∀ c ∈ List.replicate m (Char.ofNat 0), isSlash c = false := by
  intro c hc
  rw [(List.mem_replicate.mp hc).2]
  decide

/-- The first loop of `postClean` on a buffer that holds a path of elements
followed by zero bytes: is there a colon in the first element. -/
theorem colonInFirstElement_joinSep (e : List Char) (es : List (List Char)) (he : isElem e)
    (m : Nat) :
    colonInFirstElement (joinSep (e :: es) ++ List.replicate m (Char.ofNat 0)) =
      decide (':' ∈ e) := by
  rw [colonInFirstElement_takeWhile, joinSep_first e es he _ (fun _ => zero_not_slash)]
  by_cases hes : es = []
  · rw [if_pos hes]
    have : ':' ∉ List.replicate m (Char.ofNat 0) := by
      intro h
      have := (List.mem_replicate.mp h).2
      exact absurd this (by decide)
    simp [this]
  · rw [if_neg hes, List.append_nil]

/-- The elements of a cleaned path that is not empty: the first and the
others. -/
theorem cleaned_elems (k : Nat) (names : List (List Char)) (hn : ∀ e ∈ names, isName e)
    (hne : cleaned k names ≠ []) :
    ∃ e es, cleaned k names = joinSep (e :: es) ∧ isElem e ∧ e ≠ ['.'] ∧
      ((k ≠ 0 ∧ e = ['.', '.']) ∨ (k = 0 ∧ names = e :: es)) := by
  cases k with
  | zero =>
    cases names with
    | nil => exact absurd rfl hne
    | cons e es =>
      have he := hn e (by simp)
      exact ⟨e, es, by simp [cleaned], he.1, he.2.1, Or.inr ⟨rfl, rfl⟩⟩
  | succ k =>
    refine ⟨['.', '.'], List.replicate k ['.', '.'] ++ names, ?_, dd_isElem, by simp,
      Or.inl ⟨by omega, rfl⟩⟩
    rw [cleaned, List.replicate_succ, List.cons_append]

/-- A cleaned path is no prefix of itself behind `.\`. -/
theorem cleaned_not_initial (k : Nat) (names : List (List Char)) (hn : ∀ e ∈ names, isName e)
    (hne : cleaned k names ≠ []) :
    ¬ cleaned k names <+: '.' :: Separator :: cleaned k names := by
  obtain ⟨e, es, hX, he, hdot, -⟩ := cleaned_elems k names hn hne
  intro hpre
  have hfirst := joinSep_first e es he [] (fun _ c hc => by simp at hc)
  have hr : (e ++ if es = [] then [] else []) = e := by
    split_ifs <;> simp
  rw [List.append_nil, ← hX, hr] at hfirst
  have hlen : 1 ≤ (cleaned k names).length := List.length_pos.mpr hne
  -- the path begins like `.\` and goes on
  have htake := List.prefix_iff_eq_take.mp hpre
  have h2 : (cleaned k names).length = 1 ∨ 2 ≤ (cleaned k names).length := by omega
  rcases h2 with h1 | h2
  · rw [h1] at htake
    simp only [List.take_succ_cons, List.take_zero] at htake
    rw [htake] at hfirst
    exact hdot hfirst.symm
  · obtain ⟨n, hn2⟩ : ∃ n, (cleaned k names).length = n + 2 := ⟨_, (Nat.sub_add_cancel h2).symm⟩
    rw [hn2] at htake
    simp only [List.take_succ_cons] at htake
    rw [htake] at hfirst
    exact hdot hfirst.symm

end filepath

namespace filepath

theorem lazybuf.holding_self_post (P V : List Char) (L : Nat) :
    (postClean (lazybuf.holding P P V L)).string = V.take (L + P.length) := by
  simp only [lazybuf.holding, if_pos (List.prefix_refl P), postClean, lazybuf.string]

theorem loop_self (P V : List Char) (L : Nat) (k : Nat) (names : List (List Char))
    (hn : ∀ e ∈ names, isName e) (hP : P = cleaned k names) :
    cleanLoop false P.length P (lazybuf.holding P [] V L) 0 = lazybuf.holding P P V L := by
  have h := cleanLoop_cleaned P V L names hn k 0 P.length (by rw [hP])
    (by rw [Nat.zero_add, hP])
  have h0 : cleaned 0 [] = [] := rfl
  rw [h0, Nat.zero_add, ← hP] at h
  exact h

theorem relForm_no_slash (q : List Char) (h : relForm q) : ∀ c ∈ q, c ≠ '/' := by
  rcases h with rfl | ⟨k, names, hn, -, rfl⟩
  · intro c hc
    rw [List.mem_singleton.mp hc]
    decide
  · exact cleaned_no_slash k names hn

theorem relForm_trimmed (q : List Char) (h : relForm q) : trimmed q := by
  rcases h with rfl | ⟨k, names, hn, hne, rfl⟩
  · exact ⟨⟨'.', [], rfl, by decide⟩, ⟨[], '.', rfl, by decide⟩⟩
  · exact cleaned_trimmed k names hn hne

/-- The loop of `Clean` and the step after it, on a relative path in clean
form: the buffer holds the whole path. -/
theorem loop_relForm (P V : List Char) (L : Nat) (h : relForm P) :
    ∃ b, cleanLoop false P.length P (lazybuf.holding P [] V L) 0 = b ∧
      (if b.w == 0 then b.append '.' else b) = lazybuf.holding P P V L := by
  rcases h with rfl | ⟨k, names, hn, hne, hP⟩
  · refine ⟨lazybuf.holding ['.'] [] V L, ?_, ?_⟩
    · show cleanLoop false (0 + 1) ['.'] _ 0 = _
      rw [cleanLoop_dot false 0 [] _ 0 (Or.inl rfl), cleanLoop_nil]
    · have : ((lazybuf.holding ['.'] [] V L).w == 0) = true := rfl
      rw [this, if_pos rfl, lazybuf.holding_append ['.'] [] V L '.' (by simp)]
      rfl
  · refine ⟨lazybuf.holding P P V L, loop_self P V L k names hn hP, ?_⟩
    have hw : ((lazybuf.holding P P V L).w == 0) = false := by
      rw [lazybuf.holding_w, beq_eq_false_iff_ne]
      exact fun h => hne (List.length_eq_zero.mp h)
    rw [hw]
    simp

/-- `Clean` leaves a relative path in clean form that does not begin with a
drive as it is. -/
theorem Clean_relForm (q : List Char) (hrel : relForm q) (hnd : ¬ hasDrive q) :
    cleanBytes q = q := by
  obtain ⟨⟨x, xs, hx, hxs⟩, -⟩ := relForm_trimmed q hrel
  have hvol : volumeNameLen q = 0 := by
    rw [hx]
    rw [hx] at hnd
    exact volumeNameLen_none x xs hxs hnd
  have hne : q ≠ [] := by rw [hx]; simp
  obtain ⟨b, hloop, hfix⟩ := loop_relForm q q 0 hrel
  rw [Clean_unrooted q b (by rw [hvol]; exact hne) (by rw [hvol, hx]; exact hxs)
    (by rw [hvol]; exact hloop), hfix, lazybuf.holding_self_post, Nat.zero_add, List.take_length,
    FromSlash_id q (relForm_no_slash q hrel)]

/-- `Clean` leaves a path as it is that consists of a drive and a relative
path in clean form, or of a drive, a separator and names. -/
theorem Clean_drive (c : Char) (body : List Char) (hs : isSlash c = false)
    (hbody : relForm body ∨ ∃ names, names ≠ [] ∧ (∀ e ∈ names, isName e) ∧
      body = Separator :: joinSep names) :
    cleanBytes (c :: ':' :: body) = c :: ':' :: body := by
  have hvol : volumeNameLen (c :: ':' :: body) = 2 := volumeNameLen_drive c body
  have hdrop : (c :: ':' :: body).drop 2 = body := rfl
  have hcne : c ≠ '/' := by
    rintro rfl
    exact absurd hs (by decide)
  have htake : (c :: ':' :: body).take (2 + body.length) = c :: ':' :: body := by
    rw [List.take_of_length_le]
    simp only [List.length_cons]
    omega
  rcases hbody with hrel | ⟨names, hne, hn, hb⟩
  · obtain ⟨⟨x, xs, hx, hxs⟩, -⟩ := relForm_trimmed body hrel
    have hbne : body ≠ [] := by rw [hx]; simp
    obtain ⟨b, hloop, hfix⟩ := loop_relForm body (c :: ':' :: body) 2 hrel
    rw [Clean_unrooted (c :: ':' :: body) b (by rw [hvol, hdrop]; exact hbne)
      (by rw [hvol, hdrop, hx]; exact hxs) (by rw [hvol, hdrop]; exact hloop), hfix,
      lazybuf.holding_self_post, htake]
    rw [FromSlash_id]
    intro d hd
    rcases List.mem_cons.mp hd with rfl | hd
    · exact hcne
    rcases List.mem_cons.mp hd with rfl | hd
    · decide
    · exact relForm_no_slash body hrel d hd
  · have hbne : body ≠ [] := by rw [hb]; simp
    have hjlen : (joinSep names).length + 1 = body.length := by rw [hb]; simp
    have hloop : cleanLoop true body.length (body.drop 1)
        ((lazybuf.holding body [] (c :: ':' :: body) 2).append Separator) 1 =
        lazybuf.holding body body (c :: ':' :: body) 2 := by
      rw [lazybuf.holding_append body [] _ 2 Separator (by
        simp only [List.length_nil]; omega)]
      have hd1 : body.drop 1 = joinSep names := by rw [hb]; rfl
      rw [hd1]
      have := cleanLoop_names true body (c :: ':' :: body) 2 names hn hne body.length
        ([] ++ [Separator]) 1 (by omega) (by
          simp only [List.nil_append, List.length_singleton]
          rw [if_neg (by decide)]
          omega)
      rw [this, if_neg (by decide)]
      congr 1
      rw [hb]
      simp
    have hw : ((lazybuf.holding body body (c :: ':' :: body) 2).w == 0) = false := by
      rw [lazybuf.holding_w, beq_eq_false_iff_ne]
      exact fun h => hbne (List.length_eq_zero.mp h)
    rw [Clean_rooted (c :: ':' :: body) (lazybuf.holding body body (c :: ':' :: body) 2)
      (by rw [hvol, hdrop]; exact hbne)
      (by rw [hvol, hdrop, hb]; rfl) (by rw [hvol, hdrop]; exact hloop), hw]
    simp only [Bool.false_eq_true, if_false]
    rw [lazybuf.holding_self_post, htake, FromSlash_id]
    intro d hd
    rcases List.mem_cons.mp hd with rfl | hd
    · exact hcne
    rcases List.mem_cons.mp hd with rfl | hd
    · decide
    · rw [hb] at hd
      rcases List.mem_cons.mp hd with rfl | hd
      · decide
      · have := cleaned_no_slash 0 names hn d
        exact this hd

theorem postClean_some (P V buf : List Char) (w : Nat) :
    (postClean ⟨P, some buf, w, V, 0⟩).string =
      (if colonInFirstElement buf = true then ['.', Separator]
        else if (decide (buf.length ≥ 3) && isSlash (buf.getD 0 ' ') && buf.getD 1 ' ' == '?' &&
          buf.getD 2 ' ' == '?') = true then [Separator, '.'] else []) ++ buf.take w := by
  by_cases hcolon : colonInFirstElement buf = true
  · simp only [postClean, bne_self_eq_false, Bool.false_eq_true, if_false, if_pos hcolon,
      lazybuf.prepend, lazybuf.string, Option.getD_some, List.take_zero, List.nil_append,
      List.length_cons, List.length_nil]
    simp
  · by_cases hq : (decide (buf.length ≥ 3) && isSlash (buf.getD 0 ' ') && buf.getD 1 ' ' == '?' &&
        buf.getD 2 ' ' == '?') = true
    · simp only [postClean, bne_self_eq_false, Bool.false_eq_true, if_false, if_neg hcolon,
        if_pos hq, lazybuf.prepend, lazybuf.string, Option.getD_some, List.take_zero,
        List.nil_append, List.length_cons, List.length_nil]
      simp
    · simp only [postClean, bne_self_eq_false, Bool.false_eq_true, if_false, if_neg hcolon,
        if_neg hq, lazybuf.string, List.take_zero, List.nil_append]

theorem lazybuf.holding_some (P C V : List Char) (L : Nat) (h : ¬ C <+: P) :
    lazybuf.holding P C V L =
      ⟨P, some (C ++ List.replicate (P.length - C.length) (Char.ofNat 0)), C.length, V, L⟩ := by
  simp only [lazybuf.holding, if_neg h]

/-- `Clean` on a cleaned path behind `.\`: the `.\` stays if the first
element of the path contains a colon, and goes otherwise. -/
theorem Clean_dot (k : Nat) (names : List (List Char)) (hn : ∀ e ∈ names, isName e)
    (hne : cleaned k names ≠ []) (e : List Char) (es : List (List Char))
    (hX : cleaned k names = joinSep (e :: es)) (he : isElem e) :
    cleanBytes ('.' :: Separator :: cleaned k names) =
      if ':' ∈ e then '.' :: Separator :: cleaned k names else cleaned k names := by
  have hvol : volumeNameLen ('.' :: Separator :: cleaned k names) = 0 := by
    apply volumeNameLen_none _ _ (by decide)
    rintro ⟨c, t, h⟩
    simp only [List.cons.injEq] at h
    exact absurd h.2.1 (by decide)
  have hloop : cleanLoop false ('.' :: Separator :: cleaned k names).length
      ('.' :: Separator :: cleaned k names)
      (lazybuf.holding ('.' :: Separator :: cleaned k names) []
        ('.' :: Separator :: cleaned k names) 0) 0 =
      lazybuf.holding ('.' :: Separator :: cleaned k names) (cleaned k names)
        ('.' :: Separator :: cleaned k names) 0 := by
    show cleanLoop false ((cleaned k names).length + 1 + 1) _ _ 0 = _
    rw [cleanLoop_dot false _ _ _ 0 (Or.inr ⟨Separator, _, rfl, by decide⟩),
      cleanLoop_sep false _ Separator (by decide)]
    have h := cleanLoop_cleaned ('.' :: Separator :: cleaned k names)
      ('.' :: Separator :: cleaned k names) 0 names hn k 0 (cleaned k names).length le_rfl
      (by rw [Nat.zero_add]; simp only [List.length_cons]; omega)
    have h0 : cleaned 0 [] = [] := rfl
    rw [h0, Nat.zero_add] at h
    exact h
  have hw : ((lazybuf.holding ('.' :: Separator :: cleaned k names) (cleaned k names)
      ('.' :: Separator :: cleaned k names) 0).w == 0) = false := by
    rw [lazybuf.holding_w, beq_eq_false_iff_ne]
    exact fun h => hne (List.length_eq_zero.mp h)
  rw [Clean_unrooted ('.' :: Separator :: cleaned k names)
    (lazybuf.holding ('.' :: Separator :: cleaned k names) (cleaned k names)
      ('.' :: Separator :: cleaned k names) 0)
    (by rw [hvol]; simp) (by rw [hvol]; rfl) (by rw [hvol]; exact hloop), hw]
  simp only [Bool.false_eq_true, if_false]
  rw [lazybuf.holding_some _ _ _ _ (cleaned_not_initial k names hn hne), postClean_some]
  generalize ('.' :: Separator :: cleaned k names).length - (cleaned k names).length = m
  have hcolon := colonInFirstElement_joinSep e es he m
  rw [← hX] at hcolon
  obtain ⟨⟨x, xs, hx, hxs⟩, -⟩ := cleaned_trimmed k names hn hne
  have hhead : isSlash ((cleaned k names ++ List.replicate m (Char.ofNat 0)).getD 0 ' ') =
      false := by
    rw [hx]
    exact hxs
  have hnoslash := cleaned_no_slash k names hn
  rw [List.take_left', hcolon, hhead]
  by_cases hc : ':' ∈ e
  · rw [if_pos hc, if_pos (by simpa using hc)]
    apply FromSlash_id
    intro d hd
    rcases List.mem_cons.mp hd with rfl | hd
    · decide
    rcases List.mem_cons.mp hd with rfl | hd
    · decide
    · exact hnoslash d hd
  · rw [if_neg hc, if_neg (by simpa using hc)]
    simp only [Bool.and_false, Bool.false_and, Bool.false_eq_true, if_false, List.nil_append]
    rw [FromSlash_cleaned k names hn]
  · rfl

end filepath

namespace strings

theorem cutset_backslash (c : Char) : ("\\" : String).data.contains c = (c == '\\') := by
  show (['\\'] : List Char).contains c = _
  cases h : c == '\\' <;> simp [List.contains, List.elem, h]

/-- Trimming backslashes leaves a string as it is that neither begins nor
ends with a backslash. -/
theorem Trim_id (l : List Char) (x : Char) (xs : List Char) (hx : l = x :: xs) (hxne : x ≠ '\\')
    (ys : List Char) (y : Char) (hy : l = ys ++ [y]) (hyne : y ≠ '\\') :
    Trim (String.mk l) "\\" = String.mk l := by
  have hx1 : (x == '\\') = false := by simpa using hxne
  have hy1 : (y == '\\') = false := by simpa using hyne
  have hcut := cutset_backslash
  simp only [Trim]
  simp only [hcut]
  congr 1
  have h1 : l.dropWhile (fun c => c == '\\') = l := by
    rw [hx]
    simp [List.dropWhile, hx1]
  rw [h1]
  have h2 : l.reverse.dropWhile (fun c => c == '\\') = l.reverse := by
    rw [hy]
    simp [List.dropWhile, hy1]
  rw [h2, List.reverse_reverse]

/-- What trimming backslashes returns does not begin with a backslash. -/
theorem Trim_head (s : String) (t : List Char) : (Trim s "\\").data ≠ '\\' :: t := by
  have hcut := cutset_backslash
  intro h
  simp only [Trim] at h
  simp only [hcut] at h
  have hsplit := List.takeWhile_append_dropWhile (fun c => c == '\\')
    (s.data.dropWhile (fun c => c == '\\')).reverse
  have hD : s.data.dropWhile (fun c => c == '\\') =
      ((s.data.dropWhile (fun c => c == '\\')).reverse.dropWhile (fun c => c == '\\')).reverse ++
        ((s.data.dropWhile (fun c => c == '\\')).reverse.takeWhile (fun c => c == '\\')).reverse := by
    rw [← List.reverse_append, hsplit, List.reverse_reverse]
  rw [h] at hD
  have hhead : ∀ (l : List Char) (z : List Char), l.dropWhile (fun c => c == '\\') ≠ '\\' :: z := by
    intro l
    induction l with
    | nil => intro z hz; simp at hz
    | cons a as ih =>
      intro z hz
      by_cases ha : (a == '\\') = true
      · have hstep : (a :: as).dropWhile (fun c => c == '\\') =
            as.dropWhile (fun c => c == '\\') := by
          simp [List.dropWhile, ha]
        rw [hstep] at hz
        exact ih z hz
      · have hstep : (a :: as).dropWhile (fun c => c == '\\') = a :: as := by
          simp [List.dropWhile, ha]
        rw [hstep] at hz
        simp only [List.cons.injEq] at hz
        apply ha
        rw [hz.1]
        rfl
  exact hhead s.data _ hD

/-- Trimming adds no character. -/
theorem Trim_mem (s : String) (c : Char) (h : c ∈ (Trim s "\\").data) : c ∈ s.data := by
  have hcut := cutset_backslash
  simp only [Trim] at h
  simp only [hcut] at h
  rw [List.mem_reverse] at h
  have h1 := (List.dropWhile_sublist (fun c => c == '\\')).subset h
  rw [List.mem_reverse] at h1
  exact (List.dropWhile_sublist (fun c => c == '\\')).subset h1

end strings

namespace filepath

theorem Clean_cases (q : List Char) :
    cleanBytes q = q ++ ['.'] ∨ ∃ Z, cleanBytes q = FromSlash Z := by
  by_cases hemp : (q.drop (volumeNameLen q)).isEmpty = true
  · simp only [cleanBytes, hemp, if_true]
    split_ifs
    · exact Or.inr ⟨_, rfl⟩
    · exact Or.inl rfl
  · right
    simp only [cleanBytes, hemp, Bool.false_eq_true, if_false]
    exact ⟨_, rfl⟩

theorem FromSlash_no_slash (Z : List Char) : '/' ∉ FromSlash Z := by
  intro h
  simp only [FromSlash, List.mem_map] at h
  obtain ⟨c, -, hc⟩ := h
  by_cases h1 : c = '/'
  · subst h1
    exact absurd hc (by decide)
  · have : (c == '/') = false := by simpa using h1
    rw [this] at hc
    exact h1 hc

theorem trimmed_drive (c : Char) (body : List Char) (hs : isSlash c = false)
    (hb : ∃ ys y, body = ys ++ [y] ∧ isSlash y = false) : trimmed (c :: ':' :: body) := by
  obtain ⟨ys, y, hy, hys⟩ := hb
  exact ⟨⟨c, _, rfl, hs⟩, ⟨c :: ':' :: ys, y, by rw [hy]; rfl, hys⟩⟩

theorem trimmed_dot (body : List Char) (hb : trimmed body) :
    trimmed ('.' :: Separator :: body) := by
  obtain ⟨-, ys, y, hy, hys⟩ := hb
  exact ⟨⟨'.', _, rfl, by decide⟩, ⟨'.' :: Separator :: ys, y, by rw [hy]; rfl, hys⟩⟩

theorem trimmed_rooted (names : List (List Char)) (hn : ∀ e ∈ names, isName e)
    (hne : names ≠ []) : trimmed (joinSep names) :=
  joinSep_trimmed names hne (fun e he => (hn e he).1)

theorem Clean_drive_only (c : Char) (hs : isSlash c = false) :
    cleanBytes [c, ':'] = [c, ':', '.'] := by
  have hvol : volumeNameLen [c, ':'] = 2 := volumeNameLen_drive c []
  simp only [cleanBytes, hvol, List.drop_succ_cons, List.drop_zero, List.isEmpty_nil, if_true,
    List.getD_cons_zero, hs, Bool.and_false, Bool.false_and, Bool.false_eq_true, if_false,
    List.cons_append, List.nil_append]

theorem relForm_of_cleaned (k : Nat) (names : List (List Char)) (hn : ∀ e ∈ names, isName e) :
    relForm (if cleaned k names = [] then ['.'] else cleaned k names) := by
  by_cases hnil : cleaned k names = []
  · rw [if_pos hnil]
    exact Or.inl rfl
  · rw [if_neg hnil]
    exact Or.inr ⟨k, names, hn, hnil, rfl⟩

end filepath

/-- Bytes that cleaning and trimming return unchanged are in normal form. -/
theorem normalForm_of_fixed (q : List Char)
    (hdata : (strings.Trim (String.mk (filepath.cleanBytes q)) "\\").data = q) :
    normalForm q := by
  cases q with
  | nil => exact absurd hdata (by decide)
  | cons c t =>
    by_cases hs : filepath.isSlash c = true
    · -- a path that begins with a slash is never returned
      exfalso
      simp only [filepath.isSlash, Bool.or_eq_true, beq_iff_eq] at hs
      rcases hs with rfl | rfl
      · exact strings.Trim_head _ t hdata
      · rcases filepath.Clean_cases ('/' :: t) with hc | ⟨Z, hc⟩
        · rw [hc, strings.Trim_id ('/' :: t ++ ['.']) '/' (t ++ ['.']) rfl (by decide)
            ('/' :: t) '.' rfl (by decide)] at hdata
          have := congrArg List.length hdata
          simp at this
        · have hmem : '/' ∈ (strings.Trim (String.mk (filepath.cleanBytes ('/' :: t))) "\\").data := by
            rw [hdata]; simp
          have := strings.Trim_mem _ _ hmem
          rw [hc] at this
          exact filepath.FromSlash_no_slash Z this
    · have hs1 : filepath.isSlash c = false := by simpa using hs
      have hcne : c ≠ '/' := by
        rintro rfl
        exact absurd hs1 (by decide)
      by_cases hd : filepath.hasDrive (c :: t)
      · -- a drive
        obtain ⟨c1, body, hq⟩ := hd
        simp only [List.cons.injEq] at hq
        obtain ⟨rfl, rfl⟩ := hq
        have hvol := filepath.volumeNameLen_drive c body
        by_cases hbody : body = []
        · subst hbody
          exfalso
          rw [filepath.Clean_drive_only c hs1, strings.Trim_id [c, ':', '.'] c [':', '.'] rfl
            (by rintro rfl; exact absurd hs1 (by decide)) [c, ':'] '.' rfl (by decide)] at hdata
          have := congrArg List.length hdata
          simp at this
        · obtain ⟨k, names, pfx, hn, hshape, hpfx, -⟩ := filepath.Clean_shape (c :: ':' :: body)
            (by rw [hvol]; exact hbody)
          rw [hvol] at hshape hpfx
          have hpfx0 : pfx = [] := by
            rcases hpfx with h0 | ⟨h0, -⟩ | ⟨h0, -⟩
            · exact h0
            · exact absurd h0 (by decide)
            · exact absurd h0 (by decide)
          subst hpfx0
          have hfs : filepath.FromSlash ((c :: ':' :: body).take 2) = [c, ':'] := by
            apply filepath.FromSlash_id
            intro d hd
            simp only [List.take_succ_cons, List.take_zero, List.mem_cons, List.mem_singleton,
              List.not_mem_nil, or_false] at hd
            rcases hd with rfl | rfl
            · exact hcne
            · decide
          have hdrop : (c :: ':' :: body).drop 2 = body := rfl
          rw [hfs, hdrop, List.nil_append] at hshape
          right; left
          refine ⟨c, body, rfl, hs1, ?_⟩
          by_cases hroot : filepath.isSlash (body.headD ' ') = true
          · rw [if_pos hroot] at hshape
            by_cases hnames : names = []
            · subst hnames
              exfalso
              have h00 : filepath.cleaned 0 [] = [] := rfl
              rw [h00] at hshape
              have hC : filepath.cleanBytes (c :: ':' :: body) =
                  List.replicate 0 '\\' ++ [c, ':'] ++ List.replicate 1 '\\' := hshape
              rw [hC, strings.Trim_wrapped 0 1 [c, ':'] (Or.inr
                ⟨⟨c, [':'], rfl, hs1⟩, ⟨[c], ':', rfl, by decide⟩⟩)] at hdata
              simp only [List.cons.injEq, true_and] at hdata
              exact hbody hdata.symm
            · right
              have htr := filepath.trimmed_drive c (filepath.Separator :: filepath.joinSep names) hs1
                (by
                  obtain ⟨-, ys, y, hy, hys⟩ := filepath.trimmed_rooted names hn hnames
                  exact ⟨filepath.Separator :: ys, y, by rw [hy]; rfl, hys⟩)
              have hC : filepath.cleanBytes (c :: ':' :: body) =
                  c :: ':' :: filepath.Separator :: filepath.joinSep names := hshape
              rw [hC, strings.Trim_trimmed _ (Or.inr htr)] at hdata
              simp only [List.cons.injEq, true_and] at hdata
              exact ⟨names, hnames, hn, hdata.symm⟩
          · rw [if_neg hroot] at hshape
            left
            have hrel := filepath.relForm_of_cleaned k names hn
            have htr := filepath.trimmed_drive c _ hs1 (filepath.relForm_trimmed _ hrel).2
            have hC : filepath.cleanBytes (c :: ':' :: body) =
                c :: ':' :: (if filepath.cleaned k names = [] then ['.']
                  else filepath.cleaned k names) := hshape
            rw [hC, strings.Trim_trimmed _ (Or.inr htr)] at hdata
            simp only [List.cons.injEq, true_and] at hdata
            rw [← hdata]
            exact hrel
      · -- no volume name
        have hvol := filepath.volumeNameLen_none c t hs1 hd
        obtain ⟨k, names, pfx, hn, hshape, hpfx, -⟩ := filepath.Clean_shape (c :: t)
          (by rw [hvol]; simp)
        rw [hvol] at hshape hpfx
        have hroot : ¬ filepath.isSlash (((c :: t).drop 0).headD ' ') = true := by
          simpa using hs
        rw [if_neg hroot] at hshape
        have hfs : filepath.FromSlash ((c :: t).take 0) = [] := rfl
        rw [hfs, List.nil_append] at hshape
        have hrel := filepath.relForm_of_cleaned k names hn
        rcases hpfx with h0 | ⟨-, h0⟩ | ⟨-, h0, -⟩
        · subst h0
          rw [List.nil_append] at hshape
          rw [hshape, strings.Trim_trimmed _ (Or.inr (filepath.relForm_trimmed _ hrel))] at hdata
          left
          rw [← hdata] at hd ⊢
          exact ⟨hrel, hd⟩
        · subst h0
          have hC : filepath.cleanBytes (c :: t) =
              '.' :: filepath.Separator :: (if filepath.cleaned k names = [] then ['.']
                else filepath.cleaned k names) := hshape
          rw [hC, strings.Trim_trimmed _ (Or.inr (filepath.trimmed_dot _
            (filepath.relForm_trimmed _ hrel)))] at hdata
          have hq : c :: t = '.' :: filepath.Separator :: (if filepath.cleaned k names = [] then ['.']
              else filepath.cleaned k names) := hdata.symm
          rw [hq] at hC
          by_cases hnil : filepath.cleaned k names = []
          · exfalso
            rw [if_pos hnil] at hC
            exact absurd hC (by decide)
          · rw [if_neg hnil] at hC hq
            obtain ⟨e, es, hX, he, -, hk⟩ := filepath.cleaned_elems k names hn hnil
            rw [filepath.Clean_dot k names hn hnil e es hX he] at hC
            by_cases hcolon : ':' ∈ e
            · right; right
              rcases hk with ⟨-, hdd⟩ | ⟨hk0, hnames⟩
              · rw [hdd] at hcolon
                exact absurd hcolon (by decide)
              · refine ⟨e, es, ?_, hcolon, ?_⟩
                · rw [← hnames]; exact hn
                · rw [hq, hX]
            · exfalso
              rw [if_neg hcolon] at hC
              have := congrArg List.length hC
              simp only [List.length_cons] at this
              omega
        · exact absurd h0 hroot

/-- Bytes in normal form are left as they are by `Clean`, and neither begin
nor end with a slash. -/
theorem fixed_of_normalForm (q : List Char) (h : normalForm q) :
    filepath.cleanBytes q = q ∧ filepath.trimmed q := by
  rcases h with ⟨hrel, hnd⟩ | ⟨c, body, rfl, hs, hbody⟩ | ⟨name, names, hn, hcolon, rfl⟩
  · exact ⟨filepath.Clean_relForm q hrel hnd, filepath.relForm_trimmed q hrel⟩
  · have hlast : ∃ ys y, body = ys ++ [y] ∧ filepath.isSlash y = false := by
      rcases hbody with hrel | ⟨names, hne, hn, rfl⟩
      · exact (filepath.relForm_trimmed body hrel).2
      · obtain ⟨-, ys, y, hy, hys⟩ := filepath.trimmed_rooted names hn hne
        exact ⟨filepath.Separator :: ys, y, by rw [hy]; rfl, hys⟩
    exact ⟨filepath.Clean_drive c body hs hbody, filepath.trimmed_drive c body hs hlast⟩
  · have h0 : filepath.cleaned 0 (name :: names) = filepath.joinSep (name :: names) := rfl
    have hne : filepath.cleaned 0 (name :: names) ≠ [] := by
      rw [Ne, filepath.cleaned_eq_nil 0 (name :: names) hn]
      simp
    have hclean := filepath.Clean_dot 0 (name :: names) hn hne name names h0
      (hn name (by simp)).1
    rw [if_pos hcolon, h0] at hclean
    exact ⟨hclean, filepath.trimmed_dot _ (filepath.trimmed_rooted (name :: names) hn (by simp))⟩

namespace filepath

theorem valid_joinSep (es : List (List Char)) (h : ∀ e ∈ es, valid e) : valid (joinSep es) := by
  induction es with
  | nil => exact valid_nil
  | cons e es ih =>
    cases es with
    | nil => exact h e (by simp)
    | cons e1 es1 =>
      show valid (e ++ Separator :: joinSep (e1 :: es1))
      exact valid_append _ _ (h e (by simp))
        (valid_cons _ _ rfl (ih (fun x hx => h x (List.mem_cons_of_mem _ hx))))

theorem valid_cleaned (k : Nat) (names : List (List Char)) (h : ∀ e ∈ names, valid e) :
    valid (cleaned k names) := by
  apply valid_joinSep
  intro e he
  rcases List.mem_append.mp he with h1 | h1
  · rw [(List.mem_replicate.mp h1).2]
    exact valid_cons '.' _ rfl (valid_single '.' rfl)
  · exact h e h1

theorem valid_body (r s : Prop) [Decidable r] [Decidable s] (k : Nat) (names : List (List Char))
    (h : ∀ e ∈ names, valid e) :
    valid (if r then Separator :: cleaned 0 names else if s then ['.'] else cleaned k names) := by
  split_ifs
  · exact valid_cons _ _ rfl (valid_cleaned 0 names h)
  · exact valid_single '.' rfl
  · exact valid_cleaned k names h

/-- Cleaning the bytes of a string that does not begin with a slash gives the
bytes of a string. -/
theorem cleanBytes_valid (c : Char) (t : List Char) (hs : isSlash c = false) :
    valid (cleanBytes (bytes (c :: t))) := by
  have hL : bytes (c :: t) = c :: (List.replicate (c.utf8Size - 1) pad ++ bytes t) :=
    bytes_cons c t
  have hvL : valid (bytes (c :: t)) := ⟨_, rfl⟩
  have hcne : c ≠ '/' := by
    rintro rfl
    exact absurd hs (by decide)
  by_cases hd : hasDrive (bytes (c :: t))
  · obtain ⟨c1, body, hq⟩ := hd
    have hq1 := hq
    rw [hL] at hq1
    simp only [List.cons.injEq] at hq1
    obtain ⟨rfl, hrest⟩ := hq1
    have h1 : c.utf8Size - 1 = 0 := by
      cases hn : c.utf8Size - 1 with
      | zero => rfl
      | succ m =>
        rw [hn, List.replicate_succ, List.cons_append] at hrest
        simp only [List.cons.injEq] at hrest
        exact absurd hrest.1 (by decide)
    rw [h1] at hrest
    simp only [List.replicate_zero, List.nil_append] at hrest
    have hbody : valid body := valid_tail ':' body rfl ⟨t, hrest.symm⟩
    rw [hq]
    by_cases hb : body = []
    · subst hb
      rw [Clean_drive_only c hs]
      exact valid_cons c _ h1 (valid_cons ':' _ rfl (valid_single '.' rfl))
    · have hvol := volumeNameLen_drive c body
      obtain ⟨k, names, pfx, hn, hshape, hpfx, hval⟩ := Clean_shape (c :: ':' :: body)
        (by rw [hvol]; exact hb)
      rw [hvol] at hshape hpfx hval
      have hpfx0 : pfx = [] := by
        rcases hpfx with h0 | ⟨h0, -⟩ | ⟨h0, -⟩
        · exact h0
        · exact absurd h0 (by decide)
        · exact absurd h0 (by decide)
      subst hpfx0
      have hfs : FromSlash ((c :: ':' :: body).take 2) = [c, ':'] := by
        apply FromSlash_id
        intro d hd
        simp only [List.take_succ_cons, List.take_zero, List.mem_cons, List.mem_singleton,
          List.not_mem_nil, or_false] at hd
        rcases hd with rfl | rfl
        · exact hcne
        · decide
      rw [hshape, hfs, List.nil_append]
      exact valid_append _ _ (valid_cons c _ h1 (valid_single ':' rfl))
        (valid_body _ _ k names (hval hbody))
  · rw [hL] at hd hvL ⊢
    have hvol := volumeNameLen_none c _ hs hd
    obtain ⟨k, names, pfx, hn, hshape, hpfx, hval⟩ := Clean_shape
      (c :: (List.replicate (c.utf8Size - 1) pad ++ bytes t)) (by rw [hvol]; simp)
    rw [hvol] at hshape hpfx hval
    have hfs : FromSlash ((c :: (List.replicate (c.utf8Size - 1) pad ++ bytes t)).take 0) = [] :=
      rfl
    rw [hshape, hfs, List.nil_append]
    refine valid_append _ _ ?_ (valid_body _ _ k names (hval hvL))
    rcases hpfx with h0 | ⟨-, h0⟩ | ⟨-, -, h0⟩
    · rw [h0]; exact valid_nil
    · rw [h0]; exact valid_cons '.' _ rfl (valid_single _ rfl)
    · rw [h0]; exact valid_cons _ _ rfl (valid_single '.' rfl)

end filepath

namespace strings

theorem dropWhile_keep (z : Char) (l : List Char) (h : (z == '\\') = false) :
    (z :: l).dropWhile (fun c => c == '\\') = z :: l := by
  simp [List.dropWhile, h]

theorem dropWhile_bytes (X : List Char) :
    (filepath.bytes X).dropWhile (fun c => c == '\\') =
      filepath.bytes (X.dropWhile (fun c => c == '\\')) := by
  induction X with
  | nil => rfl
  | cons x X ih =>
    by_cases hx : x = '\\'
    · subst hx
      rw [filepath.bytes_single '\\' rfl]
      have h1 : ∀ l : List Char, ('\\' :: l).dropWhile (fun c => c == '\\') =
          l.dropWhile (fun c => c == '\\') := by
        intro l
        simp [List.dropWhile]
      rw [h1, h1]
      exact ih
    · have hx1 : (x == '\\') = false := by simpa using hx
      rw [dropWhile_keep x X hx1, filepath.bytes_cons, dropWhile_keep x _ hx1]

theorem dropWhile_reverse_bytes (X : List Char) :
    ((filepath.bytes X).reverse.dropWhile (fun c => c == '\\')).reverse =
      filepath.bytes ((X.reverse.dropWhile (fun c => c == '\\')).reverse) := by
  induction X using List.reverseRecOn with
  | nil => rfl
  | append_singleton Y y ih =>
    by_cases hy : y = '\\'
    · subst hy
      have hb : filepath.bytes (Y ++ ['\\']) = filepath.bytes Y ++ ['\\'] := by
        rw [filepath.bytes_append, filepath.bytes_single '\\' rfl, filepath.bytes_nil]
      have h1 : ∀ l : List Char, ('\\' :: l).dropWhile (fun c => c == '\\') =
          l.dropWhile (fun c => c == '\\') := by
        intro l
        simp [List.dropWhile]
      rw [hb, List.reverse_append, List.reverse_append, List.reverse_singleton,
        List.singleton_append, List.singleton_append, h1, h1]
      exact ih
    · have hy1 : (y == '\\') = false := by simpa using hy
      have hr : (Y ++ [y]).reverse = y :: Y.reverse := by simp
      rw [hr, dropWhile_keep y _ hy1, ← hr, List.reverse_reverse]
      have hb : ∃ z l, (filepath.bytes (Y ++ [y])).reverse = z :: l ∧ (z == '\\') = false := by
        rw [filepath.bytes_append, filepath.bytes_cons, filepath.bytes_nil, List.append_nil,
          List.reverse_append, List.reverse_cons, List.reverse_replicate]
        cases y.utf8Size - 1 with
        | zero => exact ⟨y, _, rfl, hy1⟩
        | succ m => exact ⟨filepath.pad, _, rfl, by decide⟩
      obtain ⟨z, l, hzl, hz⟩ := hb
      rw [hzl, dropWhile_keep z l hz, ← hzl, List.reverse_reverse]

/-- Trimming backslashes from the bytes of a string gives the bytes of the
trimmed string. -/
theorem Trim_bytes (X : List Char) :
    (Trim (String.mk (filepath.bytes X)) "\\").data =
      filepath.bytes (Trim (String.mk X) "\\").data := by
  have hcut := cutset_backslash
  simp only [Trim]
  simp only [hcut]
  rw [dropWhile_bytes, dropWhile_reverse_bytes]

end strings

/-- A path that the handler's normalisation returns unchanged has its bytes
in normal form. -/
theorem normalForm_of_normalize (q : List Char) (h : normalize (String.mk q) = String.mk q) :
    normalForm (filepath.bytes q) := by
  have hdata : (strings.Trim (String.mk (filepath.chars (filepath.cleanBytes (filepath.bytes q))))
      "\\").data = q := congrArg String.data h
  cases q with
  | nil => exact absurd hdata (by decide)
  | cons c t =>
    by_cases hs : filepath.isSlash c = true
    · exfalso
      simp only [filepath.isSlash, Bool.or_eq_true, beq_iff_eq] at hs
      rcases hs with rfl | rfl
      · exact strings.Trim_head _ t hdata
      · rcases filepath.Clean_cases (filepath.bytes ('/' :: t)) with hc | ⟨Z, hc⟩
        · have hb : filepath.bytes ('/' :: t) ++ ['.'] = filepath.bytes ('/' :: t ++ ['.']) := by
            rw [show ('/' :: t ++ ['.'] : List Char) = ('/' :: t) ++ ['.'] from rfl,
              filepath.bytes_append, filepath.bytes_single '.' rfl, filepath.bytes_nil]
          rw [hc, hb, filepath.chars_bytes,
            strings.Trim_id ('/' :: t ++ ['.']) '/' (t ++ ['.']) rfl (by decide)
              ('/' :: t) '.' rfl (by decide)] at hdata
          have := congrArg List.length hdata
          simp at this
        · have hmem : '/' ∈ (strings.Trim (String.mk (filepath.chars
              (filepath.cleanBytes (filepath.bytes ('/' :: t))))) "\\").data := by
            rw [hdata]; simp
          have := filepath.chars_subset _ _ (strings.Trim_mem _ _ hmem)
          rw [hc] at this
          exact filepath.FromSlash_no_slash Z this
    · have hs1 : filepath.isSlash c = false := by simpa using hs
      obtain ⟨X, hX⟩ := filepath.cleanBytes_valid c t hs1
      rw [hX, filepath.chars_bytes] at hdata
      apply normalForm_of_fixed
      rw [hX, strings.Trim_bytes, hdata]

/-- A path whose bytes are in normal form is returned unchanged by the
handler's normalisation. -/
theorem normalize_of_normalForm (q : List Char) (h : normalForm (filepath.bytes q)) :
    normalize (String.mk q) = String.mk q := by
  obtain ⟨hclean, htr⟩ := fixed_of_normalForm _ h
  have hC : filepath.Clean (String.mk q) = String.mk q := by
    show String.mk (filepath.chars (filepath.cleanBytes (filepath.bytes q))) = String.mk q
    rw [hclean, filepath.chars_bytes]
  rw [normalize, hC]
  apply String.ext
  apply filepath.bytes_injective
  rw [← strings.Trim_bytes, strings.Trim_trimmed _ (Or.inr htr)]

/-- The fixed points of the handler's normalisation are the paths whose bytes
are in normal form. -/
theorem normalize_fixed_iff (q : List Char) :
    normalize (String.mk q) = String.mk q ↔ normalForm (filepath.bytes q) :=
  ⟨normalForm_of_normalize q, normalize_of_normalForm q⟩

/-- C10, amended: normalising an already normalised path changes nothing
exactly when the normalised path is, byte by byte, in normal form: a relative
path in clean form (`.`, or elements `..` followed by names, joined by single
backslashes) that does not begin with a drive; or a drive (a byte other than
a slash, and a colon) followed by such a relative path or by a backslash and
names; or `.\` followed by names of which the first contains a colon. -/
theorem normalize_idempotent_iff (p : String) :
    normalize (normalize p) = normalize p ↔ normalForm (filepath.bytes (normalize p).data) :=
  normalize_fixed_iff (normalize p).data

/-- C10, amended, at the request path `/apc//x/../logo.gif`: it is normalised
to `apc\logo.gif`, the relative path of the names `apc` and `logo.gif`, which
normalisation leaves as it is. -/
theorem normalize_idempotent_iff_witness :
    normalize "/apc//x/../logo.gif" = "apc\\logo.gif" ∧
    normalForm (filepath.bytes (normalize "/apc//x/../logo.gif").data) ∧
    normalize (normalize "/apc//x/../logo.gif") = normalize "/apc//x/../logo.gif" :=
  have hnf : normalForm (filepath.bytes (normalize "/apc//x/../logo.gif").data) :=
    Or.inl ⟨Or.inr ⟨0, ["apc".data, "logo.gif".data], by
        intro e he
        simp only [List.mem_cons, List.mem_singleton, List.not_mem_nil, or_false] at he
        rcases he with rfl | rfl
        · exact ⟨⟨by decide, by decide⟩, by decide, by decide⟩
        · exact ⟨⟨by decide, by decide⟩, by decide, by decide⟩,
      by decide, by decide⟩, by
        rintro ⟨c, t, h⟩
        have h1 : (filepath.bytes (normalize "/apc//x/../logo.gif").data).getD 1 ' ' = ':' := by
          rw [h]; rfl
        exact absurd h1 (by decide)⟩
  ⟨by decide, hnf, (normalize_idempotent_iff "/apc//x/../logo.gif").mpr hnf⟩

/-- C10 as stated fails: the root path `/` is normalised to the empty string,
which is normalised to `.`; `//a//b` is normalised to `a\\b`, which is
normalised to `a\b`; and `/C:` is normalised to `C:`, which is normalised to
`C:.`. -/
theorem normalize_not_idempotent :
    (normalize "/" = "" ∧ normalize (normalize "/") = "." ∧
      normalize (normalize "/") ≠ normalize "/") ∧
    (normalize "//a//b" = "a\\\\b" ∧ normalize (normalize "//a//b") = "a\\b" ∧
      normalize (normalize "//a//b") ≠ normalize "//a//b") ∧
    (normalize "/C:" = "C:" ∧ normalize (normalize "/C:") = "C:." ∧
      normalize (normalize "/C:") ≠ normalize "/C:") := by
  decide

/-! ## The decorating handler: whole header map -/

/-- C11: for an entry whose only non-empty header field is `CacheControl = v`
and whose path is not an APC path, a request for that path gets exactly the
header `Cache-Control: v` added: the header map the wrapped handler receives
is the one before with the entry of `Cache-Control` set to `[v]`, whatever the
request headers are. -/
theorem addHeadersToHandler_cache_control_only {σ : Type} (m : HeaderConfigMap)
    (w : http.ResponseWriter σ) (r : http.Request) (hc : HeaderConfig) (v : String)
    (hname : normalize r.URL.Path = hc.ConfigName) (hfound : m hc.ConfigName = some hc)
    (hv : v ≠ "") (hcache : hc.CacheControl = v)
    (hempty : hc.AccessControlAllowOrigin = "" ∧ hc.AccessControlExposeHeaders = "" ∧
      hc.ETag = "" ∧ hc.TimingAllowOrigin = "" ∧ hc.XFrontEnd = "")
    (hapc : hasCustomAPCHeaders hc.ConfigName = false) :
    ∃ w1 : http.ResponseWriter σ,
      (∀ h : http.Handler σ, addHeadersToHandler h m w r = h w1 r) ∧
      w1.conn = w.conn ∧
      ∀ k : String, w1.Header k = if k = "Cache-Control" then some [v] else w.Header k := by
  refine ⟨addHeadersToHandler (fun w _ => w) m w r, fun h => rfl, ?_, ?_⟩
  · simp [addHeadersToHandler, hname, hfound, hapc, setHeaderIfValIsNonEmpty_conn]
  · intro k
    obtain ⟨h1, h2, h3, h4, -⟩ := hempty
    simp only [addHeadersToHandler, hname, hfound, hapc]
    simp [setHeaderIfValIsNonEmpty_Header, h1, h2, h3, h4, hcache, hv, canonical_cacheControl]

/-- C11 at the spec's example: `static\app.js` with `max-age=3600`. -/
theorem addHeadersToHandler_cache_control_only_witness :
    (normalize appJsRequest.URL.Path = cacheOnlyConfig.ConfigName ∧
      mainHeaderConfigMap [cacheOnlyConfig] cacheOnlyConfig.ConfigName = some cacheOnlyConfig ∧
      hasCustomAPCHeaders cacheOnlyConfig.ConfigName = false) ∧
    ∃ w1 : http.ResponseWriter Unit,
      (∀ h : http.Handler Unit,
        addHeadersToHandler h (mainHeaderConfigMap [cacheOnlyConfig]) emptyResponse appJsRequest =
          h w1 appJsRequest) ∧
      w1.conn = emptyResponse.conn ∧
      ∀ k : String, w1.Header k =
        if k = "Cache-Control" then some ["max-age=3600"] else emptyResponse.Header k :=
  ⟨⟨by decide, by decide, by decide⟩,
    addHeadersToHandler_cache_control_only (mainHeaderConfigMap [cacheOnlyConfig]) emptyResponse
      appJsRequest cacheOnlyConfig "max-age=3600" (by decide) (by decide) (by decide) rfl
      ⟨rfl, rfl, rfl, rfl, rfl⟩ (by decide)⟩

theorem setHeaderIfValIsNonEmpty_keeps {σ : Type} (w : http.ResponseWriter σ)
    (key val k : String) (h : w.Header k ≠ none) :
    (setHeaderIfValIsNonEmpty w key val).Header k ≠ none := by
  rw [setHeaderIfValIsNonEmpty_Header]
  split
  · simp
  · exact h

/-- C14: the handler changes nothing but, possibly, the entries of the eight
header names it sets: every other entry of the header map, the rest of the
response and the request handed to the wrapped handler are as they came in,
and no entry that was present is removed. -/
theorem addHeadersToHandler_frame {σ : Type} (m : HeaderConfigMap) (w : http.ResponseWriter σ)
    (r : http.Request) :
    ∃ w1 : http.ResponseWriter σ,
      (∀ h : http.Handler σ, addHeadersToHandler h m w r = h w1 r) ∧
      w1.conn = w.conn ∧
      (∀ k : String, k ∉ decoratedNames.map textproto.CanonicalMIMEHeaderKey →
        w1.Header k = w.Header k) ∧
      (∀ k : String, w.Header k ≠ none → w1.Header k ≠ none) := by
  refine ⟨addHeadersToHandler (fun w _ => w) m w r, fun h => rfl, ?_, ?_, ?_⟩
  · simp only [addHeadersToHandler]
    cases m (normalize r.URL.Path) with
    | none => rfl
    | some hc =>
      by_cases hapc : hasCustomAPCHeaders (normalize r.URL.Path) = true <;>
        simp [hapc, setHeaderIfValIsNonEmpty_conn]
  · intro k hk
    simp only [decoratedNames, List.map_cons, List.map_nil, canonical_allowOrigin,
      canonical_exposeHeaders, canonical_cacheControl, canonical_etag,
      canonical_timingAllowOrigin, canonical_frontEnd, canonical_endPoint,
      canonical_userHostAddress, List.mem_cons, List.mem_singleton, List.not_mem_nil, or_false,
      not_or] at hk
    obtain ⟨k1, k2, k3, k4, k5, k6, k7, k8⟩ := hk
    simp only [addHeadersToHandler]
    cases m (normalize r.URL.Path) with
    | none => rfl
    | some hc =>
      by_cases hapc : hasCustomAPCHeaders (normalize r.URL.Path) = true <;>
        simp [hapc, setHeaderIfValIsNonEmpty_Header, canonical_allowOrigin,
          canonical_exposeHeaders, canonical_cacheControl, canonical_etag,
          canonical_timingAllowOrigin, canonical_frontEnd, canonical_endPoint,
          canonical_userHostAddress, k1, k2, k3, k4, k5, k6, k7, k8]
  · intro k hk
    simp only [addHeadersToHandler]
    cases m (normalize r.URL.Path) with
    | none => exact hk
    | some hc =>
      cases hasCustomAPCHeaders (normalize r.URL.Path)
      · simp only [Bool.false_eq_true, if_false]
        repeat apply setHeaderIfValIsNonEmpty_keeps
        exact hk
      · simp only [if_true]
        repeat apply setHeaderIfValIsNonEmpty_keeps
        exact hk

/-! ## Building the configuration -/

theorem mainHeaderConfigMap_snoc (cs : List HeaderConfig) (c : HeaderConfig) (name : String) :
    mainHeaderConfigMap (cs ++ [c]) name =
      if name = c.ConfigName then some c else mainHeaderConfigMap cs name := by
  simp [mainHeaderConfigMap, List.foldl_append]

/-- C12: in the map built by the loop of `main`, a name is absent exactly
when no record of the sequence has it as `ConfigName`, and otherwise it is
mapped to the last record of the sequence that has. -/
theorem mainHeaderConfigMap_last_wins (cs : List HeaderConfig) (name : String) :
    (mainHeaderConfigMap cs name = none ↔ ∀ c ∈ cs, c.ConfigName ≠ name) ∧
    (∀ hc : HeaderConfig, mainHeaderConfigMap cs name = some hc ↔
      ∃ pre post, cs = pre ++ hc :: post ∧ hc.ConfigName = name ∧
        ∀ c ∈ post, c.ConfigName ≠ name) := by
  induction cs using List.reverseRecOn with
  | nil =>
    refine ⟨by simp [mainHeaderConfigMap], fun hc => ?_⟩
    simp [mainHeaderConfigMap]
  | append_singleton cs c ih =>
    obtain ⟨ihn, ihs⟩ := ih
    rw [mainHeaderConfigMap_snoc]
    by_cases hname : name = c.ConfigName
    · rw [if_pos hname]
      refine ⟨?_, fun hc => ?_⟩
      · simp only [false_iff, reduceCtorEq, not_forall]
        exact ⟨c, by simp, fun h => h hname.symm⟩
      · constructor
        · intro h
          simp only [Option.some.injEq] at h
          subst h
          exact ⟨cs, [], rfl, hname.symm, by simp⟩
        · rintro ⟨pre, post, hcs, hn, hpost⟩
          rcases List.eq_nil_or_concat post with rfl | ⟨init, last, rfl⟩
          · have := List.append_inj_right' hcs (by simp)
            simp only [List.cons.injEq, and_true] at this
            rw [this]
          · rw [List.concat_eq_append] at hcs hpost
            have hlast : c = last := by
              have h1 : cs ++ [c] = (pre ++ hc :: init) ++ [last] := by
                rw [hcs]; simp
              have := List.append_inj_right' h1 (by simp)
              simpa using this
            exact absurd (hname ▸ hlast ▸ rfl) (hpost last (by simp))
    · rw [if_neg hname]
      refine ⟨?_, fun hc => ?_⟩
      · rw [ihn]
        constructor
        · intro h x hx
          rcases List.mem_append.mp hx with hx | hx
          · exact h x hx
          · rw [List.mem_singleton.mp hx]
            exact fun e => hname e.symm
        · intro h x hx
          exact h x (List.mem_append_left _ hx)
      · rw [ihs hc]
        constructor
        · rintro ⟨pre, post, hcs, hn, hpost⟩
          refine ⟨pre, post ++ [c], by rw [hcs]; simp, hn, ?_⟩
          intro x hx
          rcases List.mem_append.mp hx with hx | hx
          · exact hpost x hx
          · rw [List.mem_singleton.mp hx]
            exact fun e => hname e.symm
        · rintro ⟨pre, post, hcs, hn, hpost⟩
          rcases List.eq_nil_or_concat post with rfl | ⟨init, last, rfl⟩
          · have := List.append_inj_right' hcs (by simp)
            simp only [List.cons.injEq, and_true] at this
            exact absurd (this ▸ hn.symm) hname
          · rw [List.concat_eq_append] at hcs hpost
            have h1 : cs ++ [c] = (pre ++ hc :: init) ++ [last] := by
              rw [hcs]; simp
            have h2 := List.append_inj_left' h1 (by simp)
            exact ⟨pre, init, h2, hn, fun x hx => hpost x (List.mem_append_left _ hx)⟩

/-- C13: `getHeaderConfigs` returns the empty list when the file cannot be
read (it is missing), returns the decoded records when the file is read and
decoded without error, and ends the process when the file is read but the
decoder reports an error. -/
theorem getHeaderConfigs_missing_or_malformed (ReadFile : String → Except String String)
    (Unmarshal : String → List HeaderConfig → List HeaderConfig × Option String)
    (configFileLoc : String) :
    (∀ e, ReadFile configFileLoc = .error e →
      getHeaderConfigs ReadFile Unmarshal configFileLoc = .returned []) ∧
    (∀ config cs, ReadFile configFileLoc = .ok config → Unmarshal config [] = (cs, none) →
      getHeaderConfigs ReadFile Unmarshal configFileLoc = .returned cs) ∧
    (∀ config cs e, ReadFile configFileLoc = .ok config → Unmarshal config [] = (cs, some e) →
      ∃ message, getHeaderConfigs ReadFile Unmarshal configFileLoc = .fatal message) := by
  refine ⟨fun e he => ?_, fun config cs hr hu => ?_, fun config cs e hr hu => ?_⟩
  · simp [getHeaderConfigs, he]
  · simp [getHeaderConfigs, hr, hu]
  · exact ⟨"Failed to unmarshal the json header config.", by simp [getHeaderConfigs, hr, hu]⟩

/-- C13 on the sample file system: no `missing.json`, a well-formed
`headerConfig.json`, a truncated `broken.json`. -/
theorem getHeaderConfigs_missing_or_malformed_witness :
    getHeaderConfigs sampleReadFile sampleUnmarshal "missing.json" = .returned [] ∧
    getHeaderConfigs sampleReadFile sampleUnmarshal "headerConfig.json" =
      .returned [cacheOnlyConfig] ∧
    ∃ message, getHeaderConfigs sampleReadFile sampleUnmarshal "broken.json" = .fatal message :=
  ⟨(getHeaderConfigs_missing_or_malformed sampleReadFile sampleUnmarshal "missing.json").1 _ rfl,
    (getHeaderConfigs_missing_or_malformed sampleReadFile sampleUnmarshal "headerConfig.json").2.1
      _ _ rfl rfl,
    (getHeaderConfigs_missing_or_malformed sampleReadFile sampleUnmarshal "broken.json").2.2
      _ [] _ rfl rfl⟩

/-- C12 on two records for the same path: the later one is found, and a name
with no record is absent. -/
theorem mainHeaderConfigMap_last_wins_witness :
    mainHeaderConfigMap [cacheOldConfig, cacheOnlyConfig] "static\\app.js" = some cacheOnlyConfig ∧
    mainHeaderConfigMap [cacheOldConfig, cacheOnlyConfig] "index.html" = none :=
  ⟨((mainHeaderConfigMap_last_wins [cacheOldConfig, cacheOnlyConfig] "static\\app.js").2
      cacheOnlyConfig).mpr ⟨[cacheOldConfig], [], rfl, rfl, by simp⟩,
    (mainHeaderConfigMap_last_wins [cacheOldConfig, cacheOnlyConfig] "index.html").1.mpr
      (by decide)⟩

/-! ## Addresses: hexadecimal groups and IPv4-mapped addresses -/

namespace net

theorem xtoiLoop_step (c : Char) (cs : List Char) (n i : Nat) (hc : isHexDigit c = true)
    (hbig : n * 16 + hexDigitVal c < big) :
    xtoiLoop (c :: cs) n i = xtoiLoop cs (n * 16 + hexDigitVal c) (i + 1) := by
  rw [xtoiLoop]
  unfold hexDigitVal at hbig ⊢
  unfold isHexDigit at hc
  by_cases h1 : (decide ('0' ≤ c) && decide (c ≤ '9')) = true
  · rw [if_pos h1] at hbig ⊢
    rw [if_pos h1, if_neg (not_le.mpr hbig)]
  · rw [if_neg h1] at hbig ⊢
    rw [if_neg h1]
    by_cases h2 : (decide ('a' ≤ c) && decide (c ≤ 'f')) = true
    · rw [if_pos h2] at hbig ⊢
      rw [if_pos h2, if_neg (by rw [Nat.add_assoc]; exact not_le.mpr hbig), Nat.add_assoc]
    · rw [if_neg h2] at hbig ⊢
      have h3 : (decide ('A' ≤ c) && decide (c ≤ 'F')) = true := by
        simp only [Bool.not_eq_true] at h1 h2
        simpa [h1, h2] using hc
      rw [if_neg h2, if_pos h3, if_neg (by rw [Nat.add_assoc]; exact not_le.mpr hbig),
        Nat.add_assoc]

theorem le_hexVal (ds : List Char) (n : Nat) : n ≤ hexVal n ds := by
  induction ds generalizing n with
  | nil => exact le_rfl
  | cons c cs ih =>
    have := ih (n * 16 + hexDigitVal c)
    simp only [hexVal, List.foldl_cons] at this ⊢
    omega

theorem xtoiLoop_digits (ds rest : List Char) (n i : Nat) (hd : ds.all isHexDigit = true)
    (hbig : hexVal n ds < big) :
    xtoiLoop (ds ++ rest) n i = xtoiLoop rest (hexVal n ds) (i + ds.length) := by
  induction ds generalizing n i with
  | nil => simp [hexVal]
  | cons c cs ih =>
    simp only [List.all_cons, Bool.and_eq_true] at hd
    have hstep : hexVal n (c :: cs) = hexVal (n * 16 + hexDigitVal c) cs := rfl
    rw [hstep] at hbig
    have hlt : n * 16 + hexDigitVal c < big := lt_of_le_of_lt (le_hexVal cs _) hbig
    rw [List.cons_append, xtoiLoop_step c _ n i hd.1 hlt, ih _ _ hd.2 hbig, hstep,
      List.length_cons]
    congr 1
    omega

theorem xtoiLoop_stop (rest : List Char) (n i : Nat) (hi : i ≠ 0)
    (hrest : rest = [] ∨ ∃ c t, rest = c :: t ∧ isHexDigit c = false) :
    xtoiLoop rest n i = (n, i, true) := by
  rcases hrest with rfl | ⟨c, t, rfl, hc⟩
  · simp [xtoiLoop, hi]
  · unfold isHexDigit at hc
    simp only [Bool.or_eq_false_iff] at hc
    obtain ⟨⟨h1, h2⟩, h3⟩ := hc
    rw [xtoiLoop]
    simp [h1, h2, h3, hi]

/-- Reading a non-empty string of hexadecimal digits that stops at a character
that is none. -/
theorem xtoi_hex (ds rest : List Char) (hd : ds.all isHexDigit = true) (hne : ds ≠ [])
    (hbig : hexVal 0 ds < big)
    (hrest : rest = [] ∨ ∃ c t, rest = c :: t ∧ isHexDigit c = false) :
    xtoi (ds ++ rest) = (hexVal 0 ds, ds.length, true) := by
  rw [xtoi, xtoiLoop_digits _ _ _ _ hd hbig, Nat.zero_add]
  exact xtoiLoop_stop _ _ _ (fun h0 => hne (List.length_eq_zero.mp h0)) hrest

set_option maxRecDepth 100000 in
theorem repr_hex : ∀ n, n < 256 →
    ((Nat.repr n).data.all isHexDigit = true ∧ hexVal 0 (Nat.repr n).data ≤ 0xFFFF) := by
  decide

/-- The dotted-decimal text of four octets is read by `parseIPv4` as that
address. -/
theorem parseIPv4_dotted (a b c d : Nat) (ha : a < 256) (hb : b < 256) (hc : c < 256)
    (hd : d < 256) :
    parseIPv4 ((Nat.repr a).data ++ '.' :: ((Nat.repr b).data ++ '.' :: ((Nat.repr c).data ++
      '.' :: ((Nat.repr d).data ++ [])))) = IPv4 a b c d := by
  have hdot : ∀ t : List Char, ('.' :: t = [] ∨ ∃ c1 t1, '.' :: t = c1 :: t1 ∧ isDigit c1 = false) :=
    fun t => Or.inr ⟨'.', t, rfl, by decide⟩
  rw [parseIPv4, parseIPv4Octets_first 3 a ha _ (hdot _), parseIPv4Octets_next 2 b hb _ (hdot _),
    parseIPv4Octets_next 1 c hc _ (hdot _), parseIPv4Octets_next 0 d hd _ (Or.inl rfl)]
  simp [parseIPv4Octets]

end net

namespace net

theorem getD_append_length (ds : List Char) (c : Char) (rest : List Char) :
    (ds ++ c :: rest).getD ds.length ' ' = c := by
  rw [List.getD_eq_getElem?_getD, List.getElem?_append_right (le_refl _)]
  simp

/-- One round of the loop of `parseIPv6` on a group followed by a single
colon and more text. -/
theorem parseIPv6Loop_group (fuel : Nat) (ds : List Char) (x : Char) (tail : List Char) (i : Nat)
    (ip : IP) (ellipsis : Option Nat) (hd : ds.all isHexDigit = true) (hne : ds ≠ [])
    (hval : hexVal 0 ds ≤ 0xFFFF) (hi : i < 16) (hx : (x == ':') = false) :
    parseIPv6Loop (fuel + 1) (ds ++ ':' :: x :: tail) i ip ellipsis =
      parseIPv6Loop fuel (x :: tail) (i + 2)
        ((ip.set i ((hexVal 0 ds >>> 8) % 256)).set (i + 1) (hexVal 0 ds % 256)) ellipsis := by
  have hxt : xtoi (ds ++ ':' :: x :: tail) = (hexVal 0 ds, ds.length, true) :=
    xtoi_hex ds _ hd hne (by simp only [big]; omega) (Or.inr ⟨':', _, rfl, by decide⟩)
  have hget : (ds ++ ':' :: x :: tail).getD ds.length ' ' = ':' := getD_append_length _ _ _
  have hnv : ¬ hexVal 0 ds > 65535 := by omega
  rw [parseIPv6Loop]
  simp only [IPv6len, IPv4len, hi, if_true, hxt, hget, hnv, List.drop_left, Bool.not_true,
    decide_False, Bool.or_self, Bool.false_eq_true, if_false, List.isEmpty_cons,
    List.headD_cons, List.length_cons, List.drop_succ_cons, List.drop_zero, hx]
  simp

/-- The last round of the loop of `parseIPv6` on a group followed by `::` at
the end of the text. -/
theorem parseIPv6Loop_group_ellipsis (fuel : Nat) (ds : List Char) (i : Nat) (ip : IP)
    (hd : ds.all isHexDigit = true) (hne : ds ≠ []) (hval : hexVal 0 ds ≤ 0xFFFF) (hi : i < 16) :
    parseIPv6Loop (fuel + 1) (ds ++ [':', ':']) i ip none =
      some ([], i + 2,
        (ip.set i ((hexVal 0 ds >>> 8) % 256)).set (i + 1) (hexVal 0 ds % 256), some (i + 2)) := by
  have hxt : xtoi (ds ++ [':', ':']) = (hexVal 0 ds, ds.length, true) :=
    xtoi_hex ds _ hd hne (by simp only [big]; omega) (Or.inr ⟨':', _, rfl, by decide⟩)
  have hget : (ds ++ [':', ':']).getD ds.length ' ' = ':' := getD_append_length _ _ _
  have hnv : ¬ hexVal 0 ds > 65535 := by omega
  rw [parseIPv6Loop]
  simp only [IPv6len, IPv4len, hi, if_true, hxt, hget, hnv, List.drop_left, Bool.not_true,
    decide_False, Bool.or_self, Bool.false_eq_true, if_false, List.isEmpty_cons,
    List.headD_cons, List.length_cons, List.drop_succ_cons, List.drop_zero]
  simp

/-- The last round of the loop of `parseIPv6` on a trailing IPv4 address. -/
theorem parseIPv6Loop_v4 (fuel : Nat) (ds rest : List Char) (i e : Nat) (ip ip4 : IP)
    (hd : ds.all isHexDigit = true) (hne : ds ≠ []) (hval : hexVal 0 ds ≤ 0xFFFF)
    (hi : i + 4 ≤ 16) (hv4 : parseIPv4 (ds ++ '.' :: rest) = ip4) (hip4 : ip4 ≠ []) :
    parseIPv6Loop (fuel + 1) (ds ++ '.' :: rest) i ip (some e) =
      some ([], i + 4,
        (((ip.set i (ip4.getD 12 0)).set (i + 1) (ip4.getD 13 0)).set (i + 2)
          (ip4.getD 14 0)).set (i + 3) (ip4.getD 15 0), some e) := by
  have hxt : xtoi (ds ++ '.' :: rest) = (hexVal 0 ds, ds.length, true) :=
    xtoi_hex ds _ hd hne (by simp only [big]; omega) (Or.inr ⟨'.', _, rfl, by decide⟩)
  have hget : (ds ++ '.' :: rest).getD ds.length ' ' = '.' := getD_append_length _ _ _
  have hnv : ¬ hexVal 0 ds > 65535 := by omega
  have hlen : ds.length < (ds ++ '.' :: rest).length := by simp
  have hi1 : i < 16 := by omega
  have hi2 : ¬ i + 4 > 16 := by omega
  have hemp : ip4.isEmpty = false := by
    cases ip4 with
    | nil => exact absurd rfl hip4
    | cons _ _ => rfl
  rw [parseIPv6Loop]
  simp only [IPv6len, IPv4len, hi1, if_true, hxt, hget, hnv, hlen, hv4, hi2, hemp, Bool.not_true,
    decide_False, decide_True, Bool.or_self, Bool.false_eq_true, if_false, Bool.and_self,
    beq_self_eq_true, Option.isNone_some, Bool.false_and]

/-- An IPv4 address written after `::ffff:` parses to the sixteen-byte form
of the IPv4 address. -/
theorem parseIPv6_mapped (a b c d : Nat) (ha : a < 256) (hb : b < 256) (hc : c < 256)
    (hd : d < 256) :
    parseIPv6 (':' :: ':' :: 'f' :: 'f' :: 'f' :: 'f' :: ':' :: ((Nat.repr a).data ++
      '.' :: ((Nat.repr b).data ++ '.' :: ((Nat.repr c).data ++ '.' :: ((Nat.repr d).data ++ [])))))
      = IPv4 a b c d := by
  generalize hrest : ((Nat.repr b).data ++ '.' :: ((Nat.repr c).data ++
      '.' :: ((Nat.repr d).data ++ []))) = rest
  have hv4 : parseIPv4 ((Nat.repr a).data ++ '.' :: rest) = IPv4 a b c d := by
    rw [← hrest]; exact parseIPv4_dotted a b c d ha hb hc hd
  obtain ⟨hdig, hne, -⟩ := repr_digits a ha
  obtain ⟨hhex, hval⟩ := repr_hex a ha
  obtain ⟨x, xs, hx⟩ : ∃ x xs, (Nat.repr a).data = x :: xs := by
    cases h : (Nat.repr a).data with
    | nil => exact absurd h hne
    | cons x xs => exact ⟨x, xs, rfl⟩
  have hxdig : isDigit x = true := by
    rw [hx] at hdig
    simp only [List.all_cons, Bool.and_eq_true] at hdig
    exact hdig.1
  have hxcolon : (x == ':') = false := by
    rw [beq_eq_false_iff_ne]
    rintro rfl
    exact absurd hxdig (by decide)
  have hff : hexVal 0 ['f', 'f', 'f', 'f'] = 65535 := by decide
  have h1 := parseIPv6Loop_group 7 ['f', 'f', 'f', 'f'] x (xs ++ '.' :: rest) 0
    [0, 0, 0, 0, 0, 0, 0, 0, 0, 0, 0, 0, 0, 0, 0, 0] (some 0) (by decide) (by decide)
    (by decide) (by decide) hxcolon
  have h2 := parseIPv6Loop_v4 6 (Nat.repr a).data rest 2 0
    [255, 255, 0, 0, 0, 0, 0, 0, 0, 0, 0, 0, 0, 0, 0, 0] (IPv4 a b c d) hhex hne hval
    (by decide) hv4 (by simp [IPv4, v4InV6Prefix])
  rw [hx] at h2
  rw [hff] at h1
  simp only [List.cons_append, List.nil_append, List.set_cons_zero, List.set_cons_succ,
    Nat.zero_add, Nat.reduceAdd, Nat.reduceShiftRight, Nat.reduceMod] at h1 h2
  simp only [parseIPv6, IPv6len, List.length_cons, List.getD_cons_zero, List.getD_cons_succ,
    List.drop_succ_cons, List.drop_zero, hx, List.cons_append]
  rw [if_neg (by simp)]
  simp only [ge_iff_le, Nat.le_add_left, decide_True, beq_self_eq_true, Bool.and_self, if_true,
    List.replicate, h1, h2]
  simp [IPv4, v4InV6Prefix, List.replicate]

end net

/-- A string that parses to the sixteen-byte form of an IPv4 address is
scrubbed to the dotted-decimal text of its first three octets and `0`. -/
theorem scrubIPAddressAsStr_of_IPv4 (s : String) (a b c d : Nat) (ha : a < 256) (hb : b < 256)
    (hc : c < 256) (hparse : net.ParseIP s = net.IPv4 a b c d) :
    scrubIPAddressAsStr s = Nat.repr a ++ "." ++ Nat.repr b ++ "." ++ Nat.repr c ++ ".0" := by
  have hmask : net.IP.Mask (net.IPv4 a b c d) ipv4Mask = [a, b, c, 0] := by
    simp [net.IP.Mask, net.IPv4, net.v4InV6Prefix, ipv4Mask, net.CIDRMask, net.cidrLoop,
      net.IPv4len, net.IPv6len, net.land_255 a ha, net.land_255 b hb, net.land_255 c hc]
  have h4 : net.IP.To4 (net.IPv4 a b c d) = [a, b, c, d] := by
    simp [net.IP.To4, net.IPv4, net.v4InV6Prefix, net.IPv4len, net.IPv6len]
  simp only [scrubIPAddressAsStr, hparse, h4, hmask]
  simp [net.IPv4, net.v4InV6Prefix, net.IP.String, net.IP.To4, net.IPv4len,
    net.uitoa_eq_repr a ha, net.uitoa_eq_repr b hb, net.uitoa_eq_repr c hc,
    show net.uitoa 0 = ['0'] from rfl, String.ext_iff, String.data_append]

/-- The dotted-decimal text of four octets parses to the sixteen-byte form of
that IPv4 address. -/
theorem ParseIP_dotted (a b c d : Nat) (ha : a < 256) (hb : b < 256) (hc : c < 256)
    (hd : d < 256) :
    net.ParseIP (Nat.repr a ++ "." ++ Nat.repr b ++ "." ++ Nat.repr c ++ "." ++ Nat.repr d) =
      net.IPv4 a b c d := by
  have := net.parseIPScan_dotted a b c d ha hb hc hd
  simp only [List.append_nil] at this
  simpa [net.ParseIP, String.data_append] using this

/-- The same text after `::ffff:` parses to the same sixteen bytes. -/
theorem ParseIP_mapped (a b c d : Nat) (ha : a < 256) (hb : b < 256) (hc : c < 256)
    (hd : d < 256) :
    net.ParseIP ("::ffff:" ++
        (Nat.repr a ++ "." ++ Nat.repr b ++ "." ++ Nat.repr c ++ "." ++ Nat.repr d)) =
      net.IPv4 a b c d := by
  have := net.parseIPv6_mapped a b c d ha hb hc hd
  simp only [List.append_nil] at this
  have hdata : ("::ffff:" ++
      (Nat.repr a ++ "." ++ Nat.repr b ++ "." ++ Nat.repr c ++ "." ++ Nat.repr d)).data =
      ':' :: ':' :: 'f' :: 'f' :: 'f' :: 'f' :: ':' :: ((Nat.repr a).data ++
        '.' :: ((Nat.repr b).data ++ '.' :: ((Nat.repr c).data ++ '.' :: (Nat.repr d).data))) := by
    simp [String.data_append]
  rw [net.ParseIP, hdata]
  simp only [net.parseIPScan]
  rw [if_neg (by decide), if_pos (by decide)]
  exact this

/-- C16: an IPv4 address written as an IPv4-mapped IPv6 address,
`::ffff:a.b.c.d`, parses to the same sixteen bytes as `a.b.c.d` and is
scrubbed, as that one is, to `a.b.c.0`. -/
theorem scrubIPAddressAsStr_ipv4_mapped (a b c d : Nat) (ha : a < 256) (hb : b < 256)
    (hc : c < 256) (hd : d < 256) :
    net.ParseIP ("::ffff:" ++
        (Nat.repr a ++ "." ++ Nat.repr b ++ "." ++ Nat.repr c ++ "." ++ Nat.repr d)) =
      net.ParseIP (Nat.repr a ++ "." ++ Nat.repr b ++ "." ++ Nat.repr c ++ "." ++ Nat.repr d) ∧
    scrubIPAddressAsStr ("::ffff:" ++
        (Nat.repr a ++ "." ++ Nat.repr b ++ "." ++ Nat.repr c ++ "." ++ Nat.repr d)) =
      scrubIPAddressAsStr
        (Nat.repr a ++ "." ++ Nat.repr b ++ "." ++ Nat.repr c ++ "." ++ Nat.repr d) ∧
    scrubIPAddressAsStr
        (Nat.repr a ++ "." ++ Nat.repr b ++ "." ++ Nat.repr c ++ "." ++ Nat.repr d) =
      Nat.repr a ++ "." ++ Nat.repr b ++ "." ++ Nat.repr c ++ ".0" := by
  have h1 := ParseIP_mapped a b c d ha hb hc hd
  have h2 := ParseIP_dotted a b c d ha hb hc hd
  refine ⟨h1.trans h2.symm, ?_, scrubIPAddressAsStr_of_IPv4 _ a b c d ha hb hc h2⟩
  rw [scrubIPAddressAsStr_of_IPv4 _ a b c d ha hb hc h1,
    scrubIPAddressAsStr_of_IPv4 _ a b c d ha hb hc h2]

/-- C16 at the address `192.168.17.42`. -/
theorem scrubIPAddressAsStr_ipv4_mapped_witness :
    scrubIPAddressAsStr "::ffff:192.168.17.42" = scrubIPAddressAsStr "192.168.17.42" ∧
    scrubIPAddressAsStr "192.168.17.42" = "192.168.17.0" :=
  (scrubIPAddressAsStr_ipv4_mapped 192 168 17 42 (by decide) (by decide) (by decide)
    (by decide)).2

/-! ## Addresses: scrubbing twice -/

namespace net

theorem hexDigit_spec : ∀ h, h < 16 →
    (isHexDigit (hexDigit h) = true ∧ hexDigitVal (hexDigit h) = h) := by
  decide

theorem appendHex_eq (dst : List Char) (g : Nat) : appendHex dst g = dst ++ appendHex [] g := by
  unfold appendHex
  split <;> simp

/-- A sixteen-bit group is printed as a non-empty string of hexadecimal
digits that stands for the group. -/
theorem appendHex_spec (g : Nat) (hg : g < 65536) :
    appendHex [] g ≠ [] ∧ (appendHex [] g).all isHexDigit = true ∧
      hexVal 0 (appendHex [] g) = g := by
  by_cases h0 : g = 0
  · subst h0
    decide
  have hand : ∀ v : Nat, v &&& 15 = v % 16 := fun v => Nat.and_pow_two_sub_one_eq_mod v 4
  have hd : ∀ v : Nat, isHexDigit (hexDigit (v % 16)) = true ∧
      hexDigitVal (hexDigit (v % 16)) = v % 16 :=
    fun v => hexDigit_spec (v % 16) (Nat.mod_lt _ (by norm_num))
  have e7 : g >>> (7 * 4) = 0 := by rw [Nat.shiftRight_eq_div_pow]; norm_num; omega
  have e6 : g >>> (6 * 4) = 0 := by rw [Nat.shiftRight_eq_div_pow]; norm_num; omega
  have e5 : g >>> (5 * 4) = 0 := by rw [Nat.shiftRight_eq_div_pow]; norm_num; omega
  have e4 : g >>> (4 * 4) = 0 := by rw [Nat.shiftRight_eq_div_pow]; norm_num; omega
  have e3 : g >>> (3 * 4) = g / 4096 := by rw [Nat.shiftRight_eq_div_pow]
  have e2 : g >>> (2 * 4) = g / 256 := by rw [Nat.shiftRight_eq_div_pow]
  have e1 : g >>> (1 * 4) = g / 16 := by rw [Nat.shiftRight_eq_div_pow]
  have e0 : g >>> (0 * 4) = g := by simp
  have hg0 : g > 0 := Nat.pos_of_ne_zero h0
  have hbeq : (g == 0) = false := by simpa using h0
  simp only [appendHex, hbeq, Bool.false_eq_true, if_false, List.nil_append, List.filterMap_cons,
    List.filterMap_nil, e7, e6, e5, e4, e3, e2, e1, e0, hand, gt_iff_lt, lt_self_iff_false, hg0,
    if_true]
  by_cases h3 : 0 < g / 4096
  · have h2 : 0 < g / 256 := by omega
    have h1 : 0 < g / 16 := by omega
    simp only [h3, h2, h1, if_true, List.all_cons, List.all_nil, hexVal, List.foldl_cons,
      List.foldl_nil, (hd _).1, (hd _).2]
    refine ⟨by simp, by simp, ?_⟩
    omega
  · by_cases h2 : 0 < g / 256
    · have h1 : 0 < g / 16 := by omega
      simp only [h3, h2, h1, if_true, if_false, List.all_cons, List.all_nil, hexVal,
        List.foldl_cons, List.foldl_nil, (hd _).1, (hd _).2]
      refine ⟨by simp, by simp, ?_⟩
      omega
    · by_cases h1 : 0 < g / 16
      · simp only [h3, h2, h1, if_true, if_false, List.all_cons, List.all_nil, hexVal,
          List.foldl_cons, List.foldl_nil, (hd _).1, (hd _).2]
        refine ⟨by simp, by simp, ?_⟩
        omega
      · simp only [h3, h2, h1, if_true, if_false, List.all_cons, List.all_nil, hexVal,
          List.foldl_cons, List.foldl_nil, (hd _).1, (hd _).2]
        refine ⟨by simp, by simp, ?_⟩
        omega

/-- The group made of two bytes, and the two bytes of a group. -/
theorem group_bytes (b0 b1 : Nat) (h0 : b0 < 256) (h1 : b1 < 256) :
    (b0 <<< 8 ||| b1) = b0 * 256 + b1 ∧ (b0 <<< 8 ||| b1) < 65536 ∧
      ((b0 <<< 8 ||| b1) >>> 8) % 256 = b0 ∧ (b0 <<< 8 ||| b1) % 256 = b1 := by
  have h : (b0 <<< 8 ||| b1) = b0 * 256 + b1 := by
    have := Nat.mul_add_lt_is_or (i := 8) (b := b1) (by norm_num; omega) b0
    rw [Nat.shiftLeft_eq, Nat.mul_comm b0 (2 ^ 8), ← this]
  rw [h, Nat.shiftRight_eq_div_pow]
  norm_num
  omega

end net

namespace net

theorem appendHex_append (l m : List Char) (g : Nat) :
    appendHex (l ++ m) g = (l ++ m) ++ appendHex [] g := appendHex_eq _ _

/-- The text of an address whose last twelve bytes are zero: the two leading
groups, as far as they are not zero, and `::`. -/
theorem String_masked (b0 b1 b2 b3 : Nat) :
    IP.String [b0, b1, b2, b3, 0, 0, 0, 0, 0, 0, 0, 0, 0, 0, 0, 0] =
      if b2 = 0 ∧ b3 = 0 then
        if b0 = 0 ∧ b1 = 0 then "::"
        else String.mk (appendHex [] (b0 <<< 8 ||| b1) ++ [':', ':'])
      else
        String.mk (appendHex [] (b0 <<< 8 ||| b1) ++
          ':' :: (appendHex [] (b2 <<< 8 ||| b3) ++ [':', ':'])) := by
  have hto4 : ∀ x0 x1 x2 x3 : Nat,
      IP.To4 [x0, x1, x2, x3, 0, 0, 0, 0, 0, 0, 0, 0, 0, 0, 0, 0] = [] := by
    intro x0 x1 x2 x3
    simp [IP.To4, IPv4len, IPv6len]
  by_cases h0 : b0 = 0 <;> by_cases h1 : b1 = 0 <;> by_cases h2 : b2 = 0 <;>
    by_cases h3 : b3 = 0 <;>
    simp [IP.String, hto4, IPv4len, IPv6len, longestZeroRun, zeroRunEnd, printGroups,
      appendHex_append, h0, h1, h2, h3]

end net

namespace net

theorem hex_ne_sep (c : Char) (hc : isHexDigit c = true) :
    (c == ':') = false ∧ (c == '.') = false := by
  constructor <;> rw [beq_eq_false_iff_ne] <;> rintro rfl <;> exact absurd hc (by decide)

theorem parseIPScan_hex (s ds rest : List Char) (hd : ds.all isHexDigit = true) :
    parseIPScan s (ds ++ ':' :: rest) = parseIPv6 s := by
  induction ds with
  | nil => simp [parseIPScan]
  | cons c cs ih =>
    simp only [List.all_cons, Bool.and_eq_true] at hd
    obtain ⟨hc1, hc2⟩ := hex_ne_sep c hd.1
    simp [parseIPScan, hc1, hc2, ih hd.2]

/-- Parsing one group followed by `::`. -/
theorem parseIPv6_one_group (ds : List Char) (hd : ds.all isHexDigit = true) (hne : ds ≠ [])
    (hval : hexVal 0 ds ≤ 0xFFFF) :
    parseIPv6 (ds ++ [':', ':']) =
      [(hexVal 0 ds >>> 8) % 256, hexVal 0 ds % 256, 0, 0, 0, 0, 0, 0, 0, 0, 0, 0, 0, 0, 0, 0] := by
  have hloop := parseIPv6Loop_group_ellipsis 7 ds 0
    [0, 0, 0, 0, 0, 0, 0, 0, 0, 0, 0, 0, 0, 0, 0, 0] hd hne hval (by decide)
  cases ds with
  | nil => exact absurd rfl hne
  | cons x xs =>
    simp only [List.all_cons, Bool.and_eq_true] at hd
    obtain ⟨hx, -⟩ := hex_ne_sep x hd.1
    simp only [List.cons_append, List.set_cons_zero, List.set_cons_succ, Nat.zero_add,
      Nat.reduceAdd] at hloop
    simp only [parseIPv6, IPv6len, List.cons_append, List.getD_cons_zero, hx, Bool.and_false,
      Bool.false_and, Bool.false_eq_true, if_false, List.replicate, hloop]
    simp

/-- Parsing two groups followed by `::`. -/
theorem parseIPv6_two_groups (ds es : List Char) (hd : ds.all isHexDigit = true) (hne : ds ≠ [])
    (hval : hexVal 0 ds ≤ 0xFFFF) (he : es.all isHexDigit = true) (hene : es ≠ [])
    (heval : hexVal 0 es ≤ 0xFFFF) :
    parseIPv6 (ds ++ ':' :: (es ++ [':', ':'])) =
      [(hexVal 0 ds >>> 8) % 256, hexVal 0 ds % 256, (hexVal 0 es >>> 8) % 256, hexVal 0 es % 256,
        0, 0, 0, 0, 0, 0, 0, 0, 0, 0, 0, 0] := by
  cases es with
  | nil => exact absurd rfl hene
  | cons y ys =>
    have hy : (y == ':') = false := by
      simp only [List.all_cons, Bool.and_eq_true] at he
      exact (hex_ne_sep y he.1).1
    have h1 := parseIPv6Loop_group 7 ds y (ys ++ [':', ':']) 0
      [0, 0, 0, 0, 0, 0, 0, 0, 0, 0, 0, 0, 0, 0, 0, 0] none hd hne hval (by decide) hy
    have h2 := parseIPv6Loop_group_ellipsis 6 (y :: ys) 2
      [(hexVal 0 ds >>> 8) % 256, hexVal 0 ds % 256, 0, 0, 0, 0, 0, 0, 0, 0, 0, 0, 0, 0, 0, 0]
      he hene heval (by decide)
    cases ds with
    | nil => exact absurd rfl hne
    | cons x xs =>
      simp only [List.all_cons, Bool.and_eq_true] at hd
      obtain ⟨hx, -⟩ := hex_ne_sep x hd.1
      simp only [List.cons_append, List.set_cons_zero, List.set_cons_succ, Nat.zero_add,
        Nat.reduceAdd] at h1 h2
      simp only [parseIPv6, IPv6len, List.cons_append, List.getD_cons_zero, hx, Bool.and_false,
        Bool.false_and, Bool.false_eq_true, if_false, List.replicate, h1, h2]
      simp

/-- The text of an address whose last twelve bytes are zero parses back to
the address. -/
theorem ParseIP_String_masked (b0 b1 b2 b3 : Nat) (h0 : b0 < 256) (h1 : b1 < 256)
    (h2 : b2 < 256) (h3 : b3 < 256) :
    ParseIP (IP.String [b0, b1, b2, b3, 0, 0, 0, 0, 0, 0, 0, 0, 0, 0, 0, 0]) =
      [b0, b1, b2, b3, 0, 0, 0, 0, 0, 0, 0, 0, 0, 0, 0, 0] := by
  obtain ⟨-, hg0, hhi0, hlo0⟩ := group_bytes b0 b1 h0 h1
  obtain ⟨-, hg1, hhi1, hlo1⟩ := group_bytes b2 b3 h2 h3
  obtain ⟨hne0, hd0, hv0⟩ := appendHex_spec _ hg0
  obtain ⟨hne1, hd1, hv1⟩ := appendHex_spec _ hg1
  rw [String_masked]
  by_cases hz1 : b2 = 0 ∧ b3 = 0
  · rw [if_pos hz1]
    obtain ⟨rfl, rfl⟩ := hz1
    by_cases hz0 : b0 = 0 ∧ b1 = 0
    · rw [if_pos hz0]
      obtain ⟨rfl, rfl⟩ := hz0
      decide
    · rw [if_neg hz0]
      show parseIPScan _ _ = _
      have hscan := parseIPScan_hex (appendHex [] (b0 <<< 8 ||| b1) ++ [':', ':'])
        (appendHex [] (b0 <<< 8 ||| b1)) [':'] hd0
      rw [hscan, parseIPv6_one_group _ hd0 hne0 (by omega), hv0, hhi0, hlo0]
  · rw [if_neg hz1]
    show parseIPScan _ _ = _
    have hscan := parseIPScan_hex
      (appendHex [] (b0 <<< 8 ||| b1) ++ ':' :: (appendHex [] (b2 <<< 8 ||| b3) ++ [':', ':']))
      (appendHex [] (b0 <<< 8 ||| b1)) (appendHex [] (b2 <<< 8 ||| b3) ++ [':', ':']) hd0
    rw [hscan, parseIPv6_two_groups _ _ hd0 hne0 (by omega) hd1 hne1 (by omega), hv0, hv1, hhi0,
      hlo0, hhi1, hlo1]

end net


namespace net

/-- A sixteen-byte address for which `To4` is not `nil` is the sixteen-byte
form of an IPv4 address. -/
theorem To4_cases (ip : IP) (h : IP.wf ip) (h4 : IP.To4 ip ≠ []) :
    ∃ a b c d, a < 256 ∧ b < 256 ∧ c < 256 ∧ d < 256 ∧ ip = IPv4 a b c d := by
  obtain ⟨hlen, hb⟩ := h
  rcases ip with _ | ⟨b0, _ | ⟨b1, _ | ⟨b2, _ | ⟨b3, _ | ⟨b4, _ | ⟨b5, _ | ⟨b6, _ | ⟨b7, 
    _ | ⟨b8, _ | ⟨b9, _ | ⟨b10, _ | ⟨b11, _ | ⟨b12, _ | ⟨b13, _ | ⟨b14, _ | ⟨b15, 
    _ | ⟨b16, t⟩⟩⟩⟩⟩⟩⟩⟩⟩⟩⟩⟩⟩⟩⟩⟩⟩
  all_goals try (simp at hlen; done)
  refine ⟨b12, b13, b14, b15, hb _ (by simp), hb _ (by simp), hb _ (by simp), hb _ (by simp), ?_⟩
  by_contra hne
  apply h4
  simp only [IPv4, v4InV6Prefix, List.cons_append, List.nil_append, List.cons.injEq, and_true,
    not_and] at hne
  simp only [IP.To4, IPv4len, IPv6len, List.length_cons, List.length_nil]
  rw [if_neg (by decide)]
  apply if_neg
  intro hc
  simp only [Nat.reduceAdd, beq_self_eq_true, List.take_succ_cons, List.take_zero, List.all_cons,
    List.all_nil, Bool.and_true, Bool.true_and, Bool.and_eq_true, beq_iff_eq,
    List.getD_cons_succ, List.getD_cons_zero] at hc
  obtain ⟨⟨⟨e0, e1, e2, e3, e4, e5, e6, e7, e8, e9⟩, e10⟩, e11⟩ := hc
  exact hne e0 e1 e2 e3 e4 e5 e6 e7 e8 e9 e10 e11

/-- The first four bytes of a well-formed address followed by twelve zeros. -/
theorem take4_zeros (ip : IP) (h : IP.wf ip) :
    ∃ b0 b1 b2 b3, b0 < 256 ∧ b1 < 256 ∧ b2 < 256 ∧ b3 < 256 ∧
      ip.take 4 ++ List.replicate 12 0 = [b0, b1, b2, b3, 0, 0, 0, 0, 0, 0, 0, 0, 0, 0, 0, 0] := by
  obtain ⟨hlen, hb⟩ := h
  rcases ip with _ | ⟨b0, _ | ⟨b1, _ | ⟨b2, _ | ⟨b3, t⟩⟩⟩⟩
  all_goals try (simp at hlen; done)
  exact ⟨b0, b1, b2, b3, hb _ (by simp), hb _ (by simp), hb _ (by simp), hb _ (by simp),
    by simp [List.replicate]⟩

theorem masked_wf (b0 b1 b2 b3 : Nat) (h0 : b0 < 256) (h1 : b1 < 256) (h2 : b2 < 256)
    (h3 : b3 < 256) : IP.wf [b0, b1, b2, b3, 0, 0, 0, 0, 0, 0, 0, 0, 0, 0, 0, 0] := by
  refine ⟨rfl, fun x hx => ?_⟩
  simp only [List.mem_cons, List.mem_singleton, List.not_mem_nil, or_false] at hx
  omega

end net

/-- A string that parses to an address that is not an IPv4 address is
scrubbed to the text of its first four bytes followed by twelve zeros. -/
theorem scrubIPAddressAsStr_of_IPv6 (s : String) (hwf : net.IP.wf (net.ParseIP s))
    (h4 : net.IP.To4 (net.ParseIP s) = []) :
    scrubIPAddressAsStr s = net.IP.String ((net.ParseIP s).take 4 ++ List.replicate 12 0) := by
  have hemp : (net.ParseIP s).isEmpty = false := by
    cases hp : net.ParseIP s with
    | nil => rw [hp] at hwf; exact absurd hwf.1 (by decide)
    | cons x t => rfl
  have h16 : net.IP.To16 (net.ParseIP s) = net.ParseIP s := by
    simp [net.IP.To16, hwf.1, net.IPv4len, net.IPv6len]
  simp [scrubIPAddressAsStr, hemp, h4, h16, net.IP.Mask_ipv6Mask _ hwf]

/-- The three ways `scrubIPAddressAsStr` ends: with `""` for a string that is
no address, with `a.b.c.0` that parses to that IPv4 address, or with the text
of an address with twelve zero bytes at the end that parses to this address. -/
theorem scrubIPAddressAsStr_cases (s : String) :
    (net.ParseIP s = [] ∧ scrubIPAddressAsStr s = "") ∨
    (∃ a b c, a < 256 ∧ b < 256 ∧ c < 256 ∧ net.ParseIP s ≠ [] ∧
      scrubIPAddressAsStr s = Nat.repr a ++ "." ++ Nat.repr b ++ "." ++ Nat.repr c ++ ".0" ∧
      net.ParseIP (scrubIPAddressAsStr s) = net.IPv4 a b c 0) ∨
    (∃ b0 b1 b2 b3, b0 < 256 ∧ b1 < 256 ∧ b2 < 256 ∧ b3 < 256 ∧ net.ParseIP s ≠ [] ∧
      scrubIPAddressAsStr s =
        net.IP.String [b0, b1, b2, b3, 0, 0, 0, 0, 0, 0, 0, 0, 0, 0, 0, 0] ∧
      net.ParseIP (scrubIPAddressAsStr s) =
        [b0, b1, b2, b3, 0, 0, 0, 0, 0, 0, 0, 0, 0, 0, 0, 0]) := by
  rcases net.ParseIP_wf s with hnil | hwf
  · left
    exact ⟨hnil, by simp [scrubIPAddressAsStr, hnil]⟩
  have hne : net.ParseIP s ≠ [] := by
    intro h
    rw [h] at hwf
    exact absurd hwf.1 (by decide)
  by_cases h4 : net.IP.To4 (net.ParseIP s) = []
  · right; right
    obtain ⟨b0, b1, b2, b3, h0, h1, h2, h3, htake⟩ := net.take4_zeros _ hwf
    have hs := scrubIPAddressAsStr_of_IPv6 s hwf h4
    rw [htake] at hs
    exact ⟨b0, b1, b2, b3, h0, h1, h2, h3, hne, hs,
      by rw [hs]; exact net.ParseIP_String_masked b0 b1 b2 b3 h0 h1 h2 h3⟩
  · right; left
    obtain ⟨a, b, c, d, ha, hb, hc, -, hip⟩ := net.To4_cases _ hwf h4
    have hs := scrubIPAddressAsStr_of_IPv4 s a b c d ha hb hc hip
    have hzero : Nat.repr a ++ "." ++ Nat.repr b ++ "." ++ Nat.repr c ++ ".0" =
        Nat.repr a ++ "." ++ Nat.repr b ++ "." ++ Nat.repr c ++ "." ++ Nat.repr 0 := by
      rw [String.append_assoc _ "." (Nat.repr 0)]
      rfl
    exact ⟨a, b, c, ha, hb, hc, hne, hs,
      by rw [hs, hzero]; exact ParseIP_dotted a b c 0 ha hb hc (by decide)⟩

/-- C15: scrubbing is idempotent; a string that parses as an address is
scrubbed to a non-empty string; and a non-empty result parses as an address
that masking with the mask of its family leaves unchanged. -/
theorem scrubIPAddressAsStr_idempotent (s : String) :
    scrubIPAddressAsStr (scrubIPAddressAsStr s) = scrubIPAddressAsStr s ∧
    (net.ParseIP s ≠ [] → scrubIPAddressAsStr s ≠ "") ∧
    (scrubIPAddressAsStr s ≠ "" →
      net.ParseIP (scrubIPAddressAsStr s) ≠ [] ∧
      (net.IP.To4 (net.ParseIP (scrubIPAddressAsStr s)) ≠ [] →
        net.IP.Mask (net.ParseIP (scrubIPAddressAsStr s)) ipv4Mask =
          net.IP.To4 (net.ParseIP (scrubIPAddressAsStr s))) ∧
      (net.IP.To4 (net.ParseIP (scrubIPAddressAsStr s)) = [] →
        net.IP.Mask (net.ParseIP (scrubIPAddressAsStr s)) ipv6Mask =
          net.ParseIP (scrubIPAddressAsStr s))) := by
  have hempty : net.ParseIP "" = [] := by decide
  have hnonempty : ∀ t : String, net.ParseIP t ≠ [] → t ≠ "" := by
    rintro t ht rfl
    exact ht hempty
  rcases scrubIPAddressAsStr_cases s with ⟨hnil, hs⟩ | ⟨a, b, c, ha, hb, hc, hne, hs, hp⟩ |
    ⟨b0, b1, b2, b3, h0, h1, h2, h3, hne, hs, hp⟩
  · refine ⟨?_, fun h => absurd hnil h, fun h => absurd hs h⟩
    rw [hs]
    decide
  · have hpne : net.ParseIP (scrubIPAddressAsStr s) ≠ [] := by
      rw [hp]; simp [net.IPv4, net.v4InV6Prefix]
    refine ⟨?_, fun _ => hnonempty _ hpne, fun _ => ⟨hpne, fun _ => ?_, fun h => ?_⟩⟩
    · rw [scrubIPAddressAsStr_of_IPv4 _ a b c 0 ha hb hc hp, hs]
    · rw [hp]
      simp [net.IP.Mask, net.IP.To4, net.IPv4, net.v4InV6Prefix, ipv4Mask, net.CIDRMask,
        net.cidrLoop, net.IPv4len, net.IPv6len, net.land_255 a ha, net.land_255 b hb,
        net.land_255 c hc]
    · rw [hp] at h
      simp [net.IP.To4, net.IPv4, net.v4InV6Prefix, net.IPv4len, net.IPv6len] at h
  · have hwf := net.masked_wf b0 b1 b2 b3 h0 h1 h2 h3
    have hpne : net.ParseIP (scrubIPAddressAsStr s) ≠ [] := by
      rw [hp]; simp
    have h4 : net.IP.To4 (net.ParseIP (scrubIPAddressAsStr s)) = [] := by
      rw [hp]; simp [net.IP.To4, net.IPv4len, net.IPv6len]
    have hmask := net.IP.Mask_ipv6Mask _ hwf
    simp only [List.take_succ_cons, List.take_zero, List.cons_append, List.nil_append,
      List.replicate] at hmask
    refine ⟨?_, fun _ => hnonempty _ hpne, fun _ => ⟨hpne, fun h => absurd h4 h, fun _ => ?_⟩⟩
    · have := scrubIPAddressAsStr_of_IPv6 (scrubIPAddressAsStr s) (hp ▸ hwf) h4
      rw [this, hp, hs]
      simp [List.replicate]
    · rw [hp]
      exact hmask

/-- C15 at an IPv6 address, an IPv4 address and a string that is no
address. -/
theorem scrubIPAddressAsStr_idempotent_witness :
    (scrubIPAddressAsStr "2001:db8:1:2::5" = "2001:db8::" ∧
      scrubIPAddressAsStr (scrubIPAddressAsStr "2001:db8:1:2::5") =
        scrubIPAddressAsStr "2001:db8:1:2::5") ∧
    scrubIPAddressAsStr (scrubIPAddressAsStr "192.168.17.42") =
      scrubIPAddressAsStr "192.168.17.42" ∧
    scrubIPAddressAsStr (scrubIPAddressAsStr "not-an-ip") = scrubIPAddressAsStr "not-an-ip" :=
  ⟨⟨by decide, (scrubIPAddressAsStr_idempotent "2001:db8:1:2::5").1⟩,
    (scrubIPAddressAsStr_idempotent "192.168.17.42").1,
    (scrubIPAddressAsStr_idempotent "not-an-ip").1⟩

end FileServer
